import Mathlib

/-!
# The table-driven automaton of `lexing.c`

A shallow embedding of `runtime/ocamlcc-byterun-4.00/lexing.c`: the accessor
`Short`, the two capture-program interpreters `run_mem` and `run_tag`, the plain
engine `old_caml_lex_engine` and the engine with memory of positions
`old_caml_new_lex_engine`.

Modelling conventions.

* An OCaml `value` holding an integer is an `Int`; the tagging (`Val_int`,
  `Int_val`, `Long_val`) is the identity, so `lex_curr_pos += 2` on the tagged
  word is `+ 1` here.  Machine overflow of positions is not modelled; the `int`
  variables of the engines hold a table word, or a table word plus a character,
  and `start_state` is taken to fit an `int`.
* A string block that is only read at computed offsets (the tables, the input
  buffer) is the function giving the byte found at each offset; the C code makes
  no bounds check on these reads and neither does the model.
* The capture bytecode `lex_code` is scanned up to a terminator, so its extent
  matters: it is a list of bytes, and a program that runs off the blob has no
  defined result (`none`).
* `caml_failwith "lexing: empty token"` is the outcome `Outcome.empty_token`.
-/

namespace Lexing

/-! ## Data model -/

/-- The record `struct lexer_buffer`, field for field. -/
structure lexer_buffer where
  refill_buff : Int
  lex_buffer : Int → Nat
  lex_buffer_len : Int
  lex_abs_pos : Int
  lex_start_pos : Int
  lex_curr_pos : Int
  lex_last_pos : Int
  lex_last_action : Int
  lex_eof_reached : Bool
  lex_mem : Nat → Int
  lex_start_p : Int
  lex_curr_p : Int

/-- The record `struct lexing_table`, field for field. -/
structure lexing_table where
  lex_base : Int → Nat
  lex_backtrk : Int → Nat
  lex_default : Int → Nat
  lex_trans : Int → Nat
  lex_check : Int → Nat
  lex_base_code : Int → Nat
  lex_backtrk_code : Int → Nat
  lex_default_code : Int → Nat
  lex_trans_code : Int → Nat
  lex_check_code : Int → Nat
  lex_code : List Nat

/-- The read `Byte_u(s, i)`: the byte at offset `i`, as an `unsigned char`. -/
def Byte_u (s : Int → Nat) (i : Int) : Int :=
  ((s i % 256 : Nat) : Int)

/-- The read `*((schar *)(s + i))`: the byte at offset `i`, as a signed char. -/
def Byte_s (s : Int → Nat) (i : Int) : Int :=
  if s i % 256 < 128 then ((s i % 256 : Nat) : Int) else ((s i % 256 : Nat) : Int) - 256

/-- The portable variant of the accessor `Short(tbl, n)`:
`*((unsigned char *)(tbl + n * 2)) + (*((schar *)(tbl + n * 2 + 1)) << 8)`. -/
def Short (tbl : Int → Nat) (n : Int) : Int :=
  Byte_u tbl (n * 2) + Byte_s tbl (n * 2 + 1) * 256

/-- What a call leaves the caller with: a returned integer, or the exception of
`caml_failwith("lexing: empty token")`. -/
inductive Outcome where
  | ret (v : Int)
  | empty_token
  deriving DecidableEq, Repr

/-- One pass through the body of `while(1)`: either the function is left, or the
loop goes round again in a new state. -/
inductive Step where
  | exit (o : Outcome) (lexbuf : lexer_buffer)
  | continue (state : Int) (lexbuf : lexer_buffer)

/-! ## The plain engine -/

/-- Lines 105 to 109: the double-array lookup of the next state on character `c`. -/
def next_state (tbl : lexing_table) (state base c : Int) : Int :=
  if Short tbl.lex_check (base + c) = state then Short tbl.lex_trans (base + c)
  else Short tbl.lex_default state

/-- Lines 110 to 123: on a dead end go back to the last backtrack point, else go
round again (erasing the EOF condition when the pseudo-character 256 was
consumed). -/
def lex_trans (tbl : lexing_table) (state base c : Int) (lexbuf : lexer_buffer) : Step :=
  let state1 := next_state tbl state base c
  if state1 < 0 then
    let lexbuf := { lexbuf with lex_curr_pos := lexbuf.lex_last_pos }
    if lexbuf.lex_last_action = -1 then .exit .empty_token lexbuf
    else .exit (.ret lexbuf.lex_last_action) lexbuf
  else
    .continue state1 (if c = 256 then { lexbuf with lex_eof_reached := false } else lexbuf)

/-- Lines 87 to 92: see if `state` is a backtrack point. -/
def mark_backtrk (tbl : lexing_table) (state : Int) (lexbuf : lexer_buffer) : lexer_buffer :=
  let backtrk := Short tbl.lex_backtrk state
  if backtrk ≥ 0 then
    { lexbuf with lex_last_pos := lexbuf.lex_curr_pos, lex_last_action := backtrk }
  else lexbuf

/-- Lines 84 to 123: the body of the loop of `old_caml_lex_engine`. -/
def lex_iter (tbl : lexing_table) (state : Int) (lexbuf : lexer_buffer) : Step :=
  let base := Short tbl.lex_base state
  if base < 0 then .exit (.ret (-base - 1)) lexbuf
  else
    let lexbuf := mark_backtrk tbl state lexbuf
    if lexbuf.lex_curr_pos ≥ lexbuf.lex_buffer_len then
      if lexbuf.lex_eof_reached = false then .exit (.ret (-state - 1)) lexbuf
      else lex_trans tbl state base 256 lexbuf
    else
      let c := Byte_u lexbuf.lex_buffer lexbuf.lex_curr_pos
      lex_trans tbl state base c { lexbuf with lex_curr_pos := lexbuf.lex_curr_pos + 1 }

/-- What is left to scan: two units per unread byte, one for a pending EOF. -/
def lex_measure (lexbuf : lexer_buffer) : Nat :=
  2 * (lexbuf.lex_buffer_len - lexbuf.lex_curr_pos).toNat +
    (if lexbuf.lex_eof_reached then 1 else 0)

theorem lex_trans_dead {tbl : lexing_table} {state base c : Int} (lexbuf : lexer_buffer)
    (h : next_state tbl state base c < 0) :
    lex_trans tbl state base c lexbuf =
      .exit (if lexbuf.lex_last_action = -1 then .empty_token else .ret lexbuf.lex_last_action)
        { lexbuf with lex_curr_pos := lexbuf.lex_last_pos } := by
  unfold lex_trans
  simp only [h, if_true]
  split <;> rfl

theorem lex_trans_live {tbl : lexing_table} {state base c : Int} (lexbuf : lexer_buffer)
    (h : 0 ≤ next_state tbl state base c) :
    lex_trans tbl state base c lexbuf =
      .continue (next_state tbl state base c)
        (if c = 256 then { lexbuf with lex_eof_reached := false } else lexbuf) := by
  unfold lex_trans
  simp only [not_lt.mpr h, if_false]

theorem lex_trans_continue {tbl : lexing_table} {state base c s1 : Int}
    {lexbuf lb1 : lexer_buffer} (h : lex_trans tbl state base c lexbuf = .continue s1 lb1) :
    0 ≤ next_state tbl state base c ∧ s1 = next_state tbl state base c ∧
      lb1 = (if c = 256 then { lexbuf with lex_eof_reached := false } else lexbuf) := by
  by_cases hn : next_state tbl state base c < 0
  · rw [lex_trans_dead lexbuf hn] at h
    cases h
  · have hn1 : 0 ≤ next_state tbl state base c := not_lt.mp hn
    rw [lex_trans_live lexbuf hn1] at h
    simp only [Step.continue.injEq] at h
    exact ⟨hn1, h.1.symm, h.2.symm⟩

theorem mark_backtrk_curr_pos (tbl : lexing_table) (state : Int) (lexbuf : lexer_buffer) :
    (mark_backtrk tbl state lexbuf).lex_curr_pos = lexbuf.lex_curr_pos := by
  unfold mark_backtrk
  simp only
  split <;> rfl

theorem mark_backtrk_buffer_len (tbl : lexing_table) (state : Int) (lexbuf : lexer_buffer) :
    (mark_backtrk tbl state lexbuf).lex_buffer_len = lexbuf.lex_buffer_len := by
  unfold mark_backtrk
  simp only
  split <;> rfl

theorem mark_backtrk_eof_reached (tbl : lexing_table) (state : Int) (lexbuf : lexer_buffer) :
    (mark_backtrk tbl state lexbuf).lex_eof_reached = lexbuf.lex_eof_reached := by
  unfold mark_backtrk
  simp only
  split <;> rfl

theorem lex_iter_accept {tbl : lexing_table} {state : Int} (lexbuf : lexer_buffer)
    (h : Short tbl.lex_base state < 0) :
    lex_iter tbl state lexbuf = .exit (.ret (-Short tbl.lex_base state - 1)) lexbuf := by
  unfold lex_iter
  simp only [h, if_true]

theorem lex_iter_refill {tbl : lexing_table} {state : Int} (lexbuf : lexer_buffer)
    (hb : 0 ≤ Short tbl.lex_base state) (hlen : lexbuf.lex_buffer_len ≤ lexbuf.lex_curr_pos)
    (heof : lexbuf.lex_eof_reached = false) :
    lex_iter tbl state lexbuf = .exit (.ret (-state - 1)) (mark_backtrk tbl state lexbuf) := by
  unfold lex_iter
  simp only [not_lt.mpr hb, if_false, ge_iff_le, mark_backtrk_curr_pos, mark_backtrk_buffer_len,
    mark_backtrk_eof_reached, hlen, heof, if_true]

theorem lex_iter_eof {tbl : lexing_table} {state : Int} (lexbuf : lexer_buffer)
    (hb : 0 ≤ Short tbl.lex_base state) (hlen : lexbuf.lex_buffer_len ≤ lexbuf.lex_curr_pos)
    (heof : lexbuf.lex_eof_reached = true) :
    lex_iter tbl state lexbuf =
      lex_trans tbl state (Short tbl.lex_base state) 256 (mark_backtrk tbl state lexbuf) := by
  unfold lex_iter
  simp [not_lt.mpr hb, mark_backtrk_curr_pos, mark_backtrk_buffer_len,
    mark_backtrk_eof_reached, hlen, heof]

theorem lex_iter_byte {tbl : lexing_table} {state : Int} (lexbuf : lexer_buffer)
    (hb : 0 ≤ Short tbl.lex_base state) (hlen : lexbuf.lex_curr_pos < lexbuf.lex_buffer_len) :
    lex_iter tbl state lexbuf =
      lex_trans tbl state (Short tbl.lex_base state)
        (Byte_u lexbuf.lex_buffer lexbuf.lex_curr_pos)
        { mark_backtrk tbl state lexbuf with lex_curr_pos := lexbuf.lex_curr_pos + 1 } := by
  have hbuf : (mark_backtrk tbl state lexbuf).lex_buffer = lexbuf.lex_buffer := by
    unfold mark_backtrk
    simp only
    split <;> rfl
  unfold lex_iter
  simp only [not_lt.mpr hb, if_false, ge_iff_le, mark_backtrk_curr_pos, mark_backtrk_buffer_len,
    not_le.mpr hlen, hbuf]

theorem Byte_u_lt (s : Int → Nat) (i : Int) : 0 ≤ Byte_u s i ∧ Byte_u s i < 256 := by
  unfold Byte_u
  omega

theorem lex_iter_measure {tbl : lexing_table} {state s1 : Int} {lexbuf lb1 : lexer_buffer}
    (h : lex_iter tbl state lexbuf = .continue s1 lb1) :
    lex_measure lb1 < lex_measure lexbuf := by
  by_cases hb : Short tbl.lex_base state < 0
  · rw [lex_iter_accept lexbuf hb] at h
    cases h
  · have hb1 : 0 ≤ Short tbl.lex_base state := not_lt.mp hb
    by_cases hlen : lexbuf.lex_curr_pos < lexbuf.lex_buffer_len
    · rw [lex_iter_byte lexbuf hb1 hlen] at h
      obtain ⟨-, -, h3⟩ := lex_trans_continue h
      have hc := Byte_u_lt lexbuf.lex_buffer lexbuf.lex_curr_pos
      rw [if_neg (by omega)] at h3
      subst h3
      simp only [lex_measure, mark_backtrk_buffer_len, mark_backtrk_eof_reached]
      omega
    · have hlen1 : lexbuf.lex_buffer_len ≤ lexbuf.lex_curr_pos := not_lt.mp hlen
      cases heof : lexbuf.lex_eof_reached
      · rw [lex_iter_refill lexbuf hb1 hlen1 heof] at h
        cases h
      · rw [lex_iter_eof lexbuf hb1 hlen1 heof] at h
        obtain ⟨-, -, h3⟩ := lex_trans_continue h
        rw [if_pos rfl] at h3
        subst h3
        simp [lex_measure, mark_backtrk_buffer_len, mark_backtrk_curr_pos, heof]

/-- The loop `while(1)` of `old_caml_lex_engine`, from `state`. -/
def lex_loop (tbl : lexing_table) (state : Int) (lexbuf : lexer_buffer) :
    Outcome × lexer_buffer :=
  match h : lex_iter tbl state lexbuf with
  | .exit o lb => (o, lb)
  | .continue s1 lb1 => lex_loop tbl s1 lb1
termination_by lex_measure lexbuf
decreasing_by exact lex_iter_measure h

/-- The function `old_caml_lex_engine` (lines 69 to 125). -/
def old_caml_lex_engine (tbl : lexing_table) (start_state : Int) (lexbuf : lexer_buffer) :
    Outcome × lexer_buffer :=
  let state := start_state
  if state ≥ 0 then
    lex_loop tbl state
      { lexbuf with
        lex_last_pos := lexbuf.lex_curr_pos
        lex_start_pos := lexbuf.lex_curr_pos
        lex_last_action := -1 }
  else
    lex_loop tbl (-state - 1) lexbuf

theorem lex_loop_exit {tbl : lexing_table} {state : Int} {lexbuf lb : lexer_buffer}
    {o : Outcome} (h : lex_iter tbl state lexbuf = .exit o lb) :
    lex_loop tbl state lexbuf = (o, lb) := by
  rw [lex_loop]
  split
  · rename_i o1 lb1 h1
    rw [h] at h1
    cases h1
    rfl
  · rename_i s1 lb1 h1
    rw [h] at h1
    cases h1

theorem lex_loop_continue {tbl : lexing_table} {state s1 : Int} {lexbuf lb1 : lexer_buffer}
    (h : lex_iter tbl state lexbuf = .continue s1 lb1) :
    lex_loop tbl state lexbuf = lex_loop tbl s1 lb1 := by
  rw [lex_loop]
  split
  · rename_i o2 lb2 h2
    rw [h] at h2
    cases h2
  · rename_i s2 lb2 h2
    rw [h] at h2
    cases h2
    rfl

/-- Induction along the loop: a property that holds at a configuration as soon as
it holds at the configuration the body continues with, holds everywhere. -/
theorem lex_loop_induct (tbl : lexing_table) (P : Int → lexer_buffer → Prop)
    (step : ∀ state lexbuf,
      (∀ s1 lb1, lex_iter tbl state lexbuf = .continue s1 lb1 → P s1 lb1) → P state lexbuf) :
    ∀ state lexbuf, P state lexbuf := by
  intro state lexbuf
  generalize hn : lex_measure lexbuf = n
  induction n using Nat.strong_induction_on generalizing state lexbuf with
  | _ n ih =>
    apply step
    intro s1 lb1 h1
    have hlt := lex_iter_measure h1
    rw [hn] at hlt
    exact ih _ hlt s1 lb1 rfl

/-! ## The capture programs -/

/-- The loop of `run_mem` (lines 131 to 147) on the bytes from `pc` on: `*pc++`
takes the head.  Running off the blob gives `none`. -/
def run_mem_from : List Nat → (Nat → Int) → Int → Option (Nat → Int)
  | [], _, _ => none
  | dst :: rest, mem, curr_pos =>
    if dst % 256 = 0xff then some mem
    else
      match rest with
      | [] => none
      | src :: rest1 =>
        if src % 256 = 0xff then
          run_mem_from rest1 (Function.update mem (dst % 256) curr_pos) curr_pos
        else
          run_mem_from rest1 (Function.update mem (dst % 256) (mem (src % 256))) curr_pos

/-- The loop of `run_tag` (lines 149 to 165) on the bytes from `pc` on. -/
def run_tag_from : List Nat → (Nat → Int) → Option (Nat → Int)
  | [], _ => none
  | dst :: rest, mem =>
    if dst % 256 = 0xff then some mem
    else
      match rest with
      | [] => none
      | src :: rest1 =>
        if src % 256 = 0xff then
          run_tag_from rest1 (Function.update mem (dst % 256) (-1))
        else
          run_tag_from rest1 (Function.update mem (dst % 256) (mem (src % 256)))

/-- The call `run_mem(Bp_val(code) + pc_off, mem, curr_pos)`. -/
def run_mem (code : List Nat) (pc_off : Int) (mem : Nat → Int) (curr_pos : Int) :
    Option (Nat → Int) :=
  if pc_off < 0 then none else run_mem_from (code.drop pc_off.toNat) mem curr_pos

/-- The call `run_tag(Bp_val(code) + pc_off, mem)`. -/
def run_tag (code : List Nat) (pc_off : Int) (mem : Nat → Int) : Option (Nat → Int) :=
  if pc_off < 0 then none else run_tag_from (code.drop pc_off.toNat) mem

/-! ## The engine with memory of positions -/

/-- Lines 201 to 209: at a backtrack point, run its tag program, then record it. -/
def new_mark_backtrk (tbl : lexing_table) (state : Int) (lexbuf : lexer_buffer) :
    Option lexer_buffer :=
  let backtrk := Short tbl.lex_backtrk state
  if backtrk ≥ 0 then
    let pc_off := Short tbl.lex_backtrk_code state
    match run_tag tbl.lex_code pc_off lexbuf.lex_mem with
    | none => none
    | some mem =>
      some { lexbuf with
        lex_mem := mem
        lex_last_pos := lexbuf.lex_curr_pos
        lex_last_action := backtrk }
  else some lexbuf

/-- Lines 237 to 245: the offset of the memory program of the transition taken
from `pstate` on `c`. -/
def trans_pc_off (tbl : lexing_table) (pstate c : Int) : Int :=
  let base_code := Short tbl.lex_base_code pstate
  if Short tbl.lex_check_code (base_code + c) = pstate then
    Short tbl.lex_trans_code (base_code + c)
  else Short tbl.lex_default_code pstate

/-- Lines 222 to 250: as `lex_trans`, with the memory moves of a transition that
is taken. -/
def new_lex_trans (tbl : lexing_table) (state base c : Int) (lexbuf : lexer_buffer) :
    Option Step :=
  let pstate := state
  let state1 := next_state tbl state base c
  if state1 < 0 then
    let lexbuf := { lexbuf with lex_curr_pos := lexbuf.lex_last_pos }
    if lexbuf.lex_last_action = -1 then some (.exit .empty_token lexbuf)
    else some (.exit (.ret lexbuf.lex_last_action) lexbuf)
  else
    let pc_off := trans_pc_off tbl pstate c
    match (if pc_off > 0 then run_mem tbl.lex_code pc_off lexbuf.lex_mem lexbuf.lex_curr_pos
           else some lexbuf.lex_mem) with
    | none => none
    | some mem =>
      let lexbuf := { lexbuf with lex_mem := mem }
      some (.continue state1
        (if c = 256 then { lexbuf with lex_eof_reached := false } else lexbuf))

/-- Lines 193 to 250: the body of the loop of `old_caml_new_lex_engine`. -/
def new_lex_iter (tbl : lexing_table) (state : Int) (lexbuf : lexer_buffer) : Option Step :=
  let base := Short tbl.lex_base state
  if base < 0 then
    let pc_off := Short tbl.lex_base_code state
    match run_tag tbl.lex_code pc_off lexbuf.lex_mem with
    | none => none
    | some mem => some (.exit (.ret (-base - 1)) { lexbuf with lex_mem := mem })
  else
    match new_mark_backtrk tbl state lexbuf with
    | none => none
    | some lexbuf =>
      if lexbuf.lex_curr_pos ≥ lexbuf.lex_buffer_len then
        if lexbuf.lex_eof_reached = false then some (.exit (.ret (-state - 1)) lexbuf)
        else new_lex_trans tbl state base 256 lexbuf
      else
        let c := Byte_u lexbuf.lex_buffer lexbuf.lex_curr_pos
        new_lex_trans tbl state base c { lexbuf with lex_curr_pos := lexbuf.lex_curr_pos + 1 }

/-- The buffer `lexbuf` with its capture cells replaced by `mem`. -/
def lexer_buffer.with_mem (lexbuf : lexer_buffer) (mem : Nat → Int) : lexer_buffer :=
  { lexbuf with lex_mem := mem }

/-- The step `s` with the capture cells of its buffer replaced by `mem`. -/
def Step.with_mem : Step → (Nat → Int) → Step
  | .exit o lb, mem => .exit o (lb.with_mem mem)
  | .continue s1 lb, mem => .continue s1 (lb.with_mem mem)

theorem lex_trans_with_mem (tbl : lexing_table) (state base c : Int) (lexbuf : lexer_buffer)
    (mem : Nat → Int) :
    lex_trans tbl state base c (lexbuf.with_mem mem) =
      (lex_trans tbl state base c lexbuf).with_mem mem := by
  unfold lex_trans
  simp only [lexer_buffer.with_mem]
  split
  · split <;> rfl
  · split <;> rfl

theorem mark_backtrk_with_mem (tbl : lexing_table) (state : Int) (lexbuf : lexer_buffer)
    (mem : Nat → Int) :
    mark_backtrk tbl state (lexbuf.with_mem mem) = (mark_backtrk tbl state lexbuf).with_mem mem := by
  unfold mark_backtrk
  simp only [lexer_buffer.with_mem]
  split <;> rfl

theorem lex_iter_with_mem (tbl : lexing_table) (state : Int) (lexbuf : lexer_buffer)
    (mem : Nat → Int) :
    lex_iter tbl state (lexbuf.with_mem mem) = (lex_iter tbl state lexbuf).with_mem mem := by
  by_cases hb : Short tbl.lex_base state < 0
  · rw [lex_iter_accept _ hb, lex_iter_accept _ hb]
    rfl
  · have hb1 : 0 ≤ Short tbl.lex_base state := not_lt.mp hb
    by_cases hlen : lexbuf.lex_curr_pos < lexbuf.lex_buffer_len
    · rw [lex_iter_byte (lexbuf.with_mem mem) hb1 hlen, lex_iter_byte lexbuf hb1 hlen,
        mark_backtrk_with_mem]
      exact lex_trans_with_mem tbl state _ _
        { mark_backtrk tbl state lexbuf with lex_curr_pos := lexbuf.lex_curr_pos + 1 } mem
    · have hlen1 : lexbuf.lex_buffer_len ≤ lexbuf.lex_curr_pos := not_lt.mp hlen
      cases heof : lexbuf.lex_eof_reached
      · rw [lex_iter_refill (lexbuf.with_mem mem) hb1 hlen1 heof,
          lex_iter_refill lexbuf hb1 hlen1 heof, mark_backtrk_with_mem]
        rfl
      · rw [lex_iter_eof (lexbuf.with_mem mem) hb1 hlen1 heof,
          lex_iter_eof lexbuf hb1 hlen1 heof, mark_backtrk_with_mem]
        exact lex_trans_with_mem tbl state _ _ _ mem

theorem with_mem_self (lexbuf : lexer_buffer) : lexbuf.with_mem lexbuf.lex_mem = lexbuf := rfl

theorem with_mem_with_mem (lexbuf : lexer_buffer) (m1 m2 : Nat → Int) :
    (lexbuf.with_mem m1).with_mem m2 = lexbuf.with_mem m2 := rfl

theorem Step.with_mem_twice (stp : Step) (m1 m2 : Nat → Int) :
    (stp.with_mem m1).with_mem m2 = stp.with_mem m2 := by
  cases stp <;> rfl

theorem mark_backtrk_buffer (tbl : lexing_table) (state : Int) (lexbuf : lexer_buffer) :
    (mark_backtrk tbl state lexbuf).lex_buffer = lexbuf.lex_buffer := by
  unfold mark_backtrk
  simp only
  split <;> rfl

theorem new_mark_backtrk_erase {tbl : lexing_table} {state : Int} {lexbuf lb1 : lexer_buffer}
    (h : new_mark_backtrk tbl state lexbuf = some lb1) :
    mark_backtrk tbl state lexbuf = lb1.with_mem lexbuf.lex_mem := by
  unfold new_mark_backtrk at h
  unfold mark_backtrk
  simp only at h ⊢
  split at h
  · rename_i hb
    rw [if_pos hb]
    split at h
    · cases h
    · cases h
      rfl
  · rename_i hb
    rw [if_neg hb]
    cases h
    rfl

theorem new_lex_trans_erase {tbl : lexing_table} {state base c : Int} {lexbuf : lexer_buffer}
    {stp : Step} (h : new_lex_trans tbl state base c lexbuf = some stp) :
    lex_trans tbl state base c lexbuf = stp.with_mem lexbuf.lex_mem := by
  unfold new_lex_trans at h
  simp only at h
  split at h
  · rename_i hn
    rw [lex_trans_dead lexbuf hn]
    split at h
    · rename_i ha
      cases h
      rw [if_pos ha]
      rfl
    · rename_i ha
      cases h
      rw [if_neg ha]
      rfl
  · rename_i hn
    rw [lex_trans_live lexbuf (not_lt.mp hn)]
    split at h
    · cases h
    · cases h
      split <;> rfl

theorem new_lex_iter_erase {tbl : lexing_table} {state : Int} {lexbuf : lexer_buffer}
    {stp : Step} (h : new_lex_iter tbl state lexbuf = some stp) :
    lex_iter tbl state lexbuf = stp.with_mem lexbuf.lex_mem := by
  unfold new_lex_iter at h
  simp only at h
  split at h
  · rename_i hb
    rw [lex_iter_accept lexbuf hb]
    split at h
    · cases h
    · cases h
      rfl
  · rename_i hb
    have hb1 : 0 ≤ Short tbl.lex_base state := not_lt.mp hb
    split at h
    · cases h
    · rename_i lb1 hm
      have hm1 := new_mark_backtrk_erase hm
      have hcp : lb1.lex_curr_pos = lexbuf.lex_curr_pos := by
        have := congrArg lexer_buffer.lex_curr_pos hm1
        rw [mark_backtrk_curr_pos] at this
        exact this.symm
      have hbl : lb1.lex_buffer_len = lexbuf.lex_buffer_len := by
        have := congrArg lexer_buffer.lex_buffer_len hm1
        rw [mark_backtrk_buffer_len] at this
        exact this.symm
      have heo : lb1.lex_eof_reached = lexbuf.lex_eof_reached := by
        have := congrArg lexer_buffer.lex_eof_reached hm1
        rw [mark_backtrk_eof_reached] at this
        exact this.symm
      have hbuf : lb1.lex_buffer = lexbuf.lex_buffer := by
        have := congrArg lexer_buffer.lex_buffer hm1
        rw [mark_backtrk_buffer] at this
        exact this.symm
      by_cases hlen : lexbuf.lex_curr_pos < lexbuf.lex_buffer_len
      · rw [if_neg (by rw [hcp, hbl]; exact not_le.mpr hlen)] at h
        have h3 := lex_trans_with_mem tbl state (Short tbl.lex_base state)
          (Byte_u lb1.lex_buffer lb1.lex_curr_pos)
          { lb1 with lex_curr_pos := lb1.lex_curr_pos + 1 } lexbuf.lex_mem
        rw [new_lex_trans_erase h, Step.with_mem_twice] at h3
        rw [lex_iter_byte lexbuf hb1 hlen, hm1, ← hbuf, ← hcp]
        exact h3
      · have hlen1 : lexbuf.lex_buffer_len ≤ lexbuf.lex_curr_pos := not_lt.mp hlen
        rw [if_pos (by rw [hcp, hbl]; exact hlen1)] at h
        cases heof : lexbuf.lex_eof_reached
        · rw [if_pos (by rw [heo, heof])] at h
          cases h
          rw [lex_iter_refill lexbuf hb1 hlen1 heof, hm1]
          rfl
        · rw [if_neg (by rw [heo, heof]; simp)] at h
          have h3 := lex_trans_with_mem tbl state (Short tbl.lex_base state) 256 lb1
            lexbuf.lex_mem
          rw [new_lex_trans_erase h, Step.with_mem_twice] at h3
          rw [lex_iter_eof lexbuf hb1 hlen1 heof, hm1]
          exact h3

theorem new_lex_iter_measure {tbl : lexing_table} {state s1 : Int} {lexbuf lb1 : lexer_buffer}
    (h : new_lex_iter tbl state lexbuf = some (.continue s1 lb1)) :
    lex_measure lb1 < lex_measure lexbuf :=
  @lex_iter_measure tbl state s1 lexbuf (lb1.with_mem lexbuf.lex_mem) (new_lex_iter_erase h)

/-- The loop `while(1)` of `old_caml_new_lex_engine`, from `state`. -/
def new_lex_loop (tbl : lexing_table) (state : Int) (lexbuf : lexer_buffer) :
    Option (Outcome × lexer_buffer) :=
  match h : new_lex_iter tbl state lexbuf with
  | none => none
  | some (.exit o lb) => some (o, lb)
  | some (.continue s1 lb1) => new_lex_loop tbl s1 lb1
termination_by lex_measure lexbuf
decreasing_by exact new_lex_iter_measure h

/-- The function `old_caml_new_lex_engine` (lines 178 to 252). -/
def old_caml_new_lex_engine (tbl : lexing_table) (start_state : Int) (lexbuf : lexer_buffer) :
    Option (Outcome × lexer_buffer) :=
  let state := start_state
  if state ≥ 0 then
    new_lex_loop tbl state
      { lexbuf with
        lex_last_pos := lexbuf.lex_curr_pos
        lex_start_pos := lexbuf.lex_curr_pos
        lex_last_action := -1 }
  else
    new_lex_loop tbl (-state - 1) lexbuf

theorem new_lex_loop_none {tbl : lexing_table} {state : Int} {lexbuf : lexer_buffer}
    (h : new_lex_iter tbl state lexbuf = none) :
    new_lex_loop tbl state lexbuf = none := by
  rw [new_lex_loop]
  split
  · rfl
  · rename_i h1
    rw [h] at h1
    cases h1
  · rename_i h1
    rw [h] at h1
    cases h1

theorem new_lex_loop_exit {tbl : lexing_table} {state : Int} {lexbuf lb : lexer_buffer}
    {o : Outcome} (h : new_lex_iter tbl state lexbuf = some (.exit o lb)) :
    new_lex_loop tbl state lexbuf = some (o, lb) := by
  rw [new_lex_loop]
  split
  · rename_i h1
    rw [h] at h1
    cases h1
  · rename_i h1
    rw [h] at h1
    cases h1
    rfl
  · rename_i h1
    rw [h] at h1
    cases h1

theorem new_lex_loop_continue {tbl : lexing_table} {state s1 : Int}
    {lexbuf lb1 : lexer_buffer} (h : new_lex_iter tbl state lexbuf = some (.continue s1 lb1)) :
    new_lex_loop tbl state lexbuf = new_lex_loop tbl s1 lb1 := by
  rw [new_lex_loop]
  split
  · rename_i h1
    rw [h] at h1
    cases h1
  · rename_i h1
    rw [h] at h1
    cases h1
  · rename_i h1
    rw [h] at h1
    cases h1
    rfl

/-! ## Running the loops with a bound on the number of iterations -/

/-- The loop of the plain engine cut after `fuel` iterations (`none`: cut). -/
def lex_loop_fuel (tbl : lexing_table) : Nat → Int → lexer_buffer → Option (Outcome × lexer_buffer)
  | 0, _, _ => none
  | fuel + 1, state, lexbuf =>
    match lex_iter tbl state lexbuf with
    | .exit o lb => some (o, lb)
    | .continue s1 lb1 => lex_loop_fuel tbl fuel s1 lb1

/-- The loop of the engine with memory cut after `fuel` iterations (outer `none`:
cut; inner `none`: a capture program ran off the blob). -/
def new_lex_loop_fuel (tbl : lexing_table) :
    Nat → Int → lexer_buffer → Option (Option (Outcome × lexer_buffer))
  | 0, _, _ => none
  | fuel + 1, state, lexbuf =>
    match new_lex_iter tbl state lexbuf with
    | none => some none
    | some (.exit o lb) => some (some (o, lb))
    | some (.continue s1 lb1) => new_lex_loop_fuel tbl fuel s1 lb1

theorem lex_loop_of_fuel {tbl : lexing_table} {fuel : Nat} {state : Int} {lexbuf : lexer_buffer}
    {r : Outcome × lexer_buffer} (h : lex_loop_fuel tbl fuel state lexbuf = some r) :
    lex_loop tbl state lexbuf = r := by
  induction fuel generalizing state lexbuf with
  | zero => cases h
  | succ n ih =>
    unfold lex_loop_fuel at h
    split at h
    · rename_i o lb hi
      cases h
      exact lex_loop_exit hi
    · rename_i s1 lb1 hi
      rw [lex_loop_continue hi]
      exact ih h

theorem new_lex_loop_of_fuel {tbl : lexing_table} {fuel : Nat} {state : Int}
    {lexbuf : lexer_buffer} {r : Option (Outcome × lexer_buffer)}
    (h : new_lex_loop_fuel tbl fuel state lexbuf = some r) :
    new_lex_loop tbl state lexbuf = r := by
  induction fuel generalizing state lexbuf with
  | zero => cases h
  | succ n ih =>
    unfold new_lex_loop_fuel at h
    split at h
    · rename_i hi
      cases h
      exact new_lex_loop_none hi
    · rename_i o lb hi
      cases h
      exact new_lex_loop_exit hi
    · rename_i s1 lb1 hi
      rw [new_lex_loop_continue hi]
      exact ih h

theorem lex_loop_fuel_map {tbl : lexing_table} {α : Type} (f : Outcome × lexer_buffer → α)
    (fuel : Nat) (state : Int) (lexbuf : lexer_buffer) (a : α)
    (h : (lex_loop_fuel tbl fuel state lexbuf).map f = some a) :
    f (lex_loop tbl state lexbuf) = a := by
  cases hf : lex_loop_fuel tbl fuel state lexbuf with
  | none =>
    rw [hf] at h
    cases h
  | some r =>
    rw [hf] at h
    rw [lex_loop_of_fuel hf]
    simpa using h

theorem new_lex_loop_fuel_map {tbl : lexing_table} {α : Type} (f : Outcome × lexer_buffer → α)
    (fuel : Nat) (state : Int) (lexbuf : lexer_buffer) (a : Option α)
    (h : (new_lex_loop_fuel tbl fuel state lexbuf).map (Option.map f) = some a) :
    (new_lex_loop tbl state lexbuf).map f = a := by
  cases hf : new_lex_loop_fuel tbl fuel state lexbuf with
  | none =>
    rw [hf] at h
    cases h
  | some r =>
    rw [hf] at h
    rw [new_lex_loop_of_fuel hf]
    simpa using h

theorem new_lex_loop_isSome_of_fuel {tbl : lexing_table} (fuel : Nat) (state : Int)
    (lexbuf : lexer_buffer)
    (h : (new_lex_loop_fuel tbl fuel state lexbuf).map Option.isSome = some true) :
    (new_lex_loop tbl state lexbuf).isSome = true := by
  cases hf : new_lex_loop_fuel tbl fuel state lexbuf with
  | none =>
    rw [hf] at h
    cases h
  | some r =>
    rw [hf] at h
    rw [new_lex_loop_of_fuel hf]
    simpa using h

/-! ## Concrete tables and buffers -/

/-- The string block holding the 16-bit words `l`, low byte first. -/
def shorts (l : List Int) : Int → Nat := fun i =>
  if i < 0 then 0
  else if i.toNat % 2 = 0 then ((l.getD (i.toNat / 2) 0) % 256).toNat
  else (((l.getD (i.toNat / 2) 0) / 256) % 256).toNat

/-- The string block holding the bytes `w`. -/
def bytes (w : List Nat) : Int → Nat := fun i =>
  if i < 0 then 0 else w.getD i.toNat 0

/-- A table of `n` words, all `-1` but for the listed `(index, value)` entries. -/
def words (n : Nat) (entries : List (Nat × Int)) : List Int :=
  entries.foldl (fun l e => l.set e.1 e.2) (List.replicate n (-1))

/-- A scan buffer over the bytes `w`, cursor at `0`, with capture cells `mem`. -/
def buffer_of (w : List Nat) (eof : Bool) (mem : Nat → Int) : lexer_buffer :=
  { refill_buff := 0
    lex_buffer := bytes w
    lex_buffer_len := w.length
    lex_abs_pos := 0
    lex_start_pos := 0
    lex_curr_pos := 0
    lex_last_pos := 0
    lex_last_action := -1
    lex_eof_reached := eof
    lex_mem := mem
    lex_start_p := 0
    lex_curr_p := 0 }

/-- A table without capture programs: every code table is zero and the blob is
the empty program. -/
def plain_table (base backtrk default trans check : List Int) : lexing_table :=
  { lex_base := shorts base
    lex_backtrk := shorts backtrk
    lex_default := shorts default
    lex_trans := shorts trans
    lex_check := shorts check
    lex_base_code := shorts []
    lex_backtrk_code := shorts []
    lex_default_code := shorts []
    lex_trans_code := shorts []
    lex_check_code := shorts []
    lex_code := [0xff] }

/-- The automaton of `ab*` (action 0): state 0 is the start, state 1 is reached
on `a` (byte 97), is a backtrack point for action 0 and loops on `b` (byte 98). -/
def table_ab_star : lexing_table :=
  plain_table [0, 1] [-1, 0] [-1, -1]
    (words 260 [(97, 1), (99, 1)]) (words 260 [(97, 0), (99, 1)])

/-- The automaton of `a` (action 0) or `abc` (action 1): state 1, reached on
`a`, is a backtrack point for action 0; state 2, reached on `b`, is not one;
state 3, reached on `c`, is accepting. -/
def table_a_abc : lexing_table :=
  plain_table [0, 1, 2, -2] [-1, 0, -1, -1] [-1, -1, -1, -1]
    (words 360 [(97, 1), (99, 2), (101, 3)]) (words 360 [(97, 0), (99, 1), (101, 2)])

/-- The automaton of `a` (action 0) or `ab` (action 1): state 1, reached on `a`,
is a backtrack point for action 0; state 2, reached on `b`, is accepting. -/
def table_a_ab : lexing_table :=
  plain_table [0, 1, -2] [-1, 0, -1] [-1, -1, -1]
    (words 360 [(97, 1), (99, 2)]) (words 360 [(97, 0), (99, 1)])

/-- The automaton of `ab` alone (action 0): state 1, reached on `a`, is no
backtrack point; state 2, reached on `b`, is accepting. -/
def table_ab : lexing_table :=
  plain_table [0, 1, -1] [-1, -1, -1] [-1, -1, -1]
    (words 360 [(97, 1), (99, 2)]) (words 360 [(97, 0), (99, 1)])

/-! ## Suspending and resuming -/

/-- What the host does on a suspend request: the buffer now holds `buf2` of
length `len2`, and the end of input is asserted. -/
def refill (buf2 : Int → Nat) (len2 : Int) (lexbuf : lexer_buffer) : lexer_buffer :=
  { lexbuf with lex_buffer := buf2, lex_buffer_len := len2, lex_eof_reached := true }

/-- The scan buffer `lexbuf` is over a first chunk `buf1` of length `len1`, with
more input to come, and `buf2`, `len2` extend that chunk. -/
structure Chunk (buf1 buf2 : Int → Nat) (len1 len2 : Int) (lexbuf : lexer_buffer) : Prop where
  buffer_eq : lexbuf.lex_buffer = buf1
  len_eq : lexbuf.lex_buffer_len = len1
  eof_eq : lexbuf.lex_eof_reached = false
  len_le : len1 ≤ len2
  agree : ∀ i : Int, i < len1 → Byte_u buf1 i = Byte_u buf2 i

theorem mark_backtrk_refill (tbl : lexing_table) (state : Int) (buf2 : Int → Nat) (len2 : Int)
    (lexbuf : lexer_buffer) :
    mark_backtrk tbl state (refill buf2 len2 lexbuf) =
      refill buf2 len2 (mark_backtrk tbl state lexbuf) := by
  unfold mark_backtrk
  simp only [refill]
  split <;> rfl

theorem mark_backtrk_idem (tbl : lexing_table) (state : Int) (lexbuf : lexer_buffer) :
    mark_backtrk tbl state (mark_backtrk tbl state lexbuf) = mark_backtrk tbl state lexbuf := by
  unfold mark_backtrk
  simp only
  split
  · rename_i h
    simp only [h, if_true]
  · rename_i h
    simp only [h, if_false]

/-- Entering the loop body again in the state it was left at the refill check
repeats the backtrack bookkeeping to no effect. -/
theorem lex_iter_mark_backtrk (tbl : lexing_table) (state : Int) (lexbuf : lexer_buffer)
    (hb : 0 ≤ Short tbl.lex_base state) :
    lex_iter tbl state (mark_backtrk tbl state lexbuf) = lex_iter tbl state lexbuf := by
  unfold lex_iter
  simp only [mark_backtrk_idem, if_neg (not_lt.mpr hb)]

theorem lex_loop_congr {tbl : lexing_table} {s1 s2 : Int} {lb1 lb2 : lexer_buffer}
    (h : lex_iter tbl s1 lb1 = lex_iter tbl s2 lb2) :
    lex_loop tbl s1 lb1 = lex_loop tbl s2 lb2 := by
  cases h2 : lex_iter tbl s2 lb2 with
  | exit o lb =>
    rw [lex_loop_exit h2, lex_loop_exit (h.trans h2)]
  | «continue» s3 lb3 =>
    rw [lex_loop_continue h2, lex_loop_continue (h.trans h2)]

/-- One pass of the loop body on a first chunk, against the same pass on the
refilled buffer: the two do the same, unless the chunk is exhausted, where the
first stops at the refill check. -/
theorem lex_iter_chunk {tbl : lexing_table} {buf1 buf2 : Int → Nat} {len1 len2 : Int}
    {state : Int} {lexbuf : lexer_buffer} (hc : Chunk buf1 buf2 len1 len2 lexbuf) :
    (0 ≤ Short tbl.lex_base state ∧ len1 ≤ lexbuf.lex_curr_pos ∧
        lex_iter tbl state lexbuf = .exit (.ret (-state - 1)) (mark_backtrk tbl state lexbuf)) ∨
    (∃ o lb, lex_iter tbl state lexbuf = .exit o lb ∧
        lex_iter tbl state (refill buf2 len2 lexbuf) = .exit o (refill buf2 len2 lb) ∧
        (o = .empty_token ∨ o = .ret (-Short tbl.lex_base state - 1) ∧ Short tbl.lex_base state < 0
          ∨ o = .ret (mark_backtrk tbl state lexbuf).lex_last_action ∧
            (mark_backtrk tbl state lexbuf).lex_last_action ≠ -1)) ∨
    (∃ s1 lb1, lex_iter tbl state lexbuf = .continue s1 lb1 ∧
        lex_iter tbl state (refill buf2 len2 lexbuf) = .continue s1 (refill buf2 len2 lb1) ∧
        0 ≤ s1 ∧ Chunk buf1 buf2 len1 len2 lb1 ∧
        lb1.lex_last_action = (mark_backtrk tbl state lexbuf).lex_last_action) := by
  by_cases hb : Short tbl.lex_base state < 0
  · right; left
    refine ⟨_, _, lex_iter_accept lexbuf hb, lex_iter_accept _ hb, Or.inr (Or.inl ⟨rfl, hb⟩)⟩
  · have hb1 : 0 ≤ Short tbl.lex_base state := not_lt.mp hb
    by_cases hlen : lexbuf.lex_curr_pos < lexbuf.lex_buffer_len
    · have hlen2 : (refill buf2 len2 lexbuf).lex_curr_pos < (refill buf2 len2 lexbuf).lex_buffer_len := by
        have h1 := hc.len_le
        have h2 := hc.len_eq
        simp only [refill]
        omega
      have hbyte : Byte_u (refill buf2 len2 lexbuf).lex_buffer (refill buf2 len2 lexbuf).lex_curr_pos
          = Byte_u lexbuf.lex_buffer lexbuf.lex_curr_pos := by
        simp only [refill]
        rw [hc.buffer_eq]
        exact (hc.agree _ (by rw [← hc.len_eq]; exact hlen)).symm
      have hcr := Byte_u_lt lexbuf.lex_buffer lexbuf.lex_curr_pos
      rw [lex_iter_byte lexbuf hb1 hlen, lex_iter_byte _ hb1 hlen2, hbyte, mark_backtrk_refill]
      by_cases hn : next_state tbl state (Short tbl.lex_base state)
          (Byte_u lexbuf.lex_buffer lexbuf.lex_curr_pos) < 0
      · right; left
        rw [lex_trans_dead _ hn, lex_trans_dead _ hn]
        refine ⟨_, _, rfl, rfl, ?_⟩
        by_cases ha : (mark_backtrk tbl state lexbuf).lex_last_action = -1
        · left
          simp only [ha, if_true]
        · refine Or.inr (Or.inr ⟨?_, ha⟩)
          simp only [ha, if_false]
      · right; right
        have hn1 := not_lt.mp hn
        rw [lex_trans_live _ hn1, lex_trans_live _ hn1]
        rw [if_neg (by omega), if_neg (by omega)]
        refine ⟨_, _, rfl, rfl, hn1, ?_, rfl⟩
        exact ⟨by rw [← hc.buffer_eq, ← mark_backtrk_buffer tbl state lexbuf],
          by rw [← hc.len_eq, ← mark_backtrk_buffer_len tbl state lexbuf],
          by rw [← hc.eof_eq, ← mark_backtrk_eof_reached tbl state lexbuf], hc.len_le, hc.agree⟩
    · left
      have hlen1 : lexbuf.lex_buffer_len ≤ lexbuf.lex_curr_pos := not_lt.mp hlen
      exact ⟨hb1, by rw [← hc.len_eq]; exact hlen1, lex_iter_refill lexbuf hb1 hlen1 hc.eof_eq⟩

theorem mark_backtrk_last_action_ge (tbl : lexing_table) (state : Int) (lexbuf : lexer_buffer)
    (h : -1 ≤ lexbuf.lex_last_action) : -1 ≤ (mark_backtrk tbl state lexbuf).lex_last_action := by
  unfold mark_backtrk
  simp only
  split
  · simp only
    omega
  · exact h

/-- The loop on a first chunk, against the loop on the refilled buffer: either
the first stops with a suspend code from which the loop, resumed on the refilled
buffer, does what the second does; or it stops otherwise, and the second stops
the same way. -/
theorem lex_loop_chunk (tbl : lexing_table) {buf1 buf2 : Int → Nat} {len1 len2 : Int} :
    ∀ (state : Int) (lexbuf : lexer_buffer), Chunk buf1 buf2 len1 len2 lexbuf → 0 ≤ state →
      -1 ≤ lexbuf.lex_last_action →
      (∃ q, 0 ≤ q ∧ (lex_loop tbl state lexbuf).1 = .ret (-q - 1) ∧
          lex_loop tbl q (refill buf2 len2 (lex_loop tbl state lexbuf).2) =
            lex_loop tbl state (refill buf2 len2 lexbuf)) ∨
      ((∀ v, (lex_loop tbl state lexbuf).1 = .ret v → 0 ≤ v) ∧
          lex_loop tbl state (refill buf2 len2 lexbuf) =
            ((lex_loop tbl state lexbuf).1, refill buf2 len2 (lex_loop tbl state lexbuf).2)) := by
  apply lex_loop_induct tbl
  intro state lexbuf ih hc hs hla
  have hma := mark_backtrk_last_action_ge tbl state lexbuf hla
  rcases @lex_iter_chunk tbl buf1 buf2 len1 len2 state lexbuf hc with
    ⟨hb, -, h1⟩ | ⟨o, lb, h1, h2, ho⟩ | ⟨s1, lb1, h1, h2, hs1, hc1, hla1⟩
  · left
    rw [lex_loop_exit h1]
    refine ⟨state, hs, rfl, ?_⟩
    apply lex_loop_congr
    rw [← mark_backtrk_refill]
    exact lex_iter_mark_backtrk _ _ _ hb
  · right
    rw [lex_loop_exit h1, lex_loop_exit h2]
    refine ⟨?_, rfl⟩
    intro v hv
    simp only at hv
    rcases ho with ho | ⟨ho, hb⟩ | ⟨ho, hne⟩
    · rw [ho] at hv
      cases hv
    · rw [ho] at hv
      cases hv
      omega
    · rw [ho] at hv
      cases hv
      omega
  · rw [lex_loop_continue h1, lex_loop_continue h2]
    exact ih s1 lb1 h1 hc1 hs1 (by rw [hla1]; exact hma)

/-- The buffer with which a fresh attempt enters the loop (lines 76 to 78). -/
def fresh (lexbuf : lexer_buffer) : lexer_buffer :=
  { lexbuf with
    lex_last_pos := lexbuf.lex_curr_pos
    lex_start_pos := lexbuf.lex_curr_pos
    lex_last_action := -1 }

theorem old_caml_lex_engine_fresh (tbl : lexing_table) {s : Int} (hs : 0 ≤ s)
    (lexbuf : lexer_buffer) : old_caml_lex_engine tbl s lexbuf = lex_loop tbl s (fresh lexbuf) := by
  unfold old_caml_lex_engine
  simp only [ge_iff_le, hs, if_true]
  rfl

theorem old_caml_lex_engine_resume (tbl : lexing_table) {r : Int} (hr : r < 0)
    (lexbuf : lexer_buffer) : old_caml_lex_engine tbl r lexbuf = lex_loop tbl (-r - 1) lexbuf := by
  unfold old_caml_lex_engine
  simp only [ge_iff_le, not_le.mpr hr, if_false]

/-- The first chunk of the input `w`: its first `k` bytes, more input to come. -/
def first_chunk (w : List Nat) (k : Nat) (lexbuf : lexer_buffer) : lexer_buffer :=
  { lexbuf with
    lex_buffer := bytes (w.take k)
    lex_buffer_len := k
    lex_eof_reached := false }

/-- The whole input `w`, end of input asserted. -/
def whole_input (w : List Nat) (lexbuf : lexer_buffer) : lexer_buffer :=
  refill (bytes w) w.length lexbuf

/-- The refill protocol driven on `w` cut at `k`: a fresh attempt on the first
chunk, and on a suspend code `r` one call more with `r` on the whole input. -/
def split_run (tbl : lexing_table) (s : Int) (w : List Nat) (k : Nat) (lexbuf : lexer_buffer) :
    Outcome × lexer_buffer :=
  match old_caml_lex_engine tbl s (first_chunk w k lexbuf) with
  | (.ret r, lb) =>
    if r < 0 then old_caml_lex_engine tbl r (whole_input w lb) else (.ret r, lb)
  | (.empty_token, lb) => (.empty_token, lb)

theorem bytes_take_agree (w : List Nat) (k : Nat) (i : Int) (h : i < (k : Int)) :
    Byte_u (bytes (w.take k)) i = Byte_u (bytes w) i := by
  unfold Byte_u bytes
  by_cases hi : i < 0
  · simp only [hi, if_true]
  · simp only [hi, if_false]
    have h2 : i.toNat < k := by omega
    rw [List.getD_eq_getElem?_getD, List.getD_eq_getElem?_getD, List.getElem?_take_of_lt h2]

theorem chunk_first_chunk (w : List Nat) (k : Nat) (hk : k ≤ w.length) (lexbuf : lexer_buffer) :
    Chunk (bytes (w.take k)) (bytes w) k w.length (fresh (first_chunk w k lexbuf)) :=
  ⟨rfl, rfl, rfl, by exact_mod_cast hk, bytes_take_agree w k⟩

/-- The split run against the run on the whole input, for the plain engine: the
second is the first with, at most, the buffer fields of the refill put in. -/
theorem split_run_whole (tbl : lexing_table) (s : Int) (w : List Nat) (k : Nat)
    (lexbuf : lexer_buffer) (hs : 0 ≤ s) (hk : k ≤ w.length) :
    old_caml_lex_engine tbl s (whole_input w lexbuf) = split_run tbl s w k lexbuf ∨
    old_caml_lex_engine tbl s (whole_input w lexbuf) =
      ((split_run tbl s w k lexbuf).1, whole_input w (split_run tbl s w k lexbuf).2) := by
  have key := lex_loop_chunk tbl s _ (chunk_first_chunk w k hk lexbuf) hs (le_refl _)
  have hw : old_caml_lex_engine tbl s (whole_input w lexbuf) =
      lex_loop tbl s (refill (bytes w) w.length (fresh (first_chunk w k lexbuf))) :=
    old_caml_lex_engine_fresh tbl hs _
  unfold split_run
  rw [hw, old_caml_lex_engine_fresh tbl hs (first_chunk w k lexbuf)]
  rcases hr : lex_loop tbl s (fresh (first_chunk w k lexbuf)) with ⟨o, lb⟩
  rw [hr] at key
  rcases key with ⟨q, hq, h1, h2⟩ | ⟨h1, h2⟩
  · left
    simp only at h1 h2
    subst h1
    have hneg : -q - 1 < 0 := by omega
    simp only [hneg, if_true]
    rw [old_caml_lex_engine_resume tbl hneg, ← h2]
    have : - (-q - 1) - 1 = q := by omega
    rw [this]
    rfl
  · right
    simp only at h1 h2
    rw [h2]
    cases o with
    | ret v =>
      have hv := h1 v rfl
      simp only [not_lt.mpr hv, if_false]
      rfl
    | empty_token => rfl

/-! ## The two engines side by side -/

/-- Whenever the loop of the engine with memory comes to an end, the loop of the
plain engine ends the same way, on the same buffer but for the capture cells. -/
theorem new_lex_loop_erase (tbl : lexing_table) :
    ∀ (state : Int) (lexbuf : lexer_buffer) (lbn : lexer_buffer),
      lbn.with_mem lexbuf.lex_mem = lexbuf →
      ∀ r, new_lex_loop tbl state lbn = some r →
        lex_loop tbl state lexbuf = (r.1, r.2.with_mem lexbuf.lex_mem) := by
  apply lex_loop_induct tbl
  intro state lexbuf ih lbn hlbn r hr
  have hiter : ∀ stp, new_lex_iter tbl state lbn = some stp →
      lex_iter tbl state lexbuf = stp.with_mem lexbuf.lex_mem := by
    intro stp hstp
    rw [← hlbn, lex_iter_with_mem, new_lex_iter_erase hstp, Step.with_mem_twice]
    rfl
  cases hi : new_lex_iter tbl state lbn with
  | none =>
    rw [new_lex_loop_none hi] at hr
    cases hr
  | some stp =>
    cases stp with
    | exit o lb =>
      rw [new_lex_loop_exit hi] at hr
      cases hr
      exact lex_loop_exit (hiter _ hi)
    | «continue» s1 lb1 =>
      rw [new_lex_loop_continue hi] at hr
      have h1 := hiter _ hi
      rw [lex_loop_continue h1]
      exact ih s1 (lb1.with_mem lexbuf.lex_mem) h1 lb1 rfl r hr

theorem old_caml_new_lex_engine_fresh (tbl : lexing_table) {s : Int} (hs : 0 ≤ s)
    (lexbuf : lexer_buffer) :
    old_caml_new_lex_engine tbl s lexbuf = new_lex_loop tbl s (fresh lexbuf) := by
  unfold old_caml_new_lex_engine
  simp only [ge_iff_le, hs, if_true]
  rfl

theorem old_caml_new_lex_engine_resume (tbl : lexing_table) {r : Int} (hr : r < 0)
    (lexbuf : lexer_buffer) :
    old_caml_new_lex_engine tbl r lexbuf = new_lex_loop tbl (-r - 1) lexbuf := by
  unfold old_caml_new_lex_engine
  simp only [ge_iff_le, not_le.mpr hr, if_false]

theorem old_caml_new_lex_engine_erase (tbl : lexing_table) (start_state : Int)
    (lexbuf : lexer_buffer) (r : Outcome × lexer_buffer)
    (h : old_caml_new_lex_engine tbl start_state lexbuf = some r) :
    old_caml_lex_engine tbl start_state lexbuf = (r.1, r.2.with_mem lexbuf.lex_mem) := by
  by_cases hs : 0 ≤ start_state
  · rw [old_caml_new_lex_engine_fresh tbl hs] at h
    rw [old_caml_lex_engine_fresh tbl hs]
    exact new_lex_loop_erase tbl _ (fresh lexbuf) (fresh lexbuf) rfl r h
  · have hs1 : start_state < 0 := not_le.mp hs
    rw [old_caml_new_lex_engine_resume tbl hs1] at h
    rw [old_caml_lex_engine_resume tbl hs1]
    exact new_lex_loop_erase tbl _ lexbuf lexbuf rfl r h

/-- A table with one capture instruction: from the start state 0 any three
bytes lead through states 1 and 2 to the accepting state 3 (action 0), and the
transition out of state 1, taken on the second byte, runs the memory program at
offset 1 of the blob, `mem[0] <- curr_pos`. -/
def table_capture : lexing_table :=
  { lex_base := shorts [0, 0, 0, -1]
    lex_backtrk := shorts [-1, -1, -1, -1]
    lex_default := shorts [1, 2, 3, -1]
    lex_trans := shorts (words 260 [])
    lex_check := shorts (words 260 [])
    lex_base_code := shorts [0, 0, 0, 0]
    lex_backtrk_code := shorts [0, 0, 0, 0]
    lex_default_code := shorts [0, 1, 0, 0]
    lex_trans_code := shorts (words 260 [])
    lex_check_code := shorts (words 260 [])
    lex_code := [0xff, 0, 0xff, 0xff] }

/-! ## The course of a run -/

/-- The three ways out of the loop body: the accepting return of line 86, the
refill return of line 96, the dead end of lines 111 to 117. -/
inductive Exit where
  | accept
  | refill
  | dead_end
  deriving DecidableEq, Repr

/-- Lines 93 to 104: the character fetched by the loop body, `none` when it
stops at the refill check instead. -/
def lex_char (lexbuf : lexer_buffer) : Option Int :=
  if lexbuf.lex_curr_pos ≥ lexbuf.lex_buffer_len then
    if lexbuf.lex_eof_reached = false then none else some 256
  else some (Byte_u lexbuf.lex_buffer lexbuf.lex_curr_pos)

/-- The way the loop body, entered in `state`, leaves the function, `none` when
it goes round again. -/
def iter_exit (tbl : lexing_table) (state : Int) (lexbuf : lexer_buffer) : Option Exit :=
  if Short tbl.lex_base state < 0 then some .accept
  else
    match lex_char lexbuf with
    | none => some .refill
    | some c =>
      if next_state tbl state (Short tbl.lex_base state) c < 0 then some .dead_end else none

/-- The buffer after character `c` was fetched and the transition on it taken:
the cursor is past a byte, the EOF condition is erased on the pseudo-character. -/
def advance (c : Int) (lexbuf : lexer_buffer) : lexer_buffer :=
  if c = 256 then { lexbuf with lex_eof_reached := false }
  else { lexbuf with lex_curr_pos := lexbuf.lex_curr_pos + 1 }

/-- The configurations at the head of the loop, in the order visited, for at
most `fuel` iterations. -/
def lex_visits_fuel (tbl : lexing_table) : Nat → Int → lexer_buffer → List (Int × lexer_buffer)
  | 0, _, _ => []
  | fuel + 1, state, lexbuf =>
    (state, lexbuf) ::
      match lex_iter tbl state lexbuf with
      | .exit _ _ => []
      | .continue s1 lb1 => lex_visits_fuel tbl fuel s1 lb1

/-- The configurations (state, buffer) at the head of the loop, in the order
visited, from `state` on `lexbuf` to the exit. -/
def lex_visits (tbl : lexing_table) (state : Int) (lexbuf : lexer_buffer) :
    List (Int × lexer_buffer) :=
  lex_visits_fuel tbl (lex_measure lexbuf + 1) state lexbuf

/-- The states visited, each with the cursor at which it was visited. -/
def lex_trace (tbl : lexing_table) (state : Int) (lexbuf : lexer_buffer) : List (Int × Int) :=
  (lex_visits tbl state lexbuf).map (fun v => (v.1, v.2.lex_curr_pos))

/-- The way the run from `state` on `lexbuf` leaves the function. -/
def lex_exit (tbl : lexing_table) (state : Int) (lexbuf : lexer_buffer) : Option Exit :=
  (lex_visits tbl state lexbuf).getLast?.bind (fun v => iter_exit tbl v.1 v.2)

theorem lex_char_mark_backtrk (tbl : lexing_table) (state : Int) (lexbuf : lexer_buffer) :
    lex_char (mark_backtrk tbl state lexbuf) = lex_char lexbuf := by
  unfold lex_char
  rw [mark_backtrk_curr_pos, mark_backtrk_buffer_len, mark_backtrk_eof_reached,
    mark_backtrk_buffer]

/-- What one pass of the loop body does, by the way it ends. -/
theorem lex_iter_spec (tbl : lexing_table) (state : Int) (lexbuf : lexer_buffer) :
    (iter_exit tbl state lexbuf = some .accept ∧ Short tbl.lex_base state < 0 ∧
      lex_iter tbl state lexbuf = .exit (.ret (-Short tbl.lex_base state - 1)) lexbuf) ∨
    (iter_exit tbl state lexbuf = some .refill ∧ 0 ≤ Short tbl.lex_base state ∧
      lex_char lexbuf = none ∧
      lex_iter tbl state lexbuf = .exit (.ret (-state - 1)) (mark_backtrk tbl state lexbuf)) ∨
    (iter_exit tbl state lexbuf = some .dead_end ∧ 0 ≤ Short tbl.lex_base state ∧
      (∃ c, lex_char lexbuf = some c ∧
        next_state tbl state (Short tbl.lex_base state) c < 0) ∧
      lex_iter tbl state lexbuf =
        .exit (if (mark_backtrk tbl state lexbuf).lex_last_action = -1 then .empty_token
               else .ret (mark_backtrk tbl state lexbuf).lex_last_action)
          { mark_backtrk tbl state lexbuf with
            lex_curr_pos := (mark_backtrk tbl state lexbuf).lex_last_pos }) ∨
    (iter_exit tbl state lexbuf = none ∧ 0 ≤ Short tbl.lex_base state ∧
      ∃ c, lex_char lexbuf = some c ∧
        0 ≤ next_state tbl state (Short tbl.lex_base state) c ∧
        lex_iter tbl state lexbuf =
          .continue (next_state tbl state (Short tbl.lex_base state) c)
            (advance c (mark_backtrk tbl state lexbuf))) := by
  by_cases hb : Short tbl.lex_base state < 0
  · left
    exact ⟨by unfold iter_exit; rw [if_pos hb], hb, lex_iter_accept lexbuf hb⟩
  · have hb1 : 0 ≤ Short tbl.lex_base state := not_lt.mp hb
    right
    by_cases hlen : lexbuf.lex_curr_pos < lexbuf.lex_buffer_len
    · have hch : lex_char lexbuf = some (Byte_u lexbuf.lex_buffer lexbuf.lex_curr_pos) := by
        unfold lex_char
        rw [if_neg (not_le.mpr hlen)]
      have hcr := Byte_u_lt lexbuf.lex_buffer lexbuf.lex_curr_pos
      right
      by_cases hn : next_state tbl state (Short tbl.lex_base state)
          (Byte_u lexbuf.lex_buffer lexbuf.lex_curr_pos) < 0
      · left
        refine ⟨?_, hb1, ⟨_, hch, hn⟩, ?_⟩
        · unfold iter_exit
          rw [if_neg hb, hch]
          simp only [hn, if_true]
        · rw [lex_iter_byte lexbuf hb1 hlen, lex_trans_dead _ hn]
      · right
        have hn1 := not_lt.mp hn
        refine ⟨?_, hb1, _, hch, hn1, ?_⟩
        · unfold iter_exit
          rw [if_neg hb, hch]
          simp only [hn, if_false]
        · rw [lex_iter_byte lexbuf hb1 hlen, lex_trans_live _ hn1]
          unfold advance
          rw [if_neg (by omega), if_neg (by omega), mark_backtrk_curr_pos]
    · have hlen1 : lexbuf.lex_buffer_len ≤ lexbuf.lex_curr_pos := not_lt.mp hlen
      cases heof : lexbuf.lex_eof_reached
      · left
        have hch : lex_char lexbuf = none := by
          unfold lex_char
          rw [if_pos hlen1, if_pos heof]
        refine ⟨?_, hb1, hch, lex_iter_refill lexbuf hb1 hlen1 heof⟩
        unfold iter_exit
        rw [if_neg hb, hch]
      · have hch : lex_char lexbuf = some 256 := by
          unfold lex_char
          rw [if_pos hlen1, if_neg (by rw [heof]; simp)]
        right
        by_cases hn : next_state tbl state (Short tbl.lex_base state) 256 < 0
        · left
          refine ⟨?_, hb1, ⟨_, hch, hn⟩, ?_⟩
          · unfold iter_exit
            rw [if_neg hb, hch]
            simp only [hn, if_true]
          · rw [lex_iter_eof lexbuf hb1 hlen1 heof, lex_trans_dead _ hn]
        · right
          have hn1 := not_lt.mp hn
          refine ⟨?_, hb1, _, hch, hn1, ?_⟩
          · unfold iter_exit
            rw [if_neg hb, hch]
            simp only [hn, if_false]
          · rw [lex_iter_eof lexbuf hb1 hlen1 heof, lex_trans_live _ hn1]
            unfold advance
            rw [if_pos rfl, if_pos rfl]

theorem lex_visits_fuel_enough (tbl : lexing_table) :
    ∀ (state : Int) (lexbuf : lexer_buffer) (n m : Nat),
      lex_measure lexbuf < n → lex_measure lexbuf < m →
      lex_visits_fuel tbl n state lexbuf = lex_visits_fuel tbl m state lexbuf := by
  apply lex_loop_induct tbl
  intro state lexbuf ih n m hn hm
  cases n with
  | zero => omega
  | succ n1 =>
    cases m with
    | zero => omega
    | succ m1 =>
      unfold lex_visits_fuel
      cases hi : lex_iter tbl state lexbuf with
      | exit o lb => rfl
      | «continue» s1 lb1 =>
        have hlt := lex_iter_measure hi
        simp only
        rw [ih s1 lb1 hi n1 m1 (by omega) (by omega)]

theorem lex_visits_exit {tbl : lexing_table} {state : Int} {lexbuf lb : lexer_buffer}
    {o : Outcome} (h : lex_iter tbl state lexbuf = .exit o lb) :
    lex_visits tbl state lexbuf = [(state, lexbuf)] := by
  unfold lex_visits lex_visits_fuel
  rw [h]

theorem lex_visits_continue {tbl : lexing_table} {state s1 : Int} {lexbuf lb1 : lexer_buffer}
    (h : lex_iter tbl state lexbuf = .continue s1 lb1) :
    lex_visits tbl state lexbuf = (state, lexbuf) :: lex_visits tbl s1 lb1 := by
  have hlt := lex_iter_measure h
  unfold lex_visits
  rw [lex_visits_fuel, h]
  simp only
  rw [lex_visits_fuel_enough tbl s1 lb1 (lex_measure lexbuf) (lex_measure lb1 + 1) hlt
    (by omega)]

theorem lex_trace_exit {tbl : lexing_table} {state : Int} {lexbuf lb : lexer_buffer}
    {o : Outcome} (h : lex_iter tbl state lexbuf = .exit o lb) :
    lex_trace tbl state lexbuf = [(state, lexbuf.lex_curr_pos)] := by
  unfold lex_trace
  rw [lex_visits_exit h]
  rfl

theorem lex_trace_continue {tbl : lexing_table} {state s1 : Int} {lexbuf lb1 : lexer_buffer}
    (h : lex_iter tbl state lexbuf = .continue s1 lb1) :
    lex_trace tbl state lexbuf = (state, lexbuf.lex_curr_pos) :: lex_trace tbl s1 lb1 := by
  unfold lex_trace
  rw [lex_visits_continue h]
  rfl

theorem lex_visits_ne_nil (tbl : lexing_table) (state : Int) (lexbuf : lexer_buffer) :
    lex_visits tbl state lexbuf ≠ [] := by
  unfold lex_visits lex_visits_fuel
  exact List.cons_ne_nil _ _

theorem lex_exit_of_exit {tbl : lexing_table} {state : Int} {lexbuf lb : lexer_buffer}
    {o : Outcome} (h : lex_iter tbl state lexbuf = .exit o lb) :
    lex_exit tbl state lexbuf = iter_exit tbl state lexbuf := by
  unfold lex_exit
  rw [lex_visits_exit h]
  rfl

theorem lex_exit_continue {tbl : lexing_table} {state s1 : Int} {lexbuf lb1 : lexer_buffer}
    (h : lex_iter tbl state lexbuf = .continue s1 lb1) :
    lex_exit tbl state lexbuf = lex_exit tbl s1 lb1 := by
  unfold lex_exit
  rw [lex_visits_continue h]
  obtain ⟨v, l, hv⟩ := List.exists_cons_of_ne_nil (lex_visits_ne_nil tbl s1 lb1)
  rw [hv, List.getLast?_cons_cons]

theorem advance_last_pos (c : Int) (lexbuf : lexer_buffer) :
    (advance c lexbuf).lex_last_pos = lexbuf.lex_last_pos := by
  unfold advance
  split <;> rfl

theorem advance_last_action (c : Int) (lexbuf : lexer_buffer) :
    (advance c lexbuf).lex_last_action = lexbuf.lex_last_action := by
  unfold advance
  split <;> rfl

theorem advance_start_pos (c : Int) (lexbuf : lexer_buffer) :
    (advance c lexbuf).lex_start_pos = lexbuf.lex_start_pos := by
  unfold advance
  split <;> rfl

theorem mark_backtrk_start_pos (tbl : lexing_table) (state : Int) (lexbuf : lexer_buffer) :
    (mark_backtrk tbl state lexbuf).lex_start_pos = lexbuf.lex_start_pos := by
  unfold mark_backtrk
  simp only
  split <;> rfl

theorem mark_backtrk_neg {tbl : lexing_table} {state : Int} (lexbuf : lexer_buffer)
    (h : Short tbl.lex_backtrk state < 0) : mark_backtrk tbl state lexbuf = lexbuf := by
  unfold mark_backtrk
  simp only [ge_iff_le, not_le.mpr h, if_false]

theorem mark_backtrk_nonneg {tbl : lexing_table} {state : Int} (lexbuf : lexer_buffer)
    (h : 0 ≤ Short tbl.lex_backtrk state) :
    mark_backtrk tbl state lexbuf =
      { lexbuf with
        lex_last_pos := lexbuf.lex_curr_pos
        lex_last_action := Short tbl.lex_backtrk state } := by
  unfold mark_backtrk
  simp only [ge_iff_le, h, if_true]

/-- A run that ends in a dead end without another backtrack point after its
first state goes back to what the first pass of the loop body recorded. -/
theorem lex_loop_dead_end (tbl : lexing_table) :
    ∀ (state : Int) (lexbuf : lexer_buffer),
      (∀ v ∈ (lex_trace tbl state lexbuf).tail, Short tbl.lex_backtrk v.1 < 0) →
      lex_exit tbl state lexbuf = some .dead_end →
      (lex_loop tbl state lexbuf).1 =
        (if (mark_backtrk tbl state lexbuf).lex_last_action = -1 then .empty_token
         else .ret (mark_backtrk tbl state lexbuf).lex_last_action) ∧
      (lex_loop tbl state lexbuf).2.lex_curr_pos = (mark_backtrk tbl state lexbuf).lex_last_pos ∧
      (lex_loop tbl state lexbuf).2.lex_last_pos = (mark_backtrk tbl state lexbuf).lex_last_pos ∧
      (lex_loop tbl state lexbuf).2.lex_last_action =
        (mark_backtrk tbl state lexbuf).lex_last_action := by
  apply lex_loop_induct tbl
  intro state lexbuf ih htail hexit
  rcases lex_iter_spec tbl state lexbuf with
    ⟨hk, -, hi⟩ | ⟨hk, -, -, hi⟩ | ⟨hk, -, -, hi⟩ | ⟨hk, -, c, -, -, hi⟩
  · rw [lex_exit_of_exit hi, hk] at hexit
    cases hexit
  · rw [lex_exit_of_exit hi, hk] at hexit
    cases hexit
  · rw [lex_loop_exit hi]
    exact ⟨rfl, rfl, rfl, rfl⟩
  · rw [lex_trace_continue hi] at htail
    rw [lex_exit_continue hi] at hexit
    rw [lex_loop_continue hi]
    have hne := lex_visits_ne_nil tbl (next_state tbl state (Short tbl.lex_base state) c)
      (advance c (mark_backtrk tbl state lexbuf))
    have htr : lex_trace tbl (next_state tbl state (Short tbl.lex_base state) c)
        (advance c (mark_backtrk tbl state lexbuf)) =
        (next_state tbl state (Short tbl.lex_base state) c,
          (advance c (mark_backtrk tbl state lexbuf)).lex_curr_pos) ::
        (lex_trace tbl (next_state tbl state (Short tbl.lex_base state) c)
          (advance c (mark_backtrk tbl state lexbuf))).tail := by
      cases hi2 : lex_iter tbl (next_state tbl state (Short tbl.lex_base state) c)
          (advance c (mark_backtrk tbl state lexbuf)) with
      | exit o lb => rw [lex_trace_exit hi2]; rfl
      | «continue» s2 lb2 => rw [lex_trace_continue hi2]; rfl
    simp only [List.tail_cons] at htail
    have hneg : Short tbl.lex_backtrk (next_state tbl state (Short tbl.lex_base state) c) < 0 := by
      apply htail (next_state tbl state (Short tbl.lex_base state) c,
          (advance c (mark_backtrk tbl state lexbuf)).lex_curr_pos)
      rw [htr]
      exact List.mem_cons_self _ _
    have h2 := ih _ _ hi (fun v hv => htail v (by rw [htr]; exact List.mem_cons_of_mem _ hv))
      hexit
    rw [mark_backtrk_neg _ hneg, advance_last_pos, advance_last_action] at h2
    exact h2

/-- A run that ends in a dead end after a backtrack point `q`, visited with the
cursor at `p`, and no other backtrack point since, returns the action of `q` and
leaves the cursor at `p`. -/
theorem lex_loop_backtrack (tbl : lexing_table) :
    ∀ (state : Int) (lexbuf : lexer_buffer) (T1 : List (Int × Int)) (q p : Int)
      (T2 : List (Int × Int)),
      lex_trace tbl state lexbuf = T1 ++ (q, p) :: T2 →
      0 ≤ Short tbl.lex_backtrk q →
      (∀ v ∈ T2, Short tbl.lex_backtrk v.1 < 0) →
      lex_exit tbl state lexbuf = some .dead_end →
      (lex_loop tbl state lexbuf).1 = .ret (Short tbl.lex_backtrk q) ∧
      (lex_loop tbl state lexbuf).2.lex_curr_pos = p ∧
      (lex_loop tbl state lexbuf).2.lex_last_pos = p ∧
      (lex_loop tbl state lexbuf).2.lex_last_action = Short tbl.lex_backtrk q := by
  apply lex_loop_induct tbl
  intro state lexbuf ih T1 q p T2 htrace hq hT2 hexit
  have hhead : ∃ T, lex_trace tbl state lexbuf = (state, lexbuf.lex_curr_pos) :: T := by
    cases hi : lex_iter tbl state lexbuf with
    | exit o lb => exact ⟨_, lex_trace_exit hi⟩
    | «continue» s2 lb2 => exact ⟨_, lex_trace_continue hi⟩
  obtain ⟨T, hT⟩ := hhead
  cases T1 with
  | nil =>
    rw [hT] at htrace
    simp only [List.nil_append, List.cons.injEq, Prod.mk.injEq] at htrace
    obtain ⟨⟨h1, h2⟩, h3⟩ := htrace
    subst h1 h2 h3
    have hB := lex_loop_dead_end tbl state lexbuf (by rw [hT]; exact hT2) hexit
    rw [mark_backtrk_nonneg lexbuf hq] at hB
    simp only at hB
    have hne : ¬ (Short tbl.lex_backtrk state = -1) := by omega
    rw [if_neg hne] at hB
    exact hB
  | cons t T1 =>
    cases hi : lex_iter tbl state lexbuf with
    | exit o lb =>
      rw [lex_trace_exit hi] at htrace
      simp only [List.cons_append, List.cons.injEq] at htrace
      have := htrace.2
      cases T1 <;> simp at this
    | «continue» s2 lb2 =>
      rw [lex_trace_continue hi] at htrace
      simp only [List.cons_append, List.cons.injEq] at htrace
      rw [lex_loop_continue hi]
      rw [lex_exit_continue hi] at hexit
      exact ih s2 lb2 hi T1 q p T2 htrace.2 hq hT2 hexit

theorem lex_trace_head (tbl : lexing_table) (state : Int) (lexbuf : lexer_buffer) :
    ∃ T, lex_trace tbl state lexbuf = (state, lexbuf.lex_curr_pos) :: T := by
  cases hi : lex_iter tbl state lexbuf with
  | exit o lb => exact ⟨_, lex_trace_exit hi⟩
  | «continue» s2 lb2 => exact ⟨_, lex_trace_continue hi⟩

/-- What follows a visit in the trace of a run is the trace of the run from that
visit, and both runs end the same. -/
theorem lex_trace_suffix (tbl : lexing_table) :
    ∀ (state : Int) (lexbuf : lexer_buffer) (T1 : List (Int × Int)) (q p : Int)
      (R : List (Int × Int)),
      lex_trace tbl state lexbuf = T1 ++ (q, p) :: R →
      ∃ lbq, lbq.lex_curr_pos = p ∧ lex_trace tbl q lbq = (q, p) :: R ∧
        lex_loop tbl state lexbuf = lex_loop tbl q lbq ∧
        lex_exit tbl state lexbuf = lex_exit tbl q lbq ∧
        lbq.lex_start_pos = lexbuf.lex_start_pos := by
  apply lex_loop_induct tbl
  intro state lexbuf ih T1 q p R htrace
  cases T1 with
  | nil =>
    obtain ⟨T, hT⟩ := lex_trace_head tbl state lexbuf
    have h0 := htrace
    rw [hT] at htrace
    simp only [List.nil_append, List.cons.injEq, Prod.mk.injEq] at htrace
    obtain ⟨⟨h1, h2⟩, -⟩ := htrace
    subst h1 h2
    exact ⟨lexbuf, rfl, h0, rfl, rfl, rfl⟩
  | cons t T1 =>
    cases hi : lex_iter tbl state lexbuf with
    | exit o lb =>
      rw [lex_trace_exit hi] at htrace
      simp only [List.cons_append, List.cons.injEq] at htrace
      have := htrace.2
      cases T1 <;> simp at this
    | «continue» s2 lb2 =>
      rw [lex_trace_continue hi] at htrace
      simp only [List.cons_append, List.cons.injEq] at htrace
      obtain ⟨lbq, h1, h2, h3, h4, h5⟩ := ih s2 lb2 hi T1 q p R htrace.2
      refine ⟨lbq, h1, h2, ?_, ?_, ?_⟩
      · rw [lex_loop_continue hi]
        exact h3
      · rw [lex_exit_continue hi]
        exact h4
      · rw [h5]
        rcases lex_iter_spec tbl state lexbuf with
          ⟨-, -, hj⟩ | ⟨-, -, -, hj⟩ | ⟨-, -, -, hj⟩ | ⟨-, -, c, -, -, hj⟩
        · rw [hj] at hi
          cases hi
        · rw [hj] at hi
          cases hi
        · rw [hj] at hi
          cases hi
        · rw [hj] at hi
          cases hi
          rw [advance_start_pos, mark_backtrk_start_pos]

/-- The cursor never moves back from one visit to a later one. -/
theorem lex_trace_mono (tbl : lexing_table) :
    ∀ (state : Int) (lexbuf : lexer_buffer),
      ∀ v ∈ lex_trace tbl state lexbuf, lexbuf.lex_curr_pos ≤ v.2 := by
  apply lex_loop_induct tbl
  intro state lexbuf ih v hv
  rcases lex_iter_spec tbl state lexbuf with
    ⟨-, -, hj⟩ | ⟨-, -, -, hj⟩ | ⟨-, -, -, hj⟩ | ⟨-, -, c, -, -, hj⟩
  · rw [lex_trace_exit hj] at hv
    simp only [List.mem_singleton] at hv
    rw [hv]
  · rw [lex_trace_exit hj] at hv
    simp only [List.mem_singleton] at hv
    rw [hv]
  · rw [lex_trace_exit hj] at hv
    simp only [List.mem_singleton] at hv
    rw [hv]
  · rw [lex_trace_continue hj] at hv
    rcases List.mem_cons.mp hv with hv | hv
    · rw [hv]
    · have h1 := ih _ _ hj v hv
      have h2 : lexbuf.lex_curr_pos ≤ (advance c (mark_backtrk tbl state lexbuf)).lex_curr_pos := by
        unfold advance
        split
        · simp only [mark_backtrk_curr_pos]
          exact le_refl _
        · simp only [mark_backtrk_curr_pos]
          omega
      exact le_trans h2 h1

/-- A run whose last visit is to a state with a negative base returns the action
of that state and leaves the cursor where that state was visited. -/
theorem lex_loop_accept_last (tbl : lexing_table) :
    ∀ (state : Int) (lexbuf : lexer_buffer) (q2 p2 : Int),
      (lex_trace tbl state lexbuf).getLast? = some (q2, p2) →
      Short tbl.lex_base q2 < 0 →
      (lex_loop tbl state lexbuf).1 = .ret (-Short tbl.lex_base q2 - 1) ∧
      (lex_loop tbl state lexbuf).2.lex_curr_pos = p2 := by
  apply lex_loop_induct tbl
  intro state lexbuf ih q2 p2 hlast hb
  cases hi : lex_iter tbl state lexbuf with
  | exit o lb =>
    rw [lex_trace_exit hi] at hlast
    simp only [List.getLast?_singleton, Option.some.injEq, Prod.mk.injEq] at hlast
    obtain ⟨h1, h2⟩ := hlast
    subst h1 h2
    rw [lex_loop_exit (lex_iter_accept lexbuf hb)]
    exact ⟨rfl, rfl⟩
  | «continue» s2 lb2 =>
    rw [lex_trace_continue hi] at hlast
    obtain ⟨T, hT⟩ := lex_trace_head tbl s2 lb2
    rw [hT, List.getLast?_cons_cons, ← hT] at hlast
    rw [lex_loop_continue hi]
    exact ih s2 lb2 hi q2 p2 hlast hb

/-- Every run ends with a pass of the loop body that leaves the function, at
the last configuration visited. -/
theorem lex_loop_last_visit (tbl : lexing_table) :
    ∀ (state : Int) (lexbuf : lexer_buffer),
      ∃ q lbq o lb, lex_iter tbl q lbq = .exit o lb ∧ lex_loop tbl state lexbuf = (o, lb) ∧
        lex_exit tbl state lexbuf = iter_exit tbl q lbq ∧
        lbq.lex_start_pos = lexbuf.lex_start_pos := by
  apply lex_loop_induct tbl
  intro state lexbuf ih
  cases hi : lex_iter tbl state lexbuf with
  | exit o lb =>
    exact ⟨state, lexbuf, o, lb, hi, lex_loop_exit hi, lex_exit_of_exit hi, rfl⟩
  | «continue» s2 lb2 =>
    obtain ⟨q, lbq, o, lb, h1, h2, h3, h4⟩ := ih s2 lb2 hi
    refine ⟨q, lbq, o, lb, h1, ?_, ?_, ?_⟩
    · rw [lex_loop_continue hi]
      exact h2
    · rw [lex_exit_continue hi]
      exact h3
    · rw [h4]
      rcases lex_iter_spec tbl state lexbuf with
        ⟨-, -, hj⟩ | ⟨-, -, -, hj⟩ | ⟨-, -, -, hj⟩ | ⟨-, -, c, -, -, hj⟩
      · rw [hj] at hi
        cases hi
      · rw [hj] at hi
        cases hi
      · rw [hj] at hi
        cases hi
      · rw [hj] at hi
        cases hi
        rw [advance_start_pos, mark_backtrk_start_pos]

/-- How a run ends, by the way it leaves the function. -/
theorem lex_loop_by_exit (tbl : lexing_table) (state : Int) (lexbuf : lexer_buffer) :
    (lex_exit tbl state lexbuf = some .accept ∧
      ∃ v, 0 ≤ v ∧ (lex_loop tbl state lexbuf).1 = .ret v) ∨
    (lex_exit tbl state lexbuf = some .refill ∧
      ∃ q, (lex_loop tbl state lexbuf).1 = .ret (-q - 1)) ∨
    (lex_exit tbl state lexbuf = some .dead_end ∧
      (lex_loop tbl state lexbuf).1 =
        (if (lex_loop tbl state lexbuf).2.lex_last_action = -1 then .empty_token
         else .ret (lex_loop tbl state lexbuf).2.lex_last_action) ∧
      (lex_loop tbl state lexbuf).2.lex_curr_pos = (lex_loop tbl state lexbuf).2.lex_last_pos) := by
  obtain ⟨q, lbq, o, lb, h1, h2, h3, -⟩ := lex_loop_last_visit tbl state lexbuf
  rw [h2, h3]
  rcases lex_iter_spec tbl q lbq with
    ⟨hk, hb, hj⟩ | ⟨hk, -, -, hj⟩ | ⟨hk, -, -, hj⟩ | ⟨hk, -, c, -, -, hj⟩
  · left
    rw [hj] at h1
    cases h1
    exact ⟨hk, _, by omega, rfl⟩
  · right; left
    rw [hj] at h1
    cases h1
    exact ⟨hk, q, rfl⟩
  · right; right
    rw [hj] at h1
    cases h1
    exact ⟨hk, rfl, rfl⟩
  · rw [hj] at h1
    cases h1

theorem lex_loop_start_pos (tbl : lexing_table) (state : Int) (lexbuf : lexer_buffer) :
    (lex_loop tbl state lexbuf).2.lex_start_pos = lexbuf.lex_start_pos := by
  obtain ⟨q, lbq, o, lb, h1, h2, -, h4⟩ := lex_loop_last_visit tbl state lexbuf
  rw [h2, ← h4]
  rcases lex_iter_spec tbl q lbq with
    ⟨-, -, hj⟩ | ⟨-, -, -, hj⟩ | ⟨-, -, -, hj⟩ | ⟨-, -, c, -, -, hj⟩
  · rw [hj] at h1
    cases h1
    rfl
  · rw [hj] at h1
    cases h1
    exact mark_backtrk_start_pos _ _ _
  · rw [hj] at h1
    cases h1
    exact mark_backtrk_start_pos _ _ _
  · rw [hj] at h1
    cases h1

/-- The state and the buffer with which a call enters the loop (lines 74 to 82). -/
def entry_state (start_state : Int) : Int :=
  if start_state ≥ 0 then start_state else -start_state - 1

/-- The buffer with which a call enters the loop (lines 74 to 82). -/
def entry_buffer (start_state : Int) (lexbuf : lexer_buffer) : lexer_buffer :=
  if start_state ≥ 0 then fresh lexbuf else lexbuf

theorem old_caml_lex_engine_entry (tbl : lexing_table) (start_state : Int)
    (lexbuf : lexer_buffer) :
    old_caml_lex_engine tbl start_state lexbuf =
      lex_loop tbl (entry_state start_state) (entry_buffer start_state lexbuf) := by
  unfold entry_state entry_buffer
  by_cases hs : 0 ≤ start_state
  · rw [old_caml_lex_engine_fresh tbl hs, if_pos hs, if_pos hs]
  · rw [old_caml_lex_engine_resume tbl (not_le.mp hs), if_neg hs, if_neg hs]

/-- Once an action is recorded, no run fails. -/
theorem lex_loop_no_fail (tbl : lexing_table) :
    ∀ (state : Int) (lexbuf : lexer_buffer), 0 ≤ lexbuf.lex_last_action →
      (lex_loop tbl state lexbuf).1 ≠ .empty_token := by
  apply lex_loop_induct tbl
  intro state lexbuf ih hla
  have hm : 0 ≤ (mark_backtrk tbl state lexbuf).lex_last_action := by
    unfold mark_backtrk
    simp only
    split
    · assumption
    · exact hla
  rcases lex_iter_spec tbl state lexbuf with
    ⟨-, -, hj⟩ | ⟨-, -, -, hj⟩ | ⟨-, -, -, hj⟩ | ⟨-, -, c, -, -, hj⟩
  · rw [lex_loop_exit hj]
    simp
  · rw [lex_loop_exit hj]
    simp
  · rw [lex_loop_exit hj]
    have hne : ¬ ((mark_backtrk tbl state lexbuf).lex_last_action = -1) := by omega
    simp only [hne, if_false]
    simp
  · rw [lex_loop_continue hj]
    exact ih _ _ hj (by rw [advance_last_action]; exact hm)

/-- A run entered with no action recorded and ending in a failure met no
backtrack point, and goes back to the `last_pos` it was entered with. -/
theorem lex_loop_fail (tbl : lexing_table) :
    ∀ (state : Int) (lexbuf : lexer_buffer), lexbuf.lex_last_action = -1 →
      (lex_loop tbl state lexbuf).1 = .empty_token →
      (∀ v ∈ lex_trace tbl state lexbuf, Short tbl.lex_backtrk v.1 < 0) ∧
      (lex_loop tbl state lexbuf).2.lex_curr_pos = lexbuf.lex_last_pos ∧
      (lex_loop tbl state lexbuf).2.lex_last_pos = lexbuf.lex_last_pos ∧
      (lex_loop tbl state lexbuf).2.lex_last_action = -1 := by
  apply lex_loop_induct tbl
  intro state lexbuf ih hla hfail
  have hbk : Short tbl.lex_backtrk state < 0 := by
    by_contra hcon
    have hq : 0 ≤ Short tbl.lex_backtrk state := not_lt.mp hcon
    have hm : 0 ≤ (mark_backtrk tbl state lexbuf).lex_last_action := by
      rw [mark_backtrk_nonneg lexbuf hq]
      exact hq
    rcases lex_iter_spec tbl state lexbuf with
      ⟨-, -, hj⟩ | ⟨-, -, -, hj⟩ | ⟨-, -, -, hj⟩ | ⟨-, -, c, -, -, hj⟩
    · rw [lex_loop_exit hj] at hfail
      cases hfail
    · rw [lex_loop_exit hj] at hfail
      cases hfail
    · rw [lex_loop_exit hj] at hfail
      have hne : ¬ ((mark_backtrk tbl state lexbuf).lex_last_action = -1) := by omega
      simp only [hne, if_false] at hfail
      cases hfail
    · rw [lex_loop_continue hj] at hfail
      exact lex_loop_no_fail tbl _ _ (by rw [advance_last_action]; exact hm) hfail
  have hmk := mark_backtrk_neg lexbuf hbk
  rcases lex_iter_spec tbl state lexbuf with
    ⟨-, -, hj⟩ | ⟨-, -, -, hj⟩ | ⟨-, -, -, hj⟩ | ⟨-, -, c, -, -, hj⟩
  · rw [lex_loop_exit hj] at hfail
    cases hfail
  · rw [lex_loop_exit hj] at hfail
    cases hfail
  · rw [lex_loop_exit hj, lex_trace_exit hj, hmk]
    refine ⟨?_, rfl, rfl, hla⟩
    intro v hv
    simp only [List.mem_singleton] at hv
    rw [hv]
    exact hbk
  · rw [hmk] at hj
    rw [lex_loop_continue hj] at hfail ⊢
    rw [lex_trace_continue hj]
    obtain ⟨h1, h2, h3, h4⟩ := ih _ _ hj (by rw [advance_last_action]; exact hla) hfail
    rw [advance_last_pos] at h2 h3
    refine ⟨?_, h2, h3, h4⟩
    intro v hv
    rcases List.mem_cons.mp hv with hv | hv
    · rw [hv]
      exact hbk
    · exact h1 v hv

/-- The way a call of the plain engine leaves the function. -/
def engine_exit (tbl : lexing_table) (start_state : Int) (lexbuf : lexer_buffer) : Option Exit :=
  lex_exit tbl (entry_state start_state) (entry_buffer start_state lexbuf)

theorem engine_fuel_map {tbl : lexing_table} {α : Type} (f : Outcome × lexer_buffer → α)
    (fuel : Nat) (start_state : Int) (lexbuf : lexer_buffer) (a : α)
    (h : (lex_loop_fuel tbl fuel (entry_state start_state)
      (entry_buffer start_state lexbuf)).map f = some a) :
    f (old_caml_lex_engine tbl start_state lexbuf) = a := by
  rw [old_caml_lex_engine_entry]
  exact lex_loop_fuel_map f fuel _ _ a h

theorem old_caml_new_lex_engine_entry (tbl : lexing_table) (start_state : Int)
    (lexbuf : lexer_buffer) :
    old_caml_new_lex_engine tbl start_state lexbuf =
      new_lex_loop tbl (entry_state start_state) (entry_buffer start_state lexbuf) := by
  unfold entry_state entry_buffer
  by_cases hs : 0 ≤ start_state
  · rw [old_caml_new_lex_engine_fresh tbl hs, if_pos hs, if_pos hs]
  · rw [old_caml_new_lex_engine_resume tbl (not_le.mp hs), if_neg hs, if_neg hs]

/-! ## Suspending and resuming the engine with memory -/

/-- Lines 210 to 250: the loop body of the engine with memory after the
backtrack bookkeeping. -/
def new_lex_fetch (tbl : lexing_table) (state : Int) (lexbuf : lexer_buffer) : Option Step :=
  if lexbuf.lex_curr_pos ≥ lexbuf.lex_buffer_len then
    if lexbuf.lex_eof_reached = false then some (.exit (.ret (-state - 1)) lexbuf)
    else new_lex_trans tbl state (Short tbl.lex_base state) 256 lexbuf
  else
    new_lex_trans tbl state (Short tbl.lex_base state)
      (Byte_u lexbuf.lex_buffer lexbuf.lex_curr_pos)
      { lexbuf with lex_curr_pos := lexbuf.lex_curr_pos + 1 }

theorem new_lex_iter_accept {tbl : lexing_table} {state : Int} (lexbuf : lexer_buffer)
    (h : Short tbl.lex_base state < 0) :
    new_lex_iter tbl state lexbuf =
      (run_tag tbl.lex_code (Short tbl.lex_base_code state) lexbuf.lex_mem).map
        (fun mem => .exit (.ret (-Short tbl.lex_base state - 1)) (lexbuf.with_mem mem)) := by
  unfold new_lex_iter
  simp only [h, if_true]
  cases run_tag tbl.lex_code (Short tbl.lex_base_code state) lexbuf.lex_mem <;> rfl

theorem new_lex_iter_fetch {tbl : lexing_table} {state : Int} (lexbuf : lexer_buffer)
    (h : 0 ≤ Short tbl.lex_base state) :
    new_lex_iter tbl state lexbuf =
      (new_mark_backtrk tbl state lexbuf).bind (new_lex_fetch tbl state) := by
  unfold new_lex_iter
  simp only [not_lt.mpr h, if_false]
  cases new_mark_backtrk tbl state lexbuf <;> rfl

theorem new_mark_backtrk_neg {tbl : lexing_table} {state : Int} (lexbuf : lexer_buffer)
    (h : Short tbl.lex_backtrk state < 0) : new_mark_backtrk tbl state lexbuf = some lexbuf := by
  unfold new_mark_backtrk
  simp only [ge_iff_le, not_le.mpr h, if_false]

theorem new_mark_backtrk_nonneg {tbl : lexing_table} {state : Int} (lexbuf : lexer_buffer)
    (h : 0 ≤ Short tbl.lex_backtrk state) :
    new_mark_backtrk tbl state lexbuf =
      (run_tag tbl.lex_code (Short tbl.lex_backtrk_code state) lexbuf.lex_mem).map
        (fun mem =>
          { lexbuf with
            lex_mem := mem
            lex_last_pos := lexbuf.lex_curr_pos
            lex_last_action := Short tbl.lex_backtrk state }) := by
  unfold new_mark_backtrk
  simp only [ge_iff_le, h, if_true]
  cases run_tag tbl.lex_code (Short tbl.lex_backtrk_code state) lexbuf.lex_mem <;> rfl

/-- The step `stp` with its buffer refilled. -/
def Step.refill (buf2 : Int → Nat) (len2 : Int) : Step → Step
  | .exit o lb => .exit o (Lexing.refill buf2 len2 lb)
  | .continue s1 lb => .continue s1 (Lexing.refill buf2 len2 lb)

theorem new_mark_backtrk_refill (tbl : lexing_table) (state : Int) (buf2 : Int → Nat)
    (len2 : Int) (lexbuf : lexer_buffer) :
    new_mark_backtrk tbl state (refill buf2 len2 lexbuf) =
      (new_mark_backtrk tbl state lexbuf).map (refill buf2 len2) := by
  by_cases hq : 0 ≤ Short tbl.lex_backtrk state
  · rw [new_mark_backtrk_nonneg _ hq, new_mark_backtrk_nonneg _ hq]
    have hmem : (refill buf2 len2 lexbuf).lex_mem = lexbuf.lex_mem := rfl
    rw [hmem]
    cases run_tag tbl.lex_code (Short tbl.lex_backtrk_code state) lexbuf.lex_mem <;> rfl
  · rw [new_mark_backtrk_neg _ (not_le.mp hq), new_mark_backtrk_neg _ (not_le.mp hq)]
    rfl

theorem new_lex_trans_refill (tbl : lexing_table) (state base c : Int) (buf2 : Int → Nat)
    (len2 : Int) (lexbuf : lexer_buffer) (hc : c ≠ 256) :
    new_lex_trans tbl state base c (refill buf2 len2 lexbuf) =
      (new_lex_trans tbl state base c lexbuf).map (Step.refill buf2 len2) := by
  unfold new_lex_trans
  have hmem : (refill buf2 len2 lexbuf).lex_mem = lexbuf.lex_mem := rfl
  have hcp : (refill buf2 len2 lexbuf).lex_curr_pos = lexbuf.lex_curr_pos := rfl
  have hla : (refill buf2 len2 lexbuf).lex_last_action = lexbuf.lex_last_action := rfl
  simp only [hmem, hcp, hla, if_neg hc]
  by_cases hn : next_state tbl state base c < 0
  · simp only [hn, if_true]
    by_cases ha : lexbuf.lex_last_action = -1
    · simp only [ha, if_true]
      rfl
    · simp only [ha, if_false]
      rfl
  · simp only [hn, if_false]
    by_cases hp : trans_pc_off tbl state c > 0
    · simp only [hp, if_true]
      cases run_mem tbl.lex_code (trans_pc_off tbl state c) lexbuf.lex_mem lexbuf.lex_curr_pos
        <;> rfl
    · simp only [hp, if_false]
      rfl

theorem new_lex_loop_congr {tbl : lexing_table} {s1 s2 : Int} {lb1 lb2 : lexer_buffer}
    (h : new_lex_iter tbl s1 lb1 = new_lex_iter tbl s2 lb2) :
    new_lex_loop tbl s1 lb1 = new_lex_loop tbl s2 lb2 := by
  cases h2 : new_lex_iter tbl s2 lb2 with
  | none => rw [new_lex_loop_none h2, new_lex_loop_none (h.trans h2)]
  | some stp =>
    cases stp with
    | exit o lb => rw [new_lex_loop_exit h2, new_lex_loop_exit (h.trans h2)]
    | «continue» s3 lb3 => rw [new_lex_loop_continue h2, new_lex_loop_continue (h.trans h2)]

theorem new_lex_loop_induct (tbl : lexing_table) (P : Int → lexer_buffer → Prop)
    (step : ∀ state lexbuf,
      (∀ s1 lb1, new_lex_iter tbl state lexbuf = some (.continue s1 lb1) → P s1 lb1) →
        P state lexbuf) :
    ∀ state lexbuf, P state lexbuf := by
  intro state lexbuf
  generalize hn : lex_measure lexbuf = n
  induction n using Nat.strong_induction_on generalizing state lexbuf with
  | _ n ih =>
    apply step
    intro s1 lb1 h1
    have hlt := new_lex_iter_measure h1
    rw [hn] at hlt
    exact ih _ hlt s1 lb1 rfl

theorem new_mark_backtrk_fields {tbl : lexing_table} {state : Int} {lexbuf lbm : lexer_buffer}
    (h : new_mark_backtrk tbl state lexbuf = some lbm) :
    lbm.lex_curr_pos = lexbuf.lex_curr_pos ∧ lbm.lex_buffer_len = lexbuf.lex_buffer_len ∧
      lbm.lex_eof_reached = lexbuf.lex_eof_reached ∧ lbm.lex_buffer = lexbuf.lex_buffer := by
  have hm := new_mark_backtrk_erase h
  refine ⟨?_, ?_, ?_, ?_⟩
  · have := congrArg lexer_buffer.lex_curr_pos hm
    rw [mark_backtrk_curr_pos] at this
    exact this.symm
  · have := congrArg lexer_buffer.lex_buffer_len hm
    rw [mark_backtrk_buffer_len] at this
    exact this.symm
  · have := congrArg lexer_buffer.lex_eof_reached hm
    rw [mark_backtrk_eof_reached] at this
    exact this.symm
  · have := congrArg lexer_buffer.lex_buffer hm
    rw [mark_backtrk_buffer] at this
    exact this.symm

theorem chunk_with_mem {buf1 buf2 : Int → Nat} {len1 len2 : Int} {lexbuf : lexer_buffer}
    {mem : Nat → Int} (h : Chunk buf1 buf2 len1 len2 (lexbuf.with_mem mem)) :
    Chunk buf1 buf2 len1 len2 lexbuf :=
  ⟨h.buffer_eq, h.len_eq, h.eof_eq, h.len_le, h.agree⟩

/-- One pass of the loop body of the engine with memory on a first chunk,
against the same pass on the refilled buffer. -/
theorem new_lex_iter_chunk {tbl : lexing_table} {buf1 buf2 : Int → Nat} {len1 len2 : Int}
    {state : Int} {lexbuf : lexer_buffer} (hc : Chunk buf1 buf2 len1 len2 lexbuf)
    (hla : -1 ≤ lexbuf.lex_last_action) :
    (0 ≤ Short tbl.lex_base state ∧
      ∃ lbm, new_mark_backtrk tbl state lexbuf = some lbm ∧
        new_lex_iter tbl state lexbuf = some (.exit (.ret (-state - 1)) lbm)) ∨
    (new_lex_iter tbl state (refill buf2 len2 lexbuf) =
        (new_lex_iter tbl state lexbuf).map (Step.refill buf2 len2) ∧
      (∀ o lb, new_lex_iter tbl state lexbuf = some (.exit o lb) → ∀ v, o = .ret v → 0 ≤ v) ∧
      (∀ s1 lb1, new_lex_iter tbl state lexbuf = some (.continue s1 lb1) →
        0 ≤ s1 ∧ Chunk buf1 buf2 len1 len2 lb1 ∧ -1 ≤ lb1.lex_last_action)) := by
  have hma := mark_backtrk_last_action_ge tbl state lexbuf hla
  -- what the plain engine tells about a step that is taken
  have hfacts : ¬ (lexbuf.lex_buffer_len ≤ lexbuf.lex_curr_pos ∧ 0 ≤ Short tbl.lex_base state) →
      (∀ o lb, new_lex_iter tbl state lexbuf = some (.exit o lb) → ∀ v, o = .ret v → 0 ≤ v) ∧
      (∀ s1 lb1, new_lex_iter tbl state lexbuf = some (.continue s1 lb1) →
        0 ≤ s1 ∧ Chunk buf1 buf2 len1 len2 lb1 ∧ -1 ≤ lb1.lex_last_action) := by
    intro hns
    constructor
    · intro o lb hi v hv
      have he := new_lex_iter_erase hi
      rcases @lex_iter_chunk tbl buf1 buf2 len1 len2 state lexbuf hc with
        ⟨hb, hl, -⟩ | ⟨o2, lb2, h1, -, ho⟩ | ⟨s1, lb1, h1, -⟩
      · exact absurd ⟨by rw [hc.len_eq]; exact hl, hb⟩ hns
      · rw [h1] at he
        simp only [Step.with_mem, Step.exit.injEq] at he
        rw [← he.1] at hv
        rcases ho with ho | ⟨ho, hb⟩ | ⟨ho, hne⟩
        · rw [ho] at hv
          cases hv
        · rw [ho] at hv
          cases hv
          omega
        · rw [ho] at hv
          cases hv
          omega
      · rw [h1] at he
        cases he
    · intro s1 lb1 hi
      have he := new_lex_iter_erase hi
      rcases @lex_iter_chunk tbl buf1 buf2 len1 len2 state lexbuf hc with
        ⟨hb, hl, -⟩ | ⟨o2, lb2, h1, -⟩ | ⟨s2, lb2, h1, -, hs2, hc2, hla2⟩
      · exact absurd ⟨by rw [hc.len_eq]; exact hl, hb⟩ hns
      · rw [h1] at he
        cases he
      · rw [h1] at he
        simp only [Step.with_mem, Step.continue.injEq] at he
        obtain ⟨he1, he2⟩ := he
        subst he1
        rw [he2] at hc2 hla2
        refine ⟨hs2, chunk_with_mem hc2, ?_⟩
        have : (lb1.with_mem lexbuf.lex_mem).lex_last_action = lb1.lex_last_action := rfl
        rw [← this, hla2]
        exact hma
  by_cases hb : Short tbl.lex_base state < 0
  · right
    refine ⟨?_, hfacts (fun h => absurd h.2 (not_le.mpr hb))⟩
    rw [new_lex_iter_accept _ hb, new_lex_iter_accept _ hb]
    have hmem : (refill buf2 len2 lexbuf).lex_mem = lexbuf.lex_mem := rfl
    rw [hmem]
    cases run_tag tbl.lex_code (Short tbl.lex_base_code state) lexbuf.lex_mem <;> rfl
  · have hb1 : 0 ≤ Short tbl.lex_base state := not_lt.mp hb
    cases hm : new_mark_backtrk tbl state lexbuf with
    | none =>
      right
      have hi : new_lex_iter tbl state lexbuf = none := by
        rw [new_lex_iter_fetch _ hb1, hm]
        rfl
      refine ⟨?_, ?_, ?_⟩
      · rw [hi, new_lex_iter_fetch _ hb1, new_mark_backtrk_refill, hm]
        rfl
      · intro o lb h
        rw [hi] at h
        cases h
      · intro s1 lb1 h
        rw [hi] at h
        cases h
    | some lbm =>
      obtain ⟨hcp, hbl, heo, hbuf⟩ := new_mark_backtrk_fields hm
      by_cases hlen : lexbuf.lex_curr_pos < lexbuf.lex_buffer_len
      · right
        refine ⟨?_, hfacts (fun h => absurd h.1 (not_le.mpr hlen))⟩
        rw [new_lex_iter_fetch _ hb1, new_lex_iter_fetch _ hb1, new_mark_backtrk_refill, hm]
        show new_lex_fetch tbl state (refill buf2 len2 lbm) =
          (new_lex_fetch tbl state lbm).map (Step.refill buf2 len2)
        have hcr := Byte_u_lt lbm.lex_buffer lbm.lex_curr_pos
        have hl1 : ¬ (lbm.lex_curr_pos ≥ lbm.lex_buffer_len) := by
          rw [hcp, hbl]
          exact not_le.mpr hlen
        have hl2 : ¬ ((refill buf2 len2 lbm).lex_curr_pos ≥
            (refill buf2 len2 lbm).lex_buffer_len) := by
          have h1 := hc.len_le
          have h2 := hc.len_eq
          simp only [refill]
          rw [hcp]
          omega
        have hbyte : Byte_u (refill buf2 len2 lbm).lex_buffer (refill buf2 len2 lbm).lex_curr_pos
            = Byte_u lbm.lex_buffer lbm.lex_curr_pos := by
          simp only [refill]
          rw [hbuf, hcp, hc.buffer_eq]
          exact (hc.agree _ (by rw [← hc.len_eq]; exact hlen)).symm
        unfold new_lex_fetch
        rw [if_neg hl1, if_neg hl2, hbyte]
        exact new_lex_trans_refill tbl state _ _ buf2 len2
          { lbm with lex_curr_pos := lbm.lex_curr_pos + 1 } (by omega)
      · left
        refine ⟨hb1, lbm, rfl, ?_⟩
        rw [new_lex_iter_fetch _ hb1, hm]
        show new_lex_fetch tbl state lbm = _
        unfold new_lex_fetch
        rw [if_pos (by rw [hcp, hbl]; exact not_lt.mp hlen), if_pos (by rw [heo]; exact hc.eof_eq)]

/-- Resuming in the state left at the refill check: when running the tag
program of that state once more changes nothing, the loop body does what it does
on the refilled buffer of before the bookkeeping. -/
theorem new_lex_iter_resume {tbl : lexing_table} {state : Int} {lexbuf lbm : lexer_buffer}
    (buf2 : Int → Nat) (len2 : Int) (hb : 0 ≤ Short tbl.lex_base state)
    (hm : new_mark_backtrk tbl state lexbuf = some lbm)
    (hidem : 0 ≤ Short tbl.lex_backtrk state →
      run_tag tbl.lex_code (Short tbl.lex_backtrk_code state) lbm.lex_mem = some lbm.lex_mem) :
    new_lex_iter tbl state (refill buf2 len2 lbm) =
      new_lex_iter tbl state (refill buf2 len2 lexbuf) := by
  rw [new_lex_iter_fetch _ hb, new_lex_iter_fetch _ hb, new_mark_backtrk_refill tbl state buf2 len2
    lexbuf, hm]
  have hself : new_mark_backtrk tbl state (refill buf2 len2 lbm) = some (refill buf2 len2 lbm) := by
    by_cases hq : 0 ≤ Short tbl.lex_backtrk state
    · rw [new_mark_backtrk_nonneg _ hq] at hm
      rw [new_mark_backtrk_nonneg _ hq]
      have hmem : (refill buf2 len2 lbm).lex_mem = lbm.lex_mem := rfl
      rw [hmem, hidem hq]
      cases hr : run_tag tbl.lex_code (Short tbl.lex_backtrk_code state) lexbuf.lex_mem with
      | none =>
        rw [hr] at hm
        cases hm
      | some m =>
        rw [hr] at hm
        simp only [Option.map_some', Option.some.injEq] at hm
        subst hm
        rfl
    · exact new_mark_backtrk_neg _ (not_le.mp hq)
  rw [hself]
  rfl

/-- The loop of the engine with memory on a first chunk, against the loop on the
refilled buffer. -/
theorem new_lex_loop_chunk (tbl : lexing_table) {buf1 buf2 : Int → Nat} {len1 len2 : Int} :
    ∀ (state : Int) (lexbuf : lexer_buffer), Chunk buf1 buf2 len1 len2 lexbuf → 0 ≤ state →
      -1 ≤ lexbuf.lex_last_action →
      (new_lex_loop tbl state lexbuf = none →
        new_lex_loop tbl state (refill buf2 len2 lexbuf) = none) ∧
      (∀ o lb, new_lex_loop tbl state lexbuf = some (o, lb) →
        (∃ q, 0 ≤ q ∧ o = .ret (-q - 1) ∧
          ((0 ≤ Short tbl.lex_backtrk q →
              run_tag tbl.lex_code (Short tbl.lex_backtrk_code q) lb.lex_mem = some lb.lex_mem) →
            new_lex_loop tbl q (refill buf2 len2 lb) =
              new_lex_loop tbl state (refill buf2 len2 lexbuf))) ∨
        ((∀ v, o = .ret v → 0 ≤ v) ∧
          new_lex_loop tbl state (refill buf2 len2 lexbuf) = some (o, refill buf2 len2 lb))) := by
  apply new_lex_loop_induct tbl
  intro state lexbuf ih hc hs hla
  rcases @new_lex_iter_chunk tbl buf1 buf2 len1 len2 state lexbuf hc hla with
    ⟨hb, lbm, hm, hi⟩ | ⟨hsame, hex, hco⟩
  · rw [new_lex_loop_exit hi]
    refine ⟨fun h => (by cases h), ?_⟩
    intro o lb h
    simp only [Option.some.injEq, Prod.mk.injEq] at h
    obtain ⟨h1, h2⟩ := h
    subst h1 h2
    left
    refine ⟨state, hs, rfl, fun hidem => ?_⟩
    exact new_lex_loop_congr (new_lex_iter_resume buf2 len2 hb hm hidem)
  · cases hi : new_lex_iter tbl state lexbuf with
    | none =>
      rw [hi] at hsame
      rw [new_lex_loop_none hi, new_lex_loop_none hsame]
      exact ⟨fun _ => rfl, fun o lb h => (by cases h)⟩
    | some stp =>
      cases stp with
      | exit o1 lb1 =>
        rw [hi] at hsame
        rw [new_lex_loop_exit hi, new_lex_loop_exit hsame]
        refine ⟨fun h => (by cases h), ?_⟩
        intro o lb h
        simp only [Option.some.injEq, Prod.mk.injEq] at h
        obtain ⟨h1, h2⟩ := h
        subst h1 h2
        right
        exact ⟨hex _ _ hi, rfl⟩
      | «continue» s1 lb1 =>
        rw [hi] at hsame
        rw [new_lex_loop_continue hi, new_lex_loop_continue hsame]
        obtain ⟨hs1, hc1, hla1⟩ := hco _ _ hi
        exact ih s1 lb1 hi hc1 hs1 hla1

/-- The refill protocol driven on `w` cut at `k`, for the engine with memory. -/
def new_split_run (tbl : lexing_table) (s : Int) (w : List Nat) (k : Nat)
    (lexbuf : lexer_buffer) : Option (Outcome × lexer_buffer) :=
  match old_caml_new_lex_engine tbl s (first_chunk w k lexbuf) with
  | none => none
  | some (.ret r, lb) =>
    if r < 0 then old_caml_new_lex_engine tbl r (whole_input w lb) else some (.ret r, lb)
  | some (.empty_token, lb) => some (.empty_token, lb)

/-- The split run against the run on the whole input, for the engine with
memory, when running the tag program of the state of the suspension once more
changes nothing. -/
theorem new_split_run_whole (tbl : lexing_table) (s : Int) (w : List Nat) (k : Nat)
    (lexbuf : lexer_buffer) (hs : 0 ≤ s) (hk : k ≤ w.length)
    (hidem : ∀ r lb, old_caml_new_lex_engine tbl s (first_chunk w k lexbuf) = some (.ret r, lb) →
      r < 0 → 0 ≤ Short tbl.lex_backtrk (-r - 1) →
      run_tag tbl.lex_code (Short tbl.lex_backtrk_code (-r - 1)) lb.lex_mem = some lb.lex_mem) :
    old_caml_new_lex_engine tbl s (whole_input w lexbuf) =
      (new_split_run tbl s w k lexbuf).map (fun x => (x.1, whole_input w x.2)) ∨
    old_caml_new_lex_engine tbl s (whole_input w lexbuf) = new_split_run tbl s w k lexbuf := by
  have key := new_lex_loop_chunk tbl s _ (chunk_first_chunk w k hk lexbuf) hs (le_refl _)
  have hw : old_caml_new_lex_engine tbl s (whole_input w lexbuf) =
      new_lex_loop tbl s (refill (bytes w) w.length (fresh (first_chunk w k lexbuf))) :=
    old_caml_new_lex_engine_fresh tbl hs _
  have hf := old_caml_new_lex_engine_fresh tbl hs (first_chunk w k lexbuf)
  rw [hf] at hidem
  unfold new_split_run
  rw [hw, hf]
  cases hr : new_lex_loop tbl s (fresh (first_chunk w k lexbuf)) with
  | none =>
    right
    rw [key.1 hr]
  | some x =>
    obtain ⟨o, lb⟩ := x
    rcases key.2 o lb hr with ⟨q, hq, h1, h2⟩ | ⟨h1, h2⟩
    · right
      subst h1
      have hneg : -q - 1 < 0 := by omega
      have hqq : - (-q - 1) - 1 = q := by omega
      have hid := hidem (-q - 1) lb hr hneg
      rw [hqq] at hid
      simp only [hneg, if_true]
      rw [old_caml_new_lex_engine_resume tbl hneg, hqq, ← h2 hid]
      rfl
    · left
      rw [h2]
      cases o with
      | ret v =>
        have hv := h1 v rfl
        simp only [not_lt.mpr hv, if_false]
        rfl
      | empty_token => rfl

theorem new_engine_fuel_map {tbl : lexing_table} {α : Type} (f : Outcome × lexer_buffer → α)
    (fuel : Nat) (start_state : Int) (lexbuf : lexer_buffer) (a : Option α)
    (h : (new_lex_loop_fuel tbl fuel (entry_state start_state)
      (entry_buffer start_state lexbuf)).map (Option.map f) = some a) :
    (old_caml_new_lex_engine tbl start_state lexbuf).map f = a := by
  rw [old_caml_new_lex_engine_entry]
  exact new_lex_loop_fuel_map f fuel _ _ a h

/-- The split run of the engine with memory, each call cut after `fuel`
iterations (outer `none`: cut). -/
def new_split_run_fuel (tbl : lexing_table) (fuel : Nat) (s : Int) (w : List Nat) (k : Nat)
    (lexbuf : lexer_buffer) : Option (Option (Outcome × lexer_buffer)) :=
  match new_lex_loop_fuel tbl fuel (entry_state s) (entry_buffer s (first_chunk w k lexbuf)) with
  | none => none
  | some none => some none
  | some (some (.ret r, lb)) =>
    if r < 0 then
      new_lex_loop_fuel tbl fuel (entry_state r) (entry_buffer r (whole_input w lb))
    else some (some (.ret r, lb))
  | some (some (.empty_token, lb)) => some (some (.empty_token, lb))

theorem new_split_run_of_fuel {tbl : lexing_table} {fuel : Nat} {s : Int} {w : List Nat}
    {k : Nat} {lexbuf : lexer_buffer} {x : Option (Outcome × lexer_buffer)}
    (h : new_split_run_fuel tbl fuel s w k lexbuf = some x) :
    new_split_run tbl s w k lexbuf = x := by
  unfold new_split_run_fuel at h
  unfold new_split_run
  rw [old_caml_new_lex_engine_entry]
  split at h
  · cases h
  · rename_i h1
    rw [new_lex_loop_of_fuel h1]
    cases h
    rfl
  · rename_i r lb h1
    rw [new_lex_loop_of_fuel h1]
    simp only
    split
    · rename_i hr
      rw [if_pos hr] at h
      rw [old_caml_new_lex_engine_entry]
      exact new_lex_loop_of_fuel h
    · rename_i hr
      rw [if_neg hr] at h
      cases h
      rfl
  · rename_i lb h1
    rw [new_lex_loop_of_fuel h1]
    cases h
    rfl

theorem new_split_run_fuel_map {tbl : lexing_table} {α : Type} (f : Outcome × lexer_buffer → α)
    (fuel : Nat) (s : Int) (w : List Nat) (k : Nat) (lexbuf : lexer_buffer) (a : Option α)
    (h : (new_split_run_fuel tbl fuel s w k lexbuf).map (Option.map f) = some a) :
    (new_split_run tbl s w k lexbuf).map f = a := by
  cases hf : new_split_run_fuel tbl fuel s w k lexbuf with
  | none =>
    rw [hf] at h
    cases h
  | some x =>
    rw [hf] at h
    rw [new_split_run_of_fuel hf]
    simpa using h

/-- A table whose only state 0 is a backtrack point for action 0 with the tag
program `mem[0] <- mem[1]; mem[1] <- -1` (offset 1 of the blob) and has no
transition at all. -/
def table_retag : lexing_table :=
  { lex_base := shorts [0]
    lex_backtrk := shorts [0]
    lex_default := shorts [-1]
    lex_trans := shorts (words 260 [])
    lex_check := shorts (words 260 [])
    lex_base_code := shorts [0]
    lex_backtrk_code := shorts [1]
    lex_default_code := shorts [0]
    lex_trans_code := shorts (words 260 [])
    lex_check_code := shorts (words 260 [])
    lex_code := [0xff, 0, 1, 1, 0xff, 0xff] }

/-- The automaton of `ab*` with one tag: the transition on `a` out of state 0
runs the memory program `mem[1] <- curr_pos` (offset 4 of the blob), and the
backtrack point 1 has the tag program `mem[0] <- mem[1]` (offset 1). -/
def table_tagged_ab_star : lexing_table :=
  { lex_base := shorts [0, 1]
    lex_backtrk := shorts [-1, 0]
    lex_default := shorts [-1, -1]
    lex_trans := shorts (words 260 [(97, 1), (99, 1)])
    lex_check := shorts (words 260 [(97, 0), (99, 1)])
    lex_base_code := shorts [0, 0]
    lex_backtrk_code := shorts [0, 1]
    lex_default_code := shorts [0, 0]
    lex_trans_code := shorts (words 260 [(97, 4)])
    lex_check_code := shorts (words 260 [(97, 0)])
    lex_code := [0xff, 0, 1, 0xff, 1, 0xff, 0xff] }

/-- A table whose blob starts with the program `mem[0] <- -1` and whose code
tables are all zero: state 0 is a backtrack point for action 0 and goes to the
accepting state 1 (action 1) on any character. -/
def table_unguarded : lexing_table :=
  { lex_base := shorts [0, -2]
    lex_backtrk := shorts [0, -1]
    lex_default := shorts [1, -1]
    lex_trans := shorts (words 260 [])
    lex_check := shorts (words 260 [])
    lex_base_code := shorts [0, 0]
    lex_backtrk_code := shorts [0, 0]
    lex_default_code := shorts [0, 0]
    lex_trans_code := shorts (words 260 [])
    lex_check_code := shorts (words 260 [])
    lex_code := [0, 0xff, 0xff] }

/-- Capture cells for the examples: cell 0 holds 5, every other cell 7. -/
def cells_5_7 : Nat → Int := fun i => if i = 0 then 5 else 7

/-- After a transition that is taken, a memory program at an offset that is
zero or negative is not run: the cells are as before. -/
theorem run_mem_skipped (tbl : lexing_table) (state base c : Int) (lexbuf : lexer_buffer)
    (hn : 0 ≤ next_state tbl state base c) (hp : trans_pc_off tbl state c ≤ 0) :
    new_lex_trans tbl state base c lexbuf =
      some (.continue (next_state tbl state base c)
        (if c = 256 then { lexbuf with lex_eof_reached := false } else lexbuf)) := by
  unfold new_lex_trans
  simp only [not_lt.mpr hn, if_false, gt_iff_lt, not_lt.mpr hp]

/-! ## Table words and capture programs, in the words of the specification -/

/-- The 16-bit word stored low byte first at bytes `2n` and `2n+1` of `tbl`. -/
def word16 (tbl : Int → Nat) (n : Int) : Nat :=
  tbl (n * 2) % 256 + 256 * (tbl (n * 2 + 1) % 256)

/-- The two's-complement value of the 16-bit word `w`. -/
def signed16 (w : Nat) : Int :=
  if w < 32768 then (w : Int) else (w : Int) - 65536

/-- The native variant of the accessor (line 56), `((short *)(tbl))[n]`, as it
reads on a little-endian machine whose `short` is 16 bits in two's complement. -/
def Short_native (tbl : Int → Nat) (n : Int) : Int :=
  signed16 (word16 tbl n)

/-- The pairs `(dest, src)` of the program held by the bytes, up to the first
pair position whose dest byte is `0xFF`; `none` when the bytes end before. -/
def program_pairs : List Nat → Option (List (Nat × Nat))
  | [] => none
  | dst :: rest =>
    if dst % 256 = 0xff then some []
    else
      match rest with
      | [] => none
      | src :: rest1 => (program_pairs rest1).map (fun ps => (dst % 256, src % 256) :: ps)

/-- One pair executed: `src = 0xFF` writes `special` into `mem[dest]`, any other
`src` copies the current `mem[src]` into `mem[dest]`. -/
def exec_pair (special : Int) (mem : Nat → Int) (p : Nat × Nat) : Nat → Int :=
  Function.update mem p.1 (if p.2 = 0xff then special else mem p.2)

/-- The pairs executed one after the other, each on the cells left by the ones
before it. -/
def exec_pairs (special : Int) (ps : List (Nat × Nat)) (mem : Nat → Int) : Nat → Int :=
  ps.foldl (exec_pair special) mem

theorem run_mem_from_pairs (bs : List Nat) :
    ∀ (mem : Nat → Int) (curr_pos : Int),
      run_mem_from bs mem curr_pos =
        (program_pairs bs).map (fun ps => exec_pairs curr_pos ps mem) := by
  induction bs using program_pairs.induct with
  | case1 =>
    intro mem curr_pos
    rfl
  | case2 dst rest h =>
    intro mem curr_pos
    unfold run_mem_from program_pairs
    rw [if_pos h, if_pos h]
    rfl
  | case3 dst h =>
    intro mem curr_pos
    unfold run_mem_from program_pairs
    rw [if_neg h, if_neg h]
    rfl
  | case4 dst h src rest1 ih =>
    intro mem curr_pos
    unfold run_mem_from program_pairs
    rw [if_neg h, if_neg h]
    simp only
    by_cases hs : src % 256 = 0xff
    · rw [if_pos hs, ih]
      cases program_pairs rest1 with
      | none => rfl
      | some ps =>
        simp only [Option.map_some', exec_pairs, List.foldl_cons, exec_pair, hs, if_true]
    · rw [if_neg hs, ih]
      cases program_pairs rest1 with
      | none => rfl
      | some ps =>
        simp only [Option.map_some', exec_pairs, List.foldl_cons, exec_pair, hs, if_false]

theorem run_tag_from_eq_run_mem_from (bs : List Nat) :
    ∀ (mem : Nat → Int), run_tag_from bs mem = run_mem_from bs mem (-1) := by
  induction bs using program_pairs.induct with
  | case1 =>
    intro mem
    rfl
  | case2 dst rest h =>
    intro mem
    unfold run_tag_from run_mem_from
    simp only [h, if_true]
  | case3 dst h =>
    intro mem
    unfold run_tag_from run_mem_from
    simp only [h, if_false]
  | case4 dst h src rest1 ih =>
    intro mem
    unfold run_tag_from run_mem_from
    simp only [h, if_false]
    by_cases hs : src % 256 = 0xff
    · simp only [hs, if_true, ih]
    · simp only [hs, if_false, ih]

theorem run_tag_eq_run_mem (code : List Nat) (pc_off : Int) (mem : Nat → Int) :
    run_tag code pc_off mem = run_mem code pc_off mem (-1) := by
  unfold run_tag run_mem
  rw [run_tag_from_eq_run_mem_from]

theorem exec_pairs_frame (special : Int) (ps : List (Nat × Nat)) :
    ∀ (mem : Nat → Int) (d : Nat), (∀ p ∈ ps, p.1 ≠ d) → exec_pairs special ps mem d = mem d := by
  induction ps with
  | nil =>
    intro mem d _
    rfl
  | cons p ps ih =>
    intro mem d h
    unfold exec_pairs
    rw [List.foldl_cons]
    have h1 := ih (exec_pair special mem p) d (fun q hq => h q (List.mem_cons_of_mem _ hq))
    unfold exec_pairs at h1
    rw [h1]
    unfold exec_pair
    exact Function.update_noteq (fun hd => h p (List.mem_cons_self _ _) hd.symm) _ _

/-! ## Invariants along a run -/

/-- The buffer a pass of the loop body ends with. -/
def Step.buffer : Step → lexer_buffer
  | .exit _ lb => lb
  | .continue _ lb => lb

/-- A property of the buffer kept by every pass of the loop body that goes round
again holds at every visit of a run that starts with it. -/
theorem lex_visits_invariant (tbl : lexing_table) (I : Int → lexer_buffer → Prop)
    (hstep : ∀ state lexbuf s1 lb1, I state lexbuf →
      lex_iter tbl state lexbuf = .continue s1 lb1 → I s1 lb1) :
    ∀ (state : Int) (lexbuf : lexer_buffer), I state lexbuf →
      ∀ v ∈ lex_visits tbl state lexbuf, I v.1 v.2 := by
  apply lex_loop_induct tbl
  intro state lexbuf ih hI v hv
  cases hi : lex_iter tbl state lexbuf with
  | exit o lb =>
    rw [lex_visits_exit hi] at hv
    simp only [List.mem_singleton] at hv
    rw [hv]
    exact hI
  | «continue» s1 lb1 =>
    rw [lex_visits_continue hi] at hv
    rcases List.mem_cons.mp hv with hv | hv
    · rw [hv]
      exact hI
    · exact ih s1 lb1 hi (hstep _ _ _ _ hI hi) v hv

/-- Every run ends with a pass of the loop body that leaves the function, taken
at the last of its visits. -/
theorem lex_loop_exit_at_last (tbl : lexing_table) :
    ∀ (state : Int) (lexbuf : lexer_buffer),
      ∃ v o lb, (lex_visits tbl state lexbuf).getLast? = some v ∧
        lex_iter tbl v.1 v.2 = .exit o lb ∧ lex_loop tbl state lexbuf = (o, lb) ∧
        lex_exit tbl state lexbuf = iter_exit tbl v.1 v.2 := by
  apply lex_loop_induct tbl
  intro state lexbuf ih
  cases hi : lex_iter tbl state lexbuf with
  | exit o lb =>
    refine ⟨(state, lexbuf), o, lb, ?_, hi, lex_loop_exit hi, lex_exit_of_exit hi⟩
    rw [lex_visits_exit hi]
    rfl
  | «continue» s2 lb2 =>
    obtain ⟨v, o, lb, h1, h2, h3, h4⟩ := ih s2 lb2 hi
    refine ⟨v, o, lb, ?_, h2, ?_, ?_⟩
    · rw [lex_visits_continue hi]
      obtain ⟨x, l, hx⟩ := List.exists_cons_of_ne_nil (lex_visits_ne_nil tbl s2 lb2)
      rw [hx, List.getLast?_cons_cons, ← hx]
      exact h1
    · rw [lex_loop_continue hi]
      exact h3
    · rw [lex_exit_continue hi]
      exact h4

theorem mem_of_getLast? {α : Type} {l : List α} {a : α} (h : l.getLast? = some a) : a ∈ l := by
  induction l with
  | nil => cases h
  | cons x l ih =>
    cases l with
    | nil =>
      simp only [List.getLast?_singleton, Option.some.injEq] at h
      rw [h]
      exact List.mem_cons_self _ _
    | cons y l =>
      rw [List.getLast?_cons_cons] at h
      exact List.mem_cons_of_mem _ (ih h)

theorem advance_curr_pos (c : Int) (lexbuf : lexer_buffer) :
    (advance c lexbuf).lex_curr_pos =
      if c = 256 then lexbuf.lex_curr_pos else lexbuf.lex_curr_pos + 1 := by
  unfold advance
  split <;> rfl

theorem advance_buffer_len (c : Int) (lexbuf : lexer_buffer) :
    (advance c lexbuf).lex_buffer_len = lexbuf.lex_buffer_len := by
  unfold advance
  split <;> rfl

theorem advance_eof_reached (c : Int) (lexbuf : lexer_buffer) :
    (advance c lexbuf).lex_eof_reached =
      if c = 256 then false else lexbuf.lex_eof_reached := by
  unfold advance
  split <;> rfl

theorem lex_char_cases (lexbuf : lexer_buffer) :
    (lex_char lexbuf = none ∧ lexbuf.lex_buffer_len ≤ lexbuf.lex_curr_pos ∧
      lexbuf.lex_eof_reached = false) ∨
    (lex_char lexbuf = some 256 ∧ lexbuf.lex_buffer_len ≤ lexbuf.lex_curr_pos ∧
      lexbuf.lex_eof_reached = true) ∨
    (lex_char lexbuf = some (Byte_u lexbuf.lex_buffer lexbuf.lex_curr_pos) ∧
      lexbuf.lex_curr_pos < lexbuf.lex_buffer_len ∧
      Byte_u lexbuf.lex_buffer lexbuf.lex_curr_pos ≠ 256) := by
  unfold lex_char
  by_cases hlen : lexbuf.lex_curr_pos < lexbuf.lex_buffer_len
  · right; right
    have := Byte_u_lt lexbuf.lex_buffer lexbuf.lex_curr_pos
    exact ⟨by rw [if_neg (not_le.mpr hlen)], hlen, by omega⟩
  · have hlen1 : lexbuf.lex_buffer_len ≤ lexbuf.lex_curr_pos := not_lt.mp hlen
    cases heof : lexbuf.lex_eof_reached
    · left
      exact ⟨by rw [if_pos hlen1]; simp, hlen1, rfl⟩
    · right; left
      exact ⟨by rw [if_pos hlen1]; simp, hlen1, rfl⟩

/-- The automaton of the empty word followed by the end of input (action 0):
state 0 goes to the accepting state 1 on the pseudo-character 256 alone. -/
def table_eof : lexing_table :=
  plain_table [0, -1] [-1, -1] [-1, -1] (words 260 [(256, 1)]) (words 260 [(256, 0)])

/-- A pass of the loop body changes `eof_reached` in one case only: the
pseudo-character 256 was looked up and the transition taken, and the flag goes
from true to false. -/
theorem lex_iter_eof_changes (tbl : lexing_table) (state : Int) (lexbuf : lexer_buffer)
    (h : (lex_iter tbl state lexbuf).buffer.lex_eof_reached ≠ lexbuf.lex_eof_reached) :
    0 ≤ Short tbl.lex_base state ∧ lex_char lexbuf = some 256 ∧
      0 ≤ next_state tbl state (Short tbl.lex_base state) 256 ∧
      lexbuf.lex_eof_reached = true ∧
      (lex_iter tbl state lexbuf).buffer.lex_eof_reached = false := by
  rcases lex_iter_spec tbl state lexbuf with
    ⟨-, -, hj⟩ | ⟨-, -, -, hj⟩ | ⟨-, -, -, hj⟩ | ⟨-, hb, c, hc, hn, hj⟩
  · rw [hj] at h
    exact absurd rfl h
  · rw [hj] at h
    exact absurd (mark_backtrk_eof_reached tbl state lexbuf) h
  · rw [hj] at h
    exact absurd (mark_backtrk_eof_reached tbl state lexbuf) h
  · rw [hj] at h ⊢
    simp only [Step.buffer, advance_eof_reached, mark_backtrk_eof_reached] at h ⊢
    by_cases hc256 : c = 256
    · subst hc256
      simp only [if_true] at h ⊢
      refine ⟨hb, hc, hn, ?_, trivial⟩
      cases heof : lexbuf.lex_eof_reached
      · rw [heof] at h
        exact absurd rfl h
      · rfl
    · rw [if_neg hc256] at h
      exact absurd rfl h

theorem lex_loop_eof_reached (tbl : lexing_table) :
    ∀ (state : Int) (lexbuf : lexer_buffer),
      (lex_loop tbl state lexbuf).2.lex_eof_reached = true → lexbuf.lex_eof_reached = true := by
  apply lex_loop_induct tbl
  intro state lexbuf ih h
  have key : (lex_iter tbl state lexbuf).buffer.lex_eof_reached = true →
      lexbuf.lex_eof_reached = true := by
    intro h1
    by_contra hne
    have hdiff : (lex_iter tbl state lexbuf).buffer.lex_eof_reached ≠ lexbuf.lex_eof_reached := by
      rw [h1]
      exact fun h2 => hne h2.symm
    have := (lex_iter_eof_changes tbl state lexbuf hdiff).2.2.2.2
    rw [h1] at this
    cases this
  cases hi : lex_iter tbl state lexbuf with
  | exit o lb =>
    rw [lex_loop_exit hi] at h
    rw [hi] at key
    exact key h
  | «continue» s1 lb1 =>
    rw [lex_loop_continue hi] at h
    rw [hi] at key
    exact key (ih s1 lb1 hi h)

/-! ## What a call leaves untouched -/

/-- The fields of the buffer no engine writes, but for the capture cells: the
refill function, the bytes, their length, the absolute position and the location
metadata are the same in `a` and `b`. -/
def same_frame (a b : lexer_buffer) : Prop :=
  a.refill_buff = b.refill_buff ∧ a.lex_buffer = b.lex_buffer ∧
  a.lex_buffer_len = b.lex_buffer_len ∧ a.lex_abs_pos = b.lex_abs_pos ∧
  a.lex_start_p = b.lex_start_p ∧ a.lex_curr_p = b.lex_curr_p

/-- The cells `m2` are reached from the cells `m1` by calls of `run_tag` and
`run_mem` on the blob `code`, and by nothing else. -/
inductive mem_steps (code : List Nat) : (Nat → Int) → (Nat → Int) → Prop where
  | refl (m : Nat → Int) : mem_steps code m m
  | tag (m m1 m2 : Nat → Int) (pc_off : Int) :
      mem_steps code m m1 → run_tag code pc_off m1 = some m2 → mem_steps code m m2
  | mem (m m1 m2 : Nat → Int) (pc_off curr_pos : Int) :
      mem_steps code m m1 → run_mem code pc_off m1 curr_pos = some m2 → mem_steps code m m2

theorem same_frame_refl (a : lexer_buffer) : same_frame a a :=
  ⟨rfl, rfl, rfl, rfl, rfl, rfl⟩

theorem same_frame_trans {a b c : lexer_buffer} (h1 : same_frame a b) (h2 : same_frame b c) :
    same_frame a c :=
  ⟨h1.1.trans h2.1, h1.2.1.trans h2.2.1, h1.2.2.1.trans h2.2.2.1,
    h1.2.2.2.1.trans h2.2.2.2.1, h1.2.2.2.2.1.trans h2.2.2.2.2.1,
    h1.2.2.2.2.2.trans h2.2.2.2.2.2⟩

theorem mark_backtrk_frame (tbl : lexing_table) (state : Int) (lexbuf : lexer_buffer) :
    same_frame (mark_backtrk tbl state lexbuf) lexbuf ∧
      (mark_backtrk tbl state lexbuf).lex_mem = lexbuf.lex_mem := by
  unfold mark_backtrk
  simp only
  split
  · exact ⟨⟨rfl, rfl, rfl, rfl, rfl, rfl⟩, rfl⟩
  · exact ⟨same_frame_refl _, rfl⟩

theorem advance_frame (c : Int) (lexbuf : lexer_buffer) :
    same_frame (advance c lexbuf) lexbuf ∧ (advance c lexbuf).lex_mem = lexbuf.lex_mem := by
  unfold advance
  split
  · exact ⟨⟨rfl, rfl, rfl, rfl, rfl, rfl⟩, rfl⟩
  · exact ⟨⟨rfl, rfl, rfl, rfl, rfl, rfl⟩, rfl⟩

theorem lex_iter_frame (tbl : lexing_table) (state : Int) (lexbuf : lexer_buffer) :
    same_frame (lex_iter tbl state lexbuf).buffer lexbuf ∧
      (lex_iter tbl state lexbuf).buffer.lex_mem = lexbuf.lex_mem := by
  have hm := mark_backtrk_frame tbl state lexbuf
  rcases lex_iter_spec tbl state lexbuf with
    ⟨-, -, hj⟩ | ⟨-, -, -, hj⟩ | ⟨-, -, -, hj⟩ | ⟨-, -, c, -, -, hj⟩
  · rw [hj]
    exact ⟨same_frame_refl _, rfl⟩
  · rw [hj]
    exact hm
  · rw [hj]
    exact ⟨same_frame_trans ⟨rfl, rfl, rfl, rfl, rfl, rfl⟩ hm.1, hm.2⟩
  · rw [hj]
    have ha := advance_frame c (mark_backtrk tbl state lexbuf)
    exact ⟨same_frame_trans ha.1 hm.1, ha.2.trans hm.2⟩

theorem lex_loop_frame (tbl : lexing_table) :
    ∀ (state : Int) (lexbuf : lexer_buffer),
      same_frame (lex_loop tbl state lexbuf).2 lexbuf ∧
        (lex_loop tbl state lexbuf).2.lex_mem = lexbuf.lex_mem := by
  apply lex_loop_induct tbl
  intro state lexbuf ih
  have hf := lex_iter_frame tbl state lexbuf
  cases hi : lex_iter tbl state lexbuf with
  | exit o lb =>
    rw [lex_loop_exit hi]
    rw [hi] at hf
    exact hf
  | «continue» s1 lb1 =>
    rw [lex_loop_continue hi]
    rw [hi] at hf
    have h1 := ih s1 lb1 hi
    exact ⟨same_frame_trans h1.1 hf.1, h1.2.trans hf.2⟩

theorem mem_steps_trans {code : List Nat} {m1 m2 m3 : Nat → Int}
    (h1 : mem_steps code m1 m2) (h2 : mem_steps code m2 m3) : mem_steps code m1 m3 := by
  induction h2 with
  | refl => exact h1
  | tag ma mb pc _ hr ih => exact mem_steps.tag _ _ _ pc ih hr
  | mem ma mb pc pos _ hr ih => exact mem_steps.mem _ _ _ pc pos ih hr

theorem new_lex_trans_mem {tbl : lexing_table} {state base c : Int} {lexbuf : lexer_buffer}
    {stp : Step} (h : new_lex_trans tbl state base c lexbuf = some stp) :
    mem_steps tbl.lex_code lexbuf.lex_mem stp.buffer.lex_mem := by
  unfold new_lex_trans at h
  simp only at h
  split at h
  · split at h
    · cases h
      exact mem_steps.refl _
    · cases h
      exact mem_steps.refl _
  · split at h
    · cases h
    · rename_i mem hm
      cases h
      have hmem : mem_steps tbl.lex_code lexbuf.lex_mem mem := by
        split at hm
        · exact mem_steps.mem _ _ _ _ _ (mem_steps.refl _) hm
        · cases hm
          exact mem_steps.refl _
      simp only [Step.buffer]
      split <;> exact hmem

theorem new_lex_iter_mem {tbl : lexing_table} {state : Int} {lexbuf : lexer_buffer}
    {stp : Step} (h : new_lex_iter tbl state lexbuf = some stp) :
    mem_steps tbl.lex_code lexbuf.lex_mem stp.buffer.lex_mem := by
  by_cases hb : Short tbl.lex_base state < 0
  · rw [new_lex_iter_accept _ hb] at h
    cases hr : run_tag tbl.lex_code (Short tbl.lex_base_code state) lexbuf.lex_mem with
    | none =>
      rw [hr] at h
      cases h
    | some m =>
      rw [hr] at h
      cases h
      exact mem_steps.tag _ _ _ _ (mem_steps.refl _) hr
  · have hb1 : 0 ≤ Short tbl.lex_base state := not_lt.mp hb
    rw [new_lex_iter_fetch _ hb1] at h
    cases hm : new_mark_backtrk tbl state lexbuf with
    | none =>
      rw [hm] at h
      cases h
    | some lbm =>
      rw [hm] at h
      have h1 : mem_steps tbl.lex_code lexbuf.lex_mem lbm.lex_mem := by
        by_cases hq : 0 ≤ Short tbl.lex_backtrk state
        · rw [new_mark_backtrk_nonneg _ hq] at hm
          cases hr : run_tag tbl.lex_code (Short tbl.lex_backtrk_code state) lexbuf.lex_mem with
          | none =>
            rw [hr] at hm
            cases hm
          | some m =>
            rw [hr] at hm
            cases hm
            exact mem_steps.tag _ _ _ _ (mem_steps.refl _) hr
        · rw [new_mark_backtrk_neg _ (not_le.mp hq)] at hm
          cases hm
          exact mem_steps.refl _
      have h2 : mem_steps tbl.lex_code lbm.lex_mem stp.buffer.lex_mem := by
        have h3 : new_lex_fetch tbl state lbm = some stp := h
        unfold new_lex_fetch at h3
        split at h3
        · split at h3
          · cases h3
            exact mem_steps.refl _
          · exact new_lex_trans_mem h3
        · exact @new_lex_trans_mem tbl state _ _
            { lbm with lex_curr_pos := lbm.lex_curr_pos + 1 } stp h3
      exact mem_steps_trans h1 h2

theorem new_lex_loop_mem (tbl : lexing_table) :
    ∀ (state : Int) (lexbuf : lexer_buffer) (r : Outcome × lexer_buffer),
      new_lex_loop tbl state lexbuf = some r →
      mem_steps tbl.lex_code lexbuf.lex_mem r.2.lex_mem := by
  apply new_lex_loop_induct tbl
  intro state lexbuf ih r hr
  cases hi : new_lex_iter tbl state lexbuf with
  | none =>
    rw [new_lex_loop_none hi] at hr
    cases hr
  | some stp =>
    have h1 := new_lex_iter_mem hi
    cases stp with
    | exit o lb =>
      rw [new_lex_loop_exit hi] at hr
      cases hr
      exact h1
    | «continue» s1 lb1 =>
      rw [new_lex_loop_continue hi] at hr
      exact mem_steps_trans h1 (ih s1 lb1 hi r hr)

/-! ## Cursors, iteration count and results -/

/-- The relation `start_pos ≤ last_pos ≤ curr_pos ≤ length` between the cursors
of a buffer. -/
def cursor_inv (lexbuf : lexer_buffer) : Prop :=
  lexbuf.lex_start_pos ≤ lexbuf.lex_last_pos ∧ lexbuf.lex_last_pos ≤ lexbuf.lex_curr_pos ∧
    lexbuf.lex_curr_pos ≤ lexbuf.lex_buffer_len

theorem mark_backtrk_cursor_inv (tbl : lexing_table) (state : Int) (lexbuf : lexer_buffer)
    (h : cursor_inv lexbuf) : cursor_inv (mark_backtrk tbl state lexbuf) := by
  unfold mark_backtrk
  simp only
  split
  · unfold cursor_inv at h ⊢
    simp only
    omega
  · exact h

/-- How a pass of the loop body moves the cursor: going round again it is past
one byte, or where it was on the pseudo-character 256; leaving, it is where it
was, or back at `last_pos` in a dead end. -/
theorem lex_iter_cursor (tbl : lexing_table) (state : Int) (lexbuf : lexer_buffer) :
    (∀ s1 lb1, lex_iter tbl state lexbuf = .continue s1 lb1 →
      ∃ c, lex_char lexbuf = some c ∧
        lb1.lex_curr_pos = (if c = 256 then lexbuf.lex_curr_pos else lexbuf.lex_curr_pos + 1)) ∧
    (∀ o lb, lex_iter tbl state lexbuf = .exit o lb →
      lb.lex_curr_pos = lexbuf.lex_curr_pos ∨
      (iter_exit tbl state lexbuf = some .dead_end ∧ lb.lex_curr_pos = lb.lex_last_pos)) := by
  rcases lex_iter_spec tbl state lexbuf with
    ⟨-, -, hj⟩ | ⟨-, -, -, hj⟩ | ⟨hk, -, -, hj⟩ | ⟨-, -, c, hc, -, hj⟩
  · rw [hj]
    refine ⟨fun s1 lb1 h => (by cases h), fun o lb h => ?_⟩
    cases h
    exact Or.inl rfl
  · rw [hj]
    refine ⟨fun s1 lb1 h => (by cases h), fun o lb h => ?_⟩
    cases h
    exact Or.inl (mark_backtrk_curr_pos _ _ _)
  · rw [hj]
    refine ⟨fun s1 lb1 h => (by cases h), fun o lb h => ?_⟩
    cases h
    exact Or.inr ⟨hk, rfl⟩
  · rw [hj]
    refine ⟨fun s1 lb1 h => ?_, fun o lb h => (by cases h)⟩
    cases h
    exact ⟨c, hc, by rw [advance_curr_pos, mark_backtrk_curr_pos]⟩

theorem lex_iter_cursor_inv (tbl : lexing_table) (state : Int) (lexbuf : lexer_buffer)
    (h : cursor_inv lexbuf) : cursor_inv (lex_iter tbl state lexbuf).buffer := by
  have hm := mark_backtrk_cursor_inv tbl state lexbuf h
  rcases lex_iter_spec tbl state lexbuf with
    ⟨-, -, hj⟩ | ⟨-, -, -, hj⟩ | ⟨-, -, -, hj⟩ | ⟨-, -, c, hc, -, hj⟩
  · rw [hj]
    exact h
  · rw [hj]
    exact hm
  · rw [hj]
    unfold cursor_inv at hm ⊢
    simp only [Step.buffer]
    omega
  · rw [hj]
    simp only [Step.buffer]
    unfold advance
    split
    · exact hm
    · rename_i hne
      have hlt : lexbuf.lex_curr_pos < lexbuf.lex_buffer_len := by
        rcases lex_char_cases lexbuf with ⟨h1, -⟩ | ⟨h1, -⟩ | ⟨-, h2, -⟩
        · rw [hc] at h1
          cases h1
        · rw [hc] at h1
          cases h1
          exact absurd rfl hne
        · exact h2
      have h1 := mark_backtrk_curr_pos tbl state lexbuf
      have h2 := mark_backtrk_buffer_len tbl state lexbuf
      unfold cursor_inv at hm ⊢
      simp only
      omega

theorem lex_loop_cursor_inv (tbl : lexing_table) :
    ∀ (state : Int) (lexbuf : lexer_buffer), cursor_inv lexbuf →
      cursor_inv (lex_loop tbl state lexbuf).2 := by
  apply lex_loop_induct tbl
  intro state lexbuf ih h
  have h1 := lex_iter_cursor_inv tbl state lexbuf h
  cases hi : lex_iter tbl state lexbuf with
  | exit o lb =>
    rw [lex_loop_exit hi]
    rw [hi] at h1
    exact h1
  | «continue» s1 lb1 =>
    rw [lex_loop_continue hi]
    rw [hi] at h1
    exact ih s1 lb1 hi h1

/-- The number of passes of the loop body of a run is bounded by the bytes left
to read, plus two when the end of input is asserted, plus one when it is not. -/
theorem lex_visits_length_le (tbl : lexing_table) :
    ∀ (state : Int) (lexbuf : lexer_buffer),
      (lex_visits tbl state lexbuf).length ≤
        (lexbuf.lex_buffer_len - lexbuf.lex_curr_pos).toNat +
          (if lexbuf.lex_eof_reached then 2 else 1) := by
  apply lex_loop_induct tbl
  intro state lexbuf ih
  rcases lex_iter_spec tbl state lexbuf with
    ⟨-, -, hj⟩ | ⟨-, -, -, hj⟩ | ⟨-, -, -, hj⟩ | ⟨-, -, c, hc, -, hj⟩
  · rw [lex_visits_exit hj]
    simp only [List.length_singleton]
    split <;> omega
  · rw [lex_visits_exit hj]
    simp only [List.length_singleton]
    split <;> omega
  · rw [lex_visits_exit hj]
    simp only [List.length_singleton]
    split <;> omega
  · rw [lex_visits_continue hj]
    have h1 := ih _ _ hj
    rw [advance_curr_pos, advance_buffer_len, advance_eof_reached, mark_backtrk_curr_pos,
      mark_backtrk_buffer_len, mark_backtrk_eof_reached] at h1
    simp only [List.length_cons]
    rcases lex_char_cases lexbuf with ⟨h2, -⟩ | ⟨h2, hlen, heof⟩ | ⟨h2, hlen, hne⟩
    · rw [hc] at h2
      cases h2
    · rw [hc] at h2
      cases h2
      simp only [if_true, Bool.false_eq_true, if_false] at h1
      rw [heof]
      simp only [if_true]
      have : (lexbuf.lex_buffer_len - lexbuf.lex_curr_pos).toNat = 0 := by omega
      omega
    · rw [hc] at h2
      cases h2
      rw [if_neg hne, if_neg hne] at h1
      have : (lexbuf.lex_buffer_len - (lexbuf.lex_curr_pos + 1)).toNat + 1 =
          (lexbuf.lex_buffer_len - lexbuf.lex_curr_pos).toNat := by omega
      omega

/-- The loop cut after `fuel` iterations has its result exactly when `fuel`
covers the visits of the run. -/
theorem lex_loop_fuel_eq (tbl : lexing_table) :
    ∀ (state : Int) (lexbuf : lexer_buffer) (fuel : Nat),
      lex_loop_fuel tbl fuel state lexbuf =
        (if (lex_visits tbl state lexbuf).length ≤ fuel then some (lex_loop tbl state lexbuf)
         else none) := by
  apply lex_loop_induct tbl
  intro state lexbuf ih fuel
  cases fuel with
  | zero =>
    have hne := lex_visits_ne_nil tbl state lexbuf
    have : ¬ ((lex_visits tbl state lexbuf).length ≤ 0) := by
      intro h
      exact hne (List.length_eq_zero.mp (Nat.le_zero.mp h))
    rw [if_neg this]
    rfl
  | succ n =>
    unfold lex_loop_fuel
    cases hi : lex_iter tbl state lexbuf with
    | exit o lb =>
      rw [lex_visits_exit hi, lex_loop_exit hi]
      simp
    | «continue» s1 lb1 =>
      simp only
      rw [ih s1 lb1 hi n, lex_visits_continue hi, lex_loop_continue hi]
      simp only [List.length_cons, Nat.add_le_add_iff_right]

/-- After a pass that consumed the pseudo-character 256, the next pass leaves
the function. -/
theorem lex_iter_after_eof {tbl : lexing_table} {state s1 : Int} {lexbuf lb1 : lexer_buffer}
    (hc : lex_char lexbuf = some 256) (hi : lex_iter tbl state lexbuf = .continue s1 lb1) :
    lb1.lex_eof_reached = false ∧ ∃ o lb2, lex_iter tbl s1 lb1 = .exit o lb2 := by
  rcases lex_iter_spec tbl state lexbuf with
    ⟨-, -, hj⟩ | ⟨-, -, -, hj⟩ | ⟨-, -, -, hj⟩ | ⟨-, -, c, hc2, -, hj⟩
  · rw [hj] at hi
    cases hi
  · rw [hj] at hi
    cases hi
  · rw [hj] at hi
    cases hi
  · rw [hc] at hc2
    cases hc2
    rw [hj] at hi
    cases hi
    have hlen : lexbuf.lex_buffer_len ≤ lexbuf.lex_curr_pos := by
      rcases lex_char_cases lexbuf with ⟨h1, -⟩ | ⟨-, h2, -⟩ | ⟨h1, -, hne⟩
      · rw [hc] at h1
        cases h1
      · exact h2
      · rw [hc] at h1
        exact absurd (Option.some.inj h1).symm hne
    have heof : (advance 256 (mark_backtrk tbl state lexbuf)).lex_eof_reached = false := by
      rw [advance_eof_reached, if_pos rfl]
    have hch : lex_char (advance 256 (mark_backtrk tbl state lexbuf)) = none := by
      unfold lex_char
      rw [advance_curr_pos, advance_buffer_len, if_pos rfl, mark_backtrk_curr_pos,
        mark_backtrk_buffer_len, if_pos hlen, if_pos heof]
    refine ⟨heof, ?_⟩
    rcases lex_iter_spec tbl (next_state tbl state (Short tbl.lex_base state) 256)
        (advance 256 (mark_backtrk tbl state lexbuf)) with
      ⟨-, -, hj2⟩ | ⟨-, -, -, hj2⟩ | ⟨-, -, ⟨c3, hc3, -⟩, -⟩ | ⟨-, -, c3, hc3, -⟩
    · exact ⟨_, _, hj2⟩
    · exact ⟨_, _, hj2⟩
    · rw [hch] at hc3
      cases hc3
    · rw [hch] at hc3
      cases hc3

theorem lex_iter_state_inv {tbl : lexing_table} {state s1 : Int} {lexbuf lb1 : lexer_buffer}
    (hs : 0 ≤ state ∧ -1 ≤ lexbuf.lex_last_action)
    (hi : lex_iter tbl state lexbuf = .continue s1 lb1) :
    0 ≤ s1 ∧ -1 ≤ lb1.lex_last_action := by
  rcases lex_iter_spec tbl state lexbuf with
    ⟨-, -, hj⟩ | ⟨-, -, -, hj⟩ | ⟨-, -, -, hj⟩ | ⟨-, -, c, -, hn, hj⟩
  · rw [hj] at hi
    cases hi
  · rw [hj] at hi
    cases hi
  · rw [hj] at hi
    cases hi
  · rw [hj] at hi
    cases hi
    refine ⟨hn, ?_⟩
    rw [advance_last_action]
    exact mark_backtrk_last_action_ge tbl state lexbuf hs.2

theorem entry_state_nonneg (start_state : Int) : 0 ≤ entry_state start_state := by
  unfold entry_state
  split <;> omega

/-- The results of a run entered in a non-negative state with `last_action ≥ -1`,
by the way it leaves the function; `q` is the state of its last visit. -/
theorem lex_loop_results (tbl : lexing_table) (state : Int) (lexbuf : lexer_buffer)
    (hs : 0 ≤ state) (hla : -1 ≤ lexbuf.lex_last_action) :
    ∃ q, (lex_trace tbl state lexbuf).getLast?.map Prod.fst = some q ∧ 0 ≤ q ∧
      ((lex_exit tbl state lexbuf = some .accept ∧ Short tbl.lex_base q < 0 ∧
          (lex_loop tbl state lexbuf).1 = .ret (-Short tbl.lex_base q - 1)) ∨
        (lex_exit tbl state lexbuf = some .refill ∧ 0 ≤ Short tbl.lex_base q ∧
          (lex_loop tbl state lexbuf).1 = .ret (-q - 1) ∧
          (lex_loop tbl state lexbuf).2.lex_buffer_len ≤
            (lex_loop tbl state lexbuf).2.lex_curr_pos ∧
          (lex_loop tbl state lexbuf).2.lex_eof_reached = false) ∨
        (lex_exit tbl state lexbuf = some .dead_end ∧
          ((lex_loop tbl state lexbuf).1 = .empty_token ∨
            (0 ≤ (lex_loop tbl state lexbuf).2.lex_last_action ∧
              (lex_loop tbl state lexbuf).1 =
                .ret (lex_loop tbl state lexbuf).2.lex_last_action)))) := by
  obtain ⟨v, o, lbf, hlast, hiter, hloop, hexit⟩ := lex_loop_exit_at_last tbl state lexbuf
  have hmem := mem_of_getLast? hlast
  have hI := lex_visits_invariant tbl (fun st lb => 0 ≤ st ∧ -1 ≤ lb.lex_last_action)
    (fun st lb s1 lb1 h hi => lex_iter_state_inv h hi) state lexbuf ⟨hs, hla⟩ v hmem
  have hma := mark_backtrk_last_action_ge tbl v.1 v.2 hI.2
  refine ⟨v.1, ?_, hI.1, ?_⟩
  · unfold lex_trace
    rw [List.getLast?_map, hlast]
    rfl
  · rw [hloop, hexit]
    rcases lex_iter_spec tbl v.1 v.2 with
      ⟨hk, hb, hj⟩ | ⟨hk, hb, hc, hj⟩ | ⟨hk, -, -, hj⟩ | ⟨-, -, c, -, -, hj⟩
    · rw [hj] at hiter
      cases hiter
      exact Or.inl ⟨hk, hb, rfl⟩
    · rw [hj] at hiter
      cases hiter
      right; left
      refine ⟨hk, hb, rfl, ?_, ?_⟩
      · rcases lex_char_cases v.2 with ⟨-, h2, -⟩ | ⟨h1, -⟩ | ⟨h1, -⟩
        · show (mark_backtrk tbl v.1 v.2).lex_buffer_len ≤ (mark_backtrk tbl v.1 v.2).lex_curr_pos
          rw [mark_backtrk_buffer_len, mark_backtrk_curr_pos]
          exact h2
        · rw [hc] at h1
          cases h1
        · rw [hc] at h1
          cases h1
      · rcases lex_char_cases v.2 with ⟨-, -, h3⟩ | ⟨h1, -⟩ | ⟨h1, -⟩
        · show (mark_backtrk tbl v.1 v.2).lex_eof_reached = false
          rw [mark_backtrk_eof_reached]
          exact h3
        · rw [hc] at h1
          cases h1
        · rw [hc] at h1
          cases h1
    · rw [hj] at hiter
      cases hiter
      right; right
      refine ⟨hk, ?_⟩
      by_cases ha : (mark_backtrk tbl v.1 v.2).lex_last_action = -1
      · left
        simp only [ha, if_true]
      · right
        simp only [ha, if_false]
        exact ⟨by omega, trivial⟩
    · rw [hj] at hiter
      cases hiter

/-! ## What `last_action` and `last_pos` record -/

/-- A state whose visit records a backtrack point: the loop body gets past line
86 (`base ≥ 0`) and finds `backtrk ≥ 0` at line 89. -/
def backtrack_point (tbl : lexing_table) (q : Int) : Prop :=
  0 ≤ Short tbl.lex_base q ∧ 0 ≤ Short tbl.lex_backtrk q

/-- The pair (`last_action`, `last_pos`) after the visit of state `v.1` with the
cursor at `v.2`, from the pair `x` before it. -/
def record_visit (tbl : lexing_table) (x : Int × Int) (v : Int × Int) : Int × Int :=
  if 0 ≤ Short tbl.lex_base v.1 ∧ 0 ≤ Short tbl.lex_backtrk v.1 then
    (Short tbl.lex_backtrk v.1, v.2)
  else x

/-- The pair (`last_action`, `last_pos`) after the visits `T`, from the pair `x`. -/
def recorded (tbl : lexing_table) (T : List (Int × Int)) (x : Int × Int) : Int × Int :=
  T.foldl (record_visit tbl) x

/-- The buffer `lexbuf` records the visits `T` of an attempt: `last_action` is
unset exactly when no backtrack point is among them, and otherwise
`last_action` and `last_pos` are the action and the cursor of the last one. -/
def records_visits (tbl : lexing_table) (T : List (Int × Int)) (lexbuf : lexer_buffer) : Prop :=
  (lexbuf.lex_last_action = -1 ↔ ∀ v ∈ T, ¬ backtrack_point tbl v.1) ∧
  (∀ T1 q p T2, T = T1 ++ (q, p) :: T2 → backtrack_point tbl q →
    (∀ v ∈ T2, ¬ backtrack_point tbl v.1) →
    lexbuf.lex_last_action = Short tbl.lex_backtrk q ∧ lexbuf.lex_last_pos = p)

theorem record_visit_point (tbl : lexing_table) (x v : Int × Int)
    (h : backtrack_point tbl v.1) :
    record_visit tbl x v = (Short tbl.lex_backtrk v.1, v.2) := by
  unfold record_visit
  exact if_pos h

theorem record_visit_no_point (tbl : lexing_table) (x v : Int × Int)
    (h : ¬ backtrack_point tbl v.1) : record_visit tbl x v = x := by
  unfold record_visit
  exact if_neg h

theorem recorded_no_point (tbl : lexing_table) (T : List (Int × Int)) :
    ∀ x : Int × Int, (∀ v ∈ T, ¬ backtrack_point tbl v.1) → recorded tbl T x = x := by
  induction T with
  | nil =>
    intro x _
    rfl
  | cons t T ih =>
    intro x h
    unfold recorded
    rw [List.foldl_cons]
    have ht : ¬ backtrack_point tbl t.1 := h t (List.mem_cons_self _ _)
    rw [record_visit_no_point tbl x t ht]
    exact ih x (fun v hv => h v (List.mem_cons_of_mem _ hv))

theorem recorded_last_point (tbl : lexing_table) (T1 : List (Int × Int)) (q p : Int)
    (T2 : List (Int × Int)) (x : Int × Int) (hq : backtrack_point tbl q)
    (hT2 : ∀ v ∈ T2, ¬ backtrack_point tbl v.1) :
    recorded tbl (T1 ++ (q, p) :: T2) x = (Short tbl.lex_backtrk q, p) := by
  unfold recorded
  rw [List.foldl_append, List.foldl_cons]
  rw [record_visit_point tbl _ (q, p) hq]
  exact recorded_no_point tbl T2 _ hT2

/-- A list with an element of a decidable kind splits at the last such one. -/
theorem exists_last_point (tbl : lexing_table) (T : List (Int × Int))
    (h : ∃ v ∈ T, backtrack_point tbl v.1) :
    ∃ T1 q p T2, T = T1 ++ (q, p) :: T2 ∧ backtrack_point tbl q ∧
      ∀ v ∈ T2, ¬ backtrack_point tbl v.1 := by
  induction T with
  | nil =>
    obtain ⟨v, hv, -⟩ := h
    cases hv
  | cons t T ih =>
    by_cases hT : ∃ v ∈ T, backtrack_point tbl v.1
    · obtain ⟨T1, q, p, T2, h1, h2, h3⟩ := ih hT
      exact ⟨t :: T1, q, p, T2, by rw [h1]; rfl, h2, h3⟩
    · obtain ⟨v, hv, hp⟩ := h
      rcases List.mem_cons.mp hv with hv | hv
      · subst hv
        refine ⟨[], v.1, v.2, T, rfl, hp, ?_⟩
        intro w hw hpw
        exact hT ⟨w, hw, hpw⟩
      · exact absurd ⟨v, hv, hp⟩ hT

/-- A buffer whose pair (`last_action`, `last_pos`) is what the visits `T`
record from an unset `last_action` records those visits. -/
theorem records_of_recorded (tbl : lexing_table) (T : List (Int × Int)) (lexbuf : lexer_buffer)
    (lp0 : Int)
    (h : (lexbuf.lex_last_action, lexbuf.lex_last_pos) = recorded tbl T (-1, lp0)) :
    records_visits tbl T lexbuf := by
  have hsplit : ∀ T1 q p T2, T = T1 ++ (q, p) :: T2 → backtrack_point tbl q →
      (∀ v ∈ T2, ¬ backtrack_point tbl v.1) →
      lexbuf.lex_last_action = Short tbl.lex_backtrk q ∧ lexbuf.lex_last_pos = p := by
    intro T1 q p T2 hT hq hT2
    rw [hT, recorded_last_point tbl T1 q p T2 _ hq hT2] at h
    exact ⟨congrArg Prod.fst h, congrArg Prod.snd h⟩
  refine ⟨⟨?_, ?_⟩, hsplit⟩
  · intro hla v hv hp
    obtain ⟨T1, q, p, T2, h1, h2, h3⟩ := exists_last_point tbl T ⟨v, hv, hp⟩
    have := (hsplit T1 q p T2 h1 h2 h3).1
    have hq := h2.2
    omega
  · intro hno
    rw [recorded_no_point tbl T _ hno] at h
    exact congrArg Prod.fst h

theorem mark_backtrk_recorded (tbl : lexing_table) (state : Int) (lexbuf : lexer_buffer)
    (hb : 0 ≤ Short tbl.lex_base state) :
    ((mark_backtrk tbl state lexbuf).lex_last_action,
        (mark_backtrk tbl state lexbuf).lex_last_pos) =
      record_visit tbl (lexbuf.lex_last_action, lexbuf.lex_last_pos)
        (state, lexbuf.lex_curr_pos) := by
  by_cases hq : 0 ≤ Short tbl.lex_backtrk state
  · rw [record_visit_point tbl _ (state, lexbuf.lex_curr_pos) ⟨hb, hq⟩,
      mark_backtrk_nonneg lexbuf hq]
  · rw [record_visit_no_point tbl _ (state, lexbuf.lex_curr_pos) (fun h => hq h.2),
      mark_backtrk_neg lexbuf (not_le.mp hq)]

/-- At the exit of a run, `last_action` and `last_pos` are what its visits
record from the values of entry. -/
theorem lex_loop_recorded (tbl : lexing_table) :
    ∀ (state : Int) (lexbuf : lexer_buffer),
      ((lex_loop tbl state lexbuf).2.lex_last_action,
          (lex_loop tbl state lexbuf).2.lex_last_pos) =
        recorded tbl (lex_trace tbl state lexbuf)
          (lexbuf.lex_last_action, lexbuf.lex_last_pos) := by
  apply lex_loop_induct tbl
  intro state lexbuf ih
  rcases lex_iter_spec tbl state lexbuf with
    ⟨-, hb, hj⟩ | ⟨-, hb, -, hj⟩ | ⟨-, hb, -, hj⟩ | ⟨-, hb, c, -, -, hj⟩
  · rw [lex_loop_exit hj, lex_trace_exit hj]
    unfold recorded
    simp only [List.foldl_cons, List.foldl_nil]
    rw [record_visit_no_point tbl _ (state, lexbuf.lex_curr_pos)
      (fun h => absurd h.1 (not_le.mpr hb))]
  · rw [lex_loop_exit hj, lex_trace_exit hj]
    exact mark_backtrk_recorded tbl state lexbuf hb
  · rw [lex_loop_exit hj, lex_trace_exit hj]
    exact mark_backtrk_recorded tbl state lexbuf hb
  · rw [lex_loop_continue hj, lex_trace_continue hj, ih _ _ hj, advance_last_action,
      advance_last_pos, mark_backtrk_recorded tbl state lexbuf hb]
    rfl

/-- After the backtrack bookkeeping of any pass of a run, `last_action` and
`last_pos` are what the visits so far record from the values of entry. -/
theorem lex_visits_recorded (tbl : lexing_table) :
    ∀ (state : Int) (lexbuf : lexer_buffer) (L1 : List (Int × lexer_buffer))
      (v : Int × lexer_buffer) (L2 : List (Int × lexer_buffer)),
      lex_visits tbl state lexbuf = L1 ++ v :: L2 → 0 ≤ Short tbl.lex_base v.1 →
      ((mark_backtrk tbl v.1 v.2).lex_last_action, (mark_backtrk tbl v.1 v.2).lex_last_pos) =
        recorded tbl ((L1 ++ [v]).map (fun w => (w.1, w.2.lex_curr_pos)))
          (lexbuf.lex_last_action, lexbuf.lex_last_pos) := by
  apply lex_loop_induct tbl
  intro state lexbuf ih L1 v L2 hv hb
  have hhead : ∃ L, lex_visits tbl state lexbuf = (state, lexbuf) :: L := by
    cases hi : lex_iter tbl state lexbuf with
    | exit o lb => exact ⟨_, lex_visits_exit hi⟩
    | «continue» s1 lb1 => exact ⟨_, lex_visits_continue hi⟩
  obtain ⟨L, hL⟩ := hhead
  cases L1 with
  | nil =>
    rw [hL] at hv
    simp only [List.nil_append, List.cons.injEq] at hv
    obtain ⟨h1, -⟩ := hv
    subst h1
    exact mark_backtrk_recorded tbl state lexbuf hb
  | cons x L1 =>
    rcases lex_iter_spec tbl state lexbuf with
      ⟨-, -, hj⟩ | ⟨-, -, -, hj⟩ | ⟨-, -, -, hj⟩ | ⟨-, hb0, c, -, -, hj⟩
    · rw [lex_visits_exit hj] at hv
      simp only [List.cons_append, List.cons.injEq] at hv
      have := hv.2
      cases L1 <;> simp at this
    · rw [lex_visits_exit hj] at hv
      simp only [List.cons_append, List.cons.injEq] at hv
      have := hv.2
      cases L1 <;> simp at this
    · rw [lex_visits_exit hj] at hv
      simp only [List.cons_append, List.cons.injEq] at hv
      have := hv.2
      cases L1 <;> simp at this
    · rw [lex_visits_continue hj] at hv
      simp only [List.cons_append, List.cons.injEq] at hv
      obtain ⟨hx, hrest⟩ := hv
      subst hx
      rw [ih _ _ hj L1 v L2 hrest hb, advance_last_action, advance_last_pos,
        mark_backtrk_recorded tbl state lexbuf hb0]
      rfl

/-- A table whose state 0 is accepting (action 0) and has a non-negative
`backtrk` entry all the same. -/
def table_accept_backtrk : lexing_table :=
  plain_table [-1] [3] [-1] (words 260 []) (words 260 [])

/-- At the top of any pass of a run, `last_action` and `last_pos` are what the
visits before it record from the values of entry. -/
theorem lex_visits_recorded_top (tbl : lexing_table) :
    ∀ (state : Int) (lexbuf : lexer_buffer) (L1 : List (Int × lexer_buffer))
      (v : Int × lexer_buffer) (L2 : List (Int × lexer_buffer)),
      lex_visits tbl state lexbuf = L1 ++ v :: L2 →
      (v.2.lex_last_action, v.2.lex_last_pos) =
        recorded tbl (L1.map (fun w => (w.1, w.2.lex_curr_pos)))
          (lexbuf.lex_last_action, lexbuf.lex_last_pos) := by
  apply lex_loop_induct tbl
  intro state lexbuf ih L1 v L2 hv
  have hhead : ∃ L, lex_visits tbl state lexbuf = (state, lexbuf) :: L := by
    cases hi : lex_iter tbl state lexbuf with
    | exit o lb => exact ⟨_, lex_visits_exit hi⟩
    | «continue» s1 lb1 => exact ⟨_, lex_visits_continue hi⟩
  obtain ⟨L, hL⟩ := hhead
  cases L1 with
  | nil =>
    rw [hL] at hv
    simp only [List.nil_append, List.cons.injEq] at hv
    obtain ⟨h1, -⟩ := hv
    subst h1
    rfl
  | cons x L1 =>
    rcases lex_iter_spec tbl state lexbuf with
      ⟨-, -, hj⟩ | ⟨-, -, -, hj⟩ | ⟨-, -, -, hj⟩ | ⟨-, hb0, c, -, -, hj⟩
    · rw [lex_visits_exit hj] at hv
      simp only [List.cons_append, List.cons.injEq] at hv
      have := hv.2
      cases L1 <;> simp at this
    · rw [lex_visits_exit hj] at hv
      simp only [List.cons_append, List.cons.injEq] at hv
      have := hv.2
      cases L1 <;> simp at this
    · rw [lex_visits_exit hj] at hv
      simp only [List.cons_append, List.cons.injEq] at hv
      have := hv.2
      cases L1 <;> simp at this
    · rw [lex_visits_continue hj] at hv
      simp only [List.cons_append, List.cons.injEq] at hv
      obtain ⟨hx, hrest⟩ := hv
      subst hx
      rw [ih _ _ hj L1 v L2 hrest, advance_last_action, advance_last_pos,
        mark_backtrk_recorded tbl state lexbuf hb0]
      rfl

theorem recorded_append (tbl : lexing_table) (T1 T2 : List (Int × Int)) (x : Int × Int) :
    recorded tbl (T1 ++ T2) x = recorded tbl T2 (recorded tbl T1 x) := by
  unfold recorded
  rw [List.foldl_append]

/-! ## The memory program of a transition -/

theorem lex_char_new_mark_backtrk {tbl : lexing_table} {state : Int} {lexbuf lbm : lexer_buffer}
    (h : new_mark_backtrk tbl state lexbuf = some lbm) : lex_char lbm = lex_char lexbuf := by
  obtain ⟨h1, h2, h3, h4⟩ := new_mark_backtrk_fields h
  unfold lex_char
  rw [h1, h2, h3, h4]

/-- The fetch of lines 211 to 221 hands the character looked up to the
transition, with the cursor past it when it is a byte. -/
theorem new_lex_fetch_char (tbl : lexing_table) (state c : Int) (lbm : lexer_buffer)
    (hc : lex_char lbm = some c) :
    new_lex_fetch tbl state lbm =
      new_lex_trans tbl state (Short tbl.lex_base state) c
        (if c = 256 then lbm else { lbm with lex_curr_pos := lbm.lex_curr_pos + 1 }) := by
  rcases lex_char_cases lbm with ⟨h1, -, -⟩ | ⟨h1, hlen, heof⟩ | ⟨h1, hlen, hne⟩
  · rw [h1] at hc
    cases hc
  · rw [h1] at hc
    have hc1 : c = 256 := (Option.some.inj hc).symm
    subst hc1
    unfold new_lex_fetch
    simp only [ge_iff_le, hlen, if_true, heof, Bool.true_eq_false, if_false]
  · rw [h1] at hc
    have hc1 : c = Byte_u lbm.lex_buffer lbm.lex_curr_pos := (Option.some.inj hc).symm
    subst hc1
    unfold new_lex_fetch
    simp only [ge_iff_le, not_le.mpr hlen, if_false, hne]

/-- A transition that is taken with a memory program at a positive offset runs
that program once, with the cursor of the buffer it is given. -/
theorem new_lex_trans_run (tbl : lexing_table) (state base c : Int) (lexbuf : lexer_buffer)
    (hn : 0 ≤ next_state tbl state base c) (hp : 0 < trans_pc_off tbl state c) :
    new_lex_trans tbl state base c lexbuf =
      (run_mem tbl.lex_code (trans_pc_off tbl state c) lexbuf.lex_mem lexbuf.lex_curr_pos).map
        (fun mem => .continue (next_state tbl state base c)
          ((if c = 256 then { lexbuf with lex_eof_reached := false } else lexbuf).with_mem mem)) := by
  unfold new_lex_trans
  simp only [not_lt.mpr hn, if_false, gt_iff_lt, hp, if_true]
  cases run_mem tbl.lex_code (trans_pc_off tbl state c) lexbuf.lex_mem lexbuf.lex_curr_pos with
  | none => rfl
  | some mem =>
    by_cases h256 : c = 256
    · simp only [h256, if_true, Option.map_some']
      rfl
    · simp only [h256, if_false, Option.map_some']
      rfl

/-- A transition that is not taken runs no memory program: the cells are those
of the buffer it is given. -/
theorem new_lex_trans_dead (tbl : lexing_table) (state base c : Int) (lexbuf : lexer_buffer)
    (hn : next_state tbl state base c < 0) :
    new_lex_trans tbl state base c lexbuf =
      some (.exit (if lexbuf.lex_last_action = -1 then .empty_token
          else .ret lexbuf.lex_last_action)
        { lexbuf with lex_curr_pos := lexbuf.lex_last_pos }) := by
  unfold new_lex_trans
  simp only [hn, if_true]
  by_cases h : lexbuf.lex_last_action = -1
  · simp only [h, if_true]
  · simp only [h, if_false]

/-! ## The calls of the capture programs in a run -/

/-- A call of the interpreter of capture programs made by the engine with
memory: `run_tag` at an offset of the blob (lines 197 and 205), or `run_mem` at
an offset with a cursor (line 245). -/
inductive Call where
  | tag (pc_off : Int)
  | record (pc_off : Int) (curr_pos : Int)
  deriving DecidableEq, Repr

/-- The call `k` made on the cells `mem`. -/
def exec_call (code : List Nat) (mem : Nat → Int) : Call → Option (Nat → Int)
  | .tag pc_off => run_tag code pc_off mem
  | .record pc_off curr_pos => run_mem code pc_off mem curr_pos

/-- The calls `ks` made one after the other, each on the cells left by the ones
before it. -/
def exec_calls (code : List Nat) : List Call → (Nat → Int) → Option (Nat → Int)
  | [], mem => some mem
  | k :: ks, mem => (exec_call code mem k).bind (exec_calls code ks)

/-- The call of the backtrack bookkeeping of a pass in `state` (line 205). -/
def mark_calls (tbl : lexing_table) (state : Int) : List Call :=
  if Short tbl.lex_backtrk state ≥ 0 then [.tag (Short tbl.lex_backtrk_code state)] else []

/-- The call of a pass in `state` after the lookup of character `c` (line 245):
none on a dead end, none when the offset selected is not positive. -/
def trans_calls (tbl : lexing_table) (state c : Int) (lexbuf : lexer_buffer) : List Call :=
  if next_state tbl state (Short tbl.lex_base state) c < 0 then []
  else if trans_pc_off tbl state c > 0 then
    [.record (trans_pc_off tbl state c) (advance c lexbuf).lex_curr_pos]
  else []

/-- The calls made by one pass of the loop body of `old_caml_new_lex_engine`
entered in `state` on `lexbuf`, in the order made. -/
def iter_calls (tbl : lexing_table) (state : Int) (lexbuf : lexer_buffer) : List Call :=
  if Short tbl.lex_base state < 0 then [.tag (Short tbl.lex_base_code state)]
  else
    mark_calls tbl state ++
      match lex_char lexbuf with
      | none => []
      | some c => trans_calls tbl state c lexbuf

/-- The calls made by the run from `state` on `lexbuf`, in the order made. -/
def run_calls (tbl : lexing_table) (state : Int) (lexbuf : lexer_buffer) : List Call :=
  (lex_visits tbl state lexbuf).flatMap (fun v => iter_calls tbl v.1 v.2)

/-- The pairs of the program that the call `k` runs. -/
def call_pairs (code : List Nat) : Call → Option (List (Nat × Nat))
  | .tag pc_off => if pc_off < 0 then none else program_pairs (code.drop pc_off.toNat)
  | .record pc_off _ => if pc_off < 0 then none else program_pairs (code.drop pc_off.toNat)

theorem exec_calls_append (code : List Nat) (ks1 ks2 : List Call) :
    ∀ mem, exec_calls code (ks1 ++ ks2) mem =
      (exec_calls code ks1 mem).bind (exec_calls code ks2) := by
  induction ks1 with
  | nil =>
    intro mem
    rfl
  | cons k ks ih =>
    intro mem
    show (exec_call code mem k).bind (exec_calls code (ks ++ ks2)) = _
    cases h : exec_call code mem k with
    | none =>
      have hk : exec_calls code (k :: ks) mem =
          (exec_call code mem k).bind (exec_calls code ks) := rfl
      rw [hk, h]
      rfl
    | some m1 =>
      show exec_calls code (ks ++ ks2) m1 = (exec_calls code (k :: ks) mem).bind _
      have hk : exec_calls code (k :: ks) mem =
          (exec_call code mem k).bind (exec_calls code ks) := rfl
      rw [ih m1, hk, h]
      rfl

theorem run_calls_exit {tbl : lexing_table} {state : Int} {lexbuf lb : lexer_buffer}
    {o : Outcome} (h : lex_iter tbl state lexbuf = .exit o lb) :
    run_calls tbl state lexbuf = iter_calls tbl state lexbuf := by
  unfold run_calls
  rw [lex_visits_exit h]
  simp

theorem run_calls_continue {tbl : lexing_table} {state s1 : Int} {lexbuf lb1 : lexer_buffer}
    (h : lex_iter tbl state lexbuf = .continue s1 lb1) :
    run_calls tbl state lexbuf = iter_calls tbl state lexbuf ++ run_calls tbl s1 lb1 := by
  unfold run_calls
  rw [lex_visits_continue h]
  simp

theorem new_mark_backtrk_calls (tbl : lexing_table) (state : Int) (lexbuf : lexer_buffer)
    (m : Nat → Int) :
    new_mark_backtrk tbl state (lexbuf.with_mem m) =
      (exec_calls tbl.lex_code (mark_calls tbl state) m).map
        (fun m1 => (mark_backtrk tbl state lexbuf).with_mem m1) := by
  unfold mark_calls
  by_cases hq : 0 ≤ Short tbl.lex_backtrk state
  · rw [new_mark_backtrk_nonneg _ hq, mark_backtrk_nonneg _ hq, if_pos hq]
    show (run_tag tbl.lex_code (Short tbl.lex_backtrk_code state) m).map _ =
      ((run_tag tbl.lex_code (Short tbl.lex_backtrk_code state) m).bind
        (exec_calls tbl.lex_code [])).map _
    cases run_tag tbl.lex_code (Short tbl.lex_backtrk_code state) m <;> rfl
  · rw [new_mark_backtrk_neg _ (not_le.mp hq), mark_backtrk_neg _ (not_le.mp hq), if_neg hq]
    rfl

theorem new_lex_fetch_none (tbl : lexing_table) (state : Int) (lb : lexer_buffer)
    (hc : lex_char lb = none) :
    new_lex_fetch tbl state lb = some (.exit (.ret (-state - 1)) lb) := by
  rcases lex_char_cases lb with ⟨-, hlen, heof⟩ | ⟨h1, -, -⟩ | ⟨h1, -, -⟩
  · unfold new_lex_fetch
    simp only [ge_iff_le, hlen, if_true, heof]
  · rw [h1] at hc
    cases hc
  · rw [h1] at hc
    cases hc

theorem lex_char_with_mem (lb : lexer_buffer) (m : Nat → Int) :
    lex_char (lb.with_mem m) = lex_char lb := rfl

theorem advance_with_mem (c : Int) (lb : lexer_buffer) (m : Nat → Int) :
    advance c (lb.with_mem m) = (advance c lb).with_mem m := by
  unfold advance
  split <;> rfl

theorem exec_calls_single (code : List Nat) (k : Call) (m : Nat → Int) :
    exec_calls code [k] m = exec_call code m k := by
  show (exec_call code m k).bind (exec_calls code []) = _
  cases exec_call code m k <;> rfl

/-- The fetch of a character on which the transition is taken: the memory
program selected is run if its offset is positive, with the cursor after the
character. -/
theorem new_lex_fetch_taken (tbl : lexing_table) (state c : Int) (lb : lexer_buffer)
    (hc : lex_char lb = some c) (hn : 0 ≤ next_state tbl state (Short tbl.lex_base state) c) :
    new_lex_fetch tbl state lb =
      (if 0 < trans_pc_off tbl state c then
        run_mem tbl.lex_code (trans_pc_off tbl state c) lb.lex_mem (advance c lb).lex_curr_pos
      else some lb.lex_mem).map
        (fun mem => .continue (next_state tbl state (Short tbl.lex_base state) c)
          ((advance c lb).with_mem mem)) := by
  rw [new_lex_fetch_char tbl state c lb hc]
  by_cases hp : 0 < trans_pc_off tbl state c
  · rw [new_lex_trans_run tbl state _ c _ hn hp, if_pos hp]
    by_cases h256 : c = 256
    · subst h256
      rfl
    · unfold advance
      simp only [h256, if_false]
  · rw [run_mem_skipped tbl state _ c _ hn (not_lt.mp hp), if_neg hp]
    by_cases h256 : c = 256
    · subst h256
      rfl
    · unfold advance
      simp only [h256, if_false]
      rfl

/-- The fetch of a character on which no transition is taken: no memory program
is run. -/
theorem new_lex_fetch_dead (tbl : lexing_table) (state c : Int) (lb : lexer_buffer)
    (hc : lex_char lb = some c) (hn : next_state tbl state (Short tbl.lex_base state) c < 0) :
    new_lex_fetch tbl state lb =
      some (.exit (if lb.lex_last_action = -1 then .empty_token else .ret lb.lex_last_action)
        { lb with lex_curr_pos := lb.lex_last_pos }) := by
  rw [new_lex_fetch_char tbl state c lb hc, new_lex_trans_dead tbl state _ c _ hn]
  by_cases h256 : c = 256
  · simp only [h256, if_true]
  · simp only [h256, if_false]

/-- One pass of the engine with memory makes the calls `iter_calls`, and is
otherwise the pass of the plain engine. -/
theorem new_lex_iter_calls (tbl : lexing_table) (state : Int) (lexbuf : lexer_buffer)
    (m : Nat → Int) :
    new_lex_iter tbl state (lexbuf.with_mem m) =
      (exec_calls tbl.lex_code (iter_calls tbl state lexbuf) m).map
        (fun m1 => (lex_iter tbl state lexbuf).with_mem m1) := by
  have hfetch : 0 ≤ Short tbl.lex_base state → ∀ (T : List Call) (R : Step),
      (∀ m1, new_lex_fetch tbl state ((mark_backtrk tbl state lexbuf).with_mem m1) =
        (exec_calls tbl.lex_code T m1).map (fun m2 => R.with_mem m2)) →
      new_lex_iter tbl state (lexbuf.with_mem m) =
        (exec_calls tbl.lex_code (mark_calls tbl state ++ T) m).map
          (fun m1 => R.with_mem m1) := by
    intro hb T R hT
    rw [new_lex_iter_fetch _ hb, new_mark_backtrk_calls, exec_calls_append]
    cases exec_calls tbl.lex_code (mark_calls tbl state) m with
    | none => rfl
    | some m1 => exact hT m1
  have hchar : ∀ m1, lex_char ((mark_backtrk tbl state lexbuf).with_mem m1) =
      lex_char lexbuf := by
    intro m1
    rw [lex_char_with_mem, lex_char_mark_backtrk]
  rcases lex_iter_spec tbl state lexbuf with
    ⟨-, hb, hj⟩ | ⟨-, hb, hc, hj⟩ | ⟨-, hb, ⟨c, hc, hn⟩, hj⟩ | ⟨-, hb, c, hc, hn, hj⟩
  · rw [new_lex_iter_accept _ hb, hj]
    unfold iter_calls
    rw [if_pos hb, exec_calls_single]
    rfl
  · have hcalls : iter_calls tbl state lexbuf = mark_calls tbl state ++ [] := by
      unfold iter_calls
      rw [if_neg (not_lt.mpr hb), hc]
    rw [hj, hcalls]
    apply hfetch hb
    intro m1
    rw [new_lex_fetch_none tbl state _ ((hchar m1).trans hc)]
    rfl
  · have hcalls : iter_calls tbl state lexbuf = mark_calls tbl state ++ [] := by
      unfold iter_calls trans_calls
      rw [if_neg (not_lt.mpr hb), hc]
      simp only [hn, if_true]
    rw [hj, hcalls]
    apply hfetch hb
    intro m1
    rw [new_lex_fetch_dead tbl state c _ ((hchar m1).trans hc) hn]
    rfl
  · have hpos : (advance c lexbuf).lex_curr_pos =
        (advance c (mark_backtrk tbl state lexbuf)).lex_curr_pos := by
      rw [advance_curr_pos, advance_curr_pos, mark_backtrk_curr_pos]
    by_cases hp : 0 < trans_pc_off tbl state c
    · have hcalls : iter_calls tbl state lexbuf = mark_calls tbl state ++
          [.record (trans_pc_off tbl state c)
            (advance c (mark_backtrk tbl state lexbuf)).lex_curr_pos] := by
        unfold iter_calls trans_calls
        rw [if_neg (not_lt.mpr hb), hc]
        simp only [not_lt.mpr hn, if_false, gt_iff_lt, hp, if_true, hpos]
      rw [hj, hcalls]
      apply hfetch hb
      intro m1
      rw [new_lex_fetch_taken tbl state c _ ((hchar m1).trans hc) hn, if_pos hp,
        exec_calls_single, advance_with_mem]
      rfl
    · have hcalls : iter_calls tbl state lexbuf = mark_calls tbl state ++ [] := by
        unfold iter_calls trans_calls
        rw [if_neg (not_lt.mpr hb), hc]
        simp only [not_lt.mpr hn, if_false, gt_iff_lt, hp]
      rw [hj, hcalls]
      apply hfetch hb
      intro m1
      rw [new_lex_fetch_taken tbl state c _ ((hchar m1).trans hc) hn, if_neg hp,
        advance_with_mem]
      rfl

/-- A run of the engine with memory makes the calls `run_calls`, and is
otherwise the run of the plain engine. -/
theorem new_lex_loop_calls (tbl : lexing_table) :
    ∀ (state : Int) (lexbuf : lexer_buffer) (m : Nat → Int),
      new_lex_loop tbl state (lexbuf.with_mem m) =
        (exec_calls tbl.lex_code (run_calls tbl state lexbuf) m).map
          (fun m1 => ((lex_loop tbl state lexbuf).1, (lex_loop tbl state lexbuf).2.with_mem m1)) := by
  apply lex_loop_induct tbl
  intro state lexbuf ih m
  have hiter := new_lex_iter_calls tbl state lexbuf m
  cases hi : lex_iter tbl state lexbuf with
  | exit o lb =>
    rw [run_calls_exit hi, lex_loop_exit hi]
    rw [hi] at hiter
    cases hx : exec_calls tbl.lex_code (iter_calls tbl state lexbuf) m with
    | none =>
      rw [hx] at hiter
      exact new_lex_loop_none hiter
    | some m1 =>
      rw [hx] at hiter
      exact new_lex_loop_exit hiter
  | «continue» s1 lb1 =>
    rw [run_calls_continue hi, lex_loop_continue hi, exec_calls_append]
    rw [hi] at hiter
    cases hx : exec_calls tbl.lex_code (iter_calls tbl state lexbuf) m with
    | none =>
      rw [hx] at hiter
      exact new_lex_loop_none hiter
    | some m1 =>
      rw [hx] at hiter
      rw [new_lex_loop_continue hiter]
      exact ih s1 lb1 hi m1

/-- The value that a pair with `src = 0xFF` writes in the call `k`. -/
def call_special : Call → Int
  | .tag _ => -1
  | .record _ curr_pos => curr_pos

theorem exec_call_pairs (code : List Nat) (m : Nat → Int) (k : Call) :
    exec_call code m k =
      (call_pairs code k).map (fun ps => exec_pairs (call_special k) ps m) := by
  cases k with
  | tag pc_off =>
    show run_tag code pc_off m =
      (if pc_off < 0 then none else program_pairs (code.drop pc_off.toNat)).map
        (fun ps => exec_pairs (-1) ps m)
    rw [run_tag_eq_run_mem]
    unfold run_mem
    rw [run_mem_from_pairs]
    by_cases h : pc_off < 0
    · rw [if_pos h, if_pos h]
      rfl
    · rw [if_neg h, if_neg h]
  | record pc_off curr_pos =>
    show run_mem code pc_off m curr_pos =
      (if pc_off < 0 then none else program_pairs (code.drop pc_off.toNat)).map
        (fun ps => exec_pairs curr_pos ps m)
    unfold run_mem
    rw [run_mem_from_pairs]
    by_cases h : pc_off < 0
    · rw [if_pos h, if_pos h]
      rfl
    · rw [if_neg h, if_neg h]

/-- A cell that no pair of the calls made names as destination keeps its value. -/
theorem exec_calls_frame (code : List Nat) (d : Nat) (ks : List Call) :
    ∀ (m m1 : Nat → Int), exec_calls code ks m = some m1 →
      (∀ k ∈ ks, ∀ ps, call_pairs code k = some ps → ∀ p ∈ ps, p.1 ≠ d) → m1 d = m d := by
  induction ks with
  | nil =>
    intro m m1 h _
    cases h
    rfl
  | cons k ks ih =>
    intro m m1 h hd
    have hk : exec_calls code (k :: ks) m = (exec_call code m k).bind (exec_calls code ks) := rfl
    rw [hk, exec_call_pairs] at h
    cases hp : call_pairs code k with
    | none =>
      rw [hp] at h
      cases h
    | some ps =>
      rw [hp] at h
      have h1 := ih _ m1 h (fun k1 hk1 => hd k1 (List.mem_cons_of_mem _ hk1))
      rw [h1]
      exact exec_pairs_frame _ ps m d (hd k (List.mem_cons_self _ _) ps hp)

/-- A cell whose last pair in a program has `src = 0xFF` holds the special
value after the program. -/
theorem exec_pairs_last_mark (special : Int) (ps1 : List (Nat × Nat)) (d : Nat)
    (ps2 : List (Nat × Nat)) (m : Nat → Int) (h : ∀ p ∈ ps2, p.1 ≠ d) :
    exec_pairs special (ps1 ++ (d, 0xff) :: ps2) m d = special := by
  unfold exec_pairs
  rw [List.foldl_append, List.foldl_cons]
  have h1 := exec_pairs_frame special ps2
    (exec_pair special (List.foldl (exec_pair special) m ps1) (d, 0xff)) d h
  unfold exec_pairs at h1
  rw [h1]
  unfold exec_pair
  simp

theorem lex_iter_exit_of_no_char (tbl : lexing_table) (state : Int) (lexbuf : lexer_buffer)
    (h : lex_char lexbuf = none) : ∃ o lb, lex_iter tbl state lexbuf = .exit o lb := by
  rcases lex_iter_spec tbl state lexbuf with
    ⟨-, -, hj⟩ | ⟨-, -, -, hj⟩ | ⟨-, -, ⟨c, hc, -⟩, -⟩ | ⟨-, -, c, hc, -, -⟩
  · exact ⟨_, _, hj⟩
  · exact ⟨_, _, hj⟩
  · rw [h] at hc
    cases hc
  · rw [h] at hc
    cases hc

theorem lex_char_after_eof (tbl : lexing_table) (state : Int) (lexbuf : lexer_buffer)
    (h : lex_char lexbuf = some 256) :
    lex_char (advance 256 (mark_backtrk tbl state lexbuf)) = none := by
  rcases lex_char_cases lexbuf with ⟨h1, -, -⟩ | ⟨-, hlen, -⟩ | ⟨h1, -, hne⟩
  · rw [h1] at h
    cases h
  · unfold lex_char advance
    simp only [if_true, ge_iff_le, mark_backtrk_curr_pos, mark_backtrk_buffer_len, hlen]
  · rw [h1] at h
    exact absurd (Option.some.inj h) hne

/-- A visit that looks up a character comes after as many visits as bytes were
consumed: its cursor is the cursor of entry plus the number of visits before
it. -/
theorem lex_visits_char_cursor (tbl : lexing_table) :
    ∀ (state : Int) (lexbuf : lexer_buffer) (L1 : List (Int × lexer_buffer))
      (v : Int × lexer_buffer) (L2 : List (Int × lexer_buffer)),
      lex_visits tbl state lexbuf = L1 ++ v :: L2 →
      ∀ c, lex_char v.2 = some c → v.2.lex_curr_pos = lexbuf.lex_curr_pos + L1.length := by
  apply lex_loop_induct tbl
  intro state lexbuf ih L1 v L2 hv c hc
  cases L1 with
  | nil =>
    have hhead : ∃ L, lex_visits tbl state lexbuf = (state, lexbuf) :: L := by
      cases hi : lex_iter tbl state lexbuf with
      | exit o lb => exact ⟨_, lex_visits_exit hi⟩
      | «continue» s1 lb1 => exact ⟨_, lex_visits_continue hi⟩
    obtain ⟨L, hL⟩ := hhead
    rw [hL] at hv
    simp only [List.nil_append, List.cons.injEq] at hv
    obtain ⟨h1, -⟩ := hv
    subst h1
    simp
  | cons x L1 =>
    rcases lex_iter_spec tbl state lexbuf with
      ⟨-, -, hj⟩ | ⟨-, -, -, hj⟩ | ⟨-, -, -, hj⟩ | ⟨-, -, c0, hc0, -, hj⟩
    · rw [lex_visits_exit hj] at hv
      simp only [List.cons_append, List.cons.injEq] at hv
      have := hv.2
      cases L1 <;> simp at this
    · rw [lex_visits_exit hj] at hv
      simp only [List.cons_append, List.cons.injEq] at hv
      have := hv.2
      cases L1 <;> simp at this
    · rw [lex_visits_exit hj] at hv
      simp only [List.cons_append, List.cons.injEq] at hv
      have := hv.2
      cases L1 <;> simp at this
    · rw [lex_visits_continue hj] at hv
      simp only [List.cons_append, List.cons.injEq] at hv
      obtain ⟨-, hrest⟩ := hv
      have h1 := ih _ _ hj L1 v L2 hrest c hc
      by_cases h256 : c0 = 256
      · exfalso
        subst h256
        obtain ⟨o, lb, hx⟩ := lex_iter_exit_of_no_char tbl
          (next_state tbl state (Short tbl.lex_base state) 256)
          (advance 256 (mark_backtrk tbl state lexbuf)) (lex_char_after_eof tbl state lexbuf hc0)
        rw [lex_visits_exit hx] at hrest
        cases L1 with
        | nil =>
          simp only [List.nil_append, List.cons.injEq] at hrest
          obtain ⟨hv1, -⟩ := hrest
          rw [← hv1] at hc
          rw [lex_char_after_eof tbl state lexbuf hc0] at hc
          cases hc
        | cons y L1 =>
          simp only [List.cons_append, List.cons.injEq] at hrest
          have := hrest.2
          cases L1 <;> simp at this
      · rw [h1, advance_curr_pos, if_neg h256, mark_backtrk_curr_pos]
        simp only [List.length_cons]
        push_cast
        omega

/-- A call of `run_mem` among the calls of a pass is the one of line 245: a
character `c` was looked up, the transition on it taken, the offset is the one
selected for the state of the pass and `c`, and the cursor is the one after
`c`. -/
theorem record_mem_iter_calls (tbl : lexing_table) (state : Int) (lexbuf : lexer_buffer)
    (off pos : Int) (h : Call.record off pos ∈ iter_calls tbl state lexbuf) :
    ∃ c, lex_char lexbuf = some c ∧ 0 ≤ next_state tbl state (Short tbl.lex_base state) c ∧
      off = trans_pc_off tbl state c ∧ 0 < off ∧ pos = (advance c lexbuf).lex_curr_pos := by
  unfold iter_calls at h
  split at h
  · simp at h
  · rw [List.mem_append] at h
    rcases h with h | h
    · unfold mark_calls at h
      split at h <;> simp at h
    · cases hc : lex_char lexbuf with
      | none =>
        rw [hc] at h
        simp at h
      | some c =>
        rw [hc] at h
        simp only at h
        unfold trans_calls at h
        split at h
        · simp at h
        · rename_i hn
          split at h
          · rename_i hp
            simp only [List.mem_singleton, Call.record.injEq] at h
            exact ⟨c, rfl, not_lt.mp hn, h.1, by rw [h.1]; exact hp, h.2⟩
          · simp at h

/-! ## The claims -/

/-- C1: suspend/resume equivalence for the plain engine.  For every table, start
state `s ≥ 0`, bytes `w` and cut `k ≤ |w|`, a fresh attempt on the first chunk
`w[0..k)` with `eof_reached = false`, followed on a suspend code `r` by a call with
`resume_state = r` on the buffer extended to all of `w` with `eof_reached = true`,
gives the same outcome and the same final `curr_pos`, `start_pos`, `last_pos` and
`last_action` as one fresh attempt from `s` on the whole of `w` with
`eof_reached = true`. -/
theorem suspend_resume_equivalence (tbl : lexing_table) (s : Int) (w : List Nat) (k : Nat)
    (lexbuf : lexer_buffer) (hs : 0 ≤ s) (hk : k ≤ w.length) :
    (split_run tbl s w k lexbuf).1 = (old_caml_lex_engine tbl s (whole_input w lexbuf)).1 ∧
    (split_run tbl s w k lexbuf).2.lex_curr_pos =
      (old_caml_lex_engine tbl s (whole_input w lexbuf)).2.lex_curr_pos ∧
    (split_run tbl s w k lexbuf).2.lex_start_pos =
      (old_caml_lex_engine tbl s (whole_input w lexbuf)).2.lex_start_pos ∧
    (split_run tbl s w k lexbuf).2.lex_last_pos =
      (old_caml_lex_engine tbl s (whole_input w lexbuf)).2.lex_last_pos ∧
    (split_run tbl s w k lexbuf).2.lex_last_action =
      (old_caml_lex_engine tbl s (whole_input w lexbuf)).2.lex_last_action := by
  rcases split_run_whole tbl s w k lexbuf hs hk with h | h
  · rw [h]
    exact ⟨rfl, rfl, rfl, rfl, rfl⟩
  · rw [h]
    exact ⟨rfl, rfl, rfl, rfl, rfl⟩

/-- Witness of C1: the table of `ab*`, the input `abbb` delivered as `a` then
`bbb`: like the run on `abbb` in one piece, the split run returns action 0 with
`curr_pos = 4`. -/
theorem suspend_resume_equivalence_witness :
    (0 : Int) ≤ 0 ∧ 1 ≤ [97, 98, 98, 98].length ∧
    (split_run table_ab_star 0 [97, 98, 98, 98] 1 (buffer_of [] false (fun _ => 0))).1 =
      .ret 0 ∧
    (split_run table_ab_star 0 [97, 98, 98, 98] 1
      (buffer_of [] false (fun _ => 0))).2.lex_curr_pos = 4 :=
  have h := suspend_resume_equivalence table_ab_star 0 [97, 98, 98, 98] 1
    (buffer_of [] false (fun _ => 0)) (by decide) (by decide)
  ⟨by decide, by decide,
    h.1.trans (engine_fuel_map (fun r => r.1) 10 0 _ (.ret 0) (by decide!)),
    h.2.1.trans (engine_fuel_map (fun r => r.2.lex_curr_pos) 10 0 _ 4 (by decide!))⟩

/-- C2: the engine with memory and the plain engine agree on every recognition
decision.  For every table, `resume_state` and buffer on which the capture
programs run to their end (the engine with memory has a result `r`), the plain
engine has the same outcome and leaves `curr_pos`, `start_pos`, `last_pos`,
`last_action` and `eof_reached` the same; mem is the only field of the two final
buffers that may differ. -/
theorem engines_agree (tbl : lexing_table) (resume_state : Int) (lexbuf : lexer_buffer)
    (r : Outcome × lexer_buffer)
    (h : old_caml_new_lex_engine tbl resume_state lexbuf = some r) :
    r.1 = (old_caml_lex_engine tbl resume_state lexbuf).1 ∧
    r.2.lex_curr_pos = (old_caml_lex_engine tbl resume_state lexbuf).2.lex_curr_pos ∧
    r.2.lex_start_pos = (old_caml_lex_engine tbl resume_state lexbuf).2.lex_start_pos ∧
    r.2.lex_last_pos = (old_caml_lex_engine tbl resume_state lexbuf).2.lex_last_pos ∧
    r.2.lex_last_action = (old_caml_lex_engine tbl resume_state lexbuf).2.lex_last_action ∧
    r.2.lex_eof_reached = (old_caml_lex_engine tbl resume_state lexbuf).2.lex_eof_reached ∧
    r.2.with_mem (old_caml_lex_engine tbl resume_state lexbuf).2.lex_mem =
      (old_caml_lex_engine tbl resume_state lexbuf).2 := by
  rw [old_caml_new_lex_engine_erase tbl resume_state lexbuf r h]
  exact ⟨rfl, rfl, rfl, rfl, rfl, rfl, rfl⟩

/-- Witness of C2: the table with one capture instruction on the input `xyz`. -/
theorem engines_agree_witness :
    ∃ r, old_caml_new_lex_engine table_capture 0 (buffer_of [120, 121, 122] true (fun _ => -1))
        = some r ∧
      r.1 = (old_caml_lex_engine table_capture 0
        (buffer_of [120, 121, 122] true (fun _ => -1))).1 :=
  have hs : (old_caml_new_lex_engine table_capture 0
      (buffer_of [120, 121, 122] true (fun _ => -1))).isSome = true := by
    rw [old_caml_new_lex_engine_fresh table_capture (le_refl 0)]
    exact new_lex_loop_isSome_of_fuel 10 _ _ (by decide!)
  ⟨_, (Option.some_get hs).symm, (engines_agree table_capture 0 _ _ (Option.some_get hs).symm).1⟩

/-- C3: backtrack correctness.  In a fresh attempt of the plain engine whose run
ends in a dead end, if `q`, visited with the cursor at `p`, is the most recently
visited state with `backtrk[q] ≥ 0` (the states `T2` visited after it have
`backtrk < 0`), then the returned action is `backtrk[q]` and the final
`curr_pos` is `p`, equal to the final `last_pos`: what was consumed after `q` is
given back, whatever the later states were. -/
theorem backtrack_correctness (tbl : lexing_table) (s : Int) (lexbuf : lexer_buffer)
    (T1 : List (Int × Int)) (q p : Int) (T2 : List (Int × Int)) (hs : 0 ≤ s)
    (htrace : lex_trace tbl s (fresh lexbuf) = T1 ++ (q, p) :: T2)
    (hq : 0 ≤ Short tbl.lex_backtrk q)
    (hT2 : ∀ v ∈ T2, Short tbl.lex_backtrk v.1 < 0)
    (hdead : lex_exit tbl s (fresh lexbuf) = some .dead_end) :
    (old_caml_lex_engine tbl s lexbuf).1 = .ret (Short tbl.lex_backtrk q) ∧
    (old_caml_lex_engine tbl s lexbuf).2.lex_curr_pos = p ∧
    (old_caml_lex_engine tbl s lexbuf).2.lex_curr_pos =
      (old_caml_lex_engine tbl s lexbuf).2.lex_last_pos ∧
    (old_caml_lex_engine tbl s lexbuf).2.lex_last_action = Short tbl.lex_backtrk q := by
  rw [old_caml_lex_engine_fresh tbl hs]
  obtain ⟨h1, h2, h3, h4⟩ :=
    lex_loop_backtrack tbl s (fresh lexbuf) T1 q p T2 htrace hq hT2 hdead
  exact ⟨h1, h2, by rw [h2, h3], h4⟩

/-- Witness of C3: the table of `a` or `abc` on the input `abd`; the run visits
state 0 at 0, the backtrack point 1 at 1 and state 2 at 2, where `d` is a dead
end: action 0 is returned with the cursor back at 1. -/
theorem backtrack_correctness_witness :
    (old_caml_lex_engine table_a_abc 0 (buffer_of [97, 98, 100] true (fun _ => 0))).1 =
      .ret (Short table_a_abc.lex_backtrk 1) ∧
    (old_caml_lex_engine table_a_abc 0 (buffer_of [97, 98, 100] true (fun _ => 0))).2.lex_curr_pos
      = 1 :=
  have h := backtrack_correctness table_a_abc 0 (buffer_of [97, 98, 100] true (fun _ => 0))
    [(0, 0)] 1 1 [(2, 2)] (by decide) (by decide!) (by decide!) (by decide!) (by decide!)
  ⟨h.1, h.2.1⟩

/-- C4: longest match.  (1) When the loop body is entered in a state `q` with
`base[q] ≥ 0` and `backtrk[q] = a ≥ 0` and the character fetched has a valid
transition, it does not return: it records `a` at the cursor and goes round again
in the next state.  (2) In a fresh attempt that visits such a state `q` with the
cursor at `p` and later ends its run in a state `q2` with `base[q2] < 0`, visited
with the cursor at `p2`, the action returned is that of `q2`, the longer prefix,
and `curr_pos` ends at `p2`, not before `p`. -/
theorem longest_match (tbl : lexing_table) :
    (∀ (q : Int) (lexbuf : lexer_buffer) (c : Int),
      0 ≤ Short tbl.lex_base q → 0 ≤ Short tbl.lex_backtrk q →
      lex_char lexbuf = some c → 0 ≤ next_state tbl q (Short tbl.lex_base q) c →
      lex_iter tbl q lexbuf =
        .continue (next_state tbl q (Short tbl.lex_base q) c)
          (advance c { lexbuf with
            lex_last_pos := lexbuf.lex_curr_pos
            lex_last_action := Short tbl.lex_backtrk q })) ∧
    (∀ (s : Int) (lexbuf : lexer_buffer) (T1 : List (Int × Int)) (q p : Int)
      (T2 : List (Int × Int)) (q2 p2 : Int),
      0 ≤ s →
      lex_trace tbl s (fresh lexbuf) = T1 ++ (q, p) :: (T2 ++ [(q2, p2)]) →
      0 ≤ Short tbl.lex_backtrk q → Short tbl.lex_base q2 < 0 →
      (old_caml_lex_engine tbl s lexbuf).1 = .ret (-Short tbl.lex_base q2 - 1) ∧
      (old_caml_lex_engine tbl s lexbuf).2.lex_curr_pos = p2 ∧ p ≤ p2) := by
  constructor
  · intro q lexbuf c hb hq hc hn
    rcases lex_iter_spec tbl q lexbuf with
      ⟨-, hb2, -⟩ | ⟨-, -, hc2, -⟩ | ⟨-, -, ⟨c2, hc2, hn2⟩, -⟩ | ⟨-, -, c2, hc2, -, hj⟩
    · omega
    · rw [hc] at hc2
      cases hc2
    · rw [hc] at hc2
      cases hc2
      omega
    · rw [hc] at hc2
      cases hc2
      rw [hj, mark_backtrk_nonneg lexbuf hq]
  · intro s lexbuf T1 q p T2 q2 p2 hs htrace hq hb2
    rw [old_caml_lex_engine_fresh tbl hs]
    have hlast : (lex_trace tbl s (fresh lexbuf)).getLast? = some (q2, p2) := by
      rw [htrace, ← List.cons_append, ← List.append_assoc, List.getLast?_append]
      rfl
    obtain ⟨h1, h2⟩ := lex_loop_accept_last tbl s (fresh lexbuf) q2 p2 hlast hb2
    refine ⟨h1, h2, ?_⟩
    obtain ⟨lbq, hp, htq, -, -, -⟩ :=
      lex_trace_suffix tbl s (fresh lexbuf) T1 q p (T2 ++ [(q2, p2)]) htrace
    have := lex_trace_mono tbl q lbq (q2, p2) (by rw [htq]; simp)
    rw [hp] at this
    exact this

/-- Witness of C4: the table of `a` (action 0) or `ab` (action 1) on the input
`ab`: in state 1, a backtrack point for action 0, with `b` at the cursor, the loop
body goes on to state 2; action 1 is returned with `curr_pos = 2`. -/
theorem longest_match_witness :
    lex_iter table_a_ab 1
        { buffer_of [97, 98] true (fun _ => 0) with lex_curr_pos := 1 } =
      .continue (next_state table_a_ab 1 (Short table_a_ab.lex_base 1) 98)
        (advance 98 { buffer_of [97, 98] true (fun _ => 0) with
          lex_curr_pos := 1
          lex_last_pos := 1
          lex_last_action := Short table_a_ab.lex_backtrk 1 }) ∧
    (old_caml_lex_engine table_a_ab 0 (buffer_of [97, 98] true (fun _ => 0))).1 = .ret 1 ∧
    (old_caml_lex_engine table_a_ab 0 (buffer_of [97, 98] true (fun _ => 0))).2.lex_curr_pos
      = 2 ∧ (1 : Int) ≤ 2 :=
  ⟨(longest_match table_a_ab).1 1
      { buffer_of [97, 98] true (fun _ => 0) with lex_curr_pos := 1 } 98
      (by decide!) (by decide!) (by decide!) (by decide!),
    (longest_match table_a_ab).2 0 (buffer_of [97, 98] true (fun _ => 0)) [(0, 0)] 1 1 [] 2 2
      (by decide) (by decide!) (by decide!) (by decide!)⟩

/-- C5: `EmptyToken` is raised if and only if the run ends in a dead end (the
lookup of the next state is negative) with `last_action` unset (`-1`); then
`curr_pos` has been reset to `last_pos`.  In every other dead end `last_action`
is returned, and there is no failure in any other situation.  The engine with
memory, whenever its capture programs run to their end, fails in the same
case. -/
theorem empty_token_iff (tbl : lexing_table) (start_state : Int) (lexbuf : lexer_buffer) :
    ((old_caml_lex_engine tbl start_state lexbuf).1 = .empty_token ↔
      engine_exit tbl start_state lexbuf = some .dead_end ∧
      (old_caml_lex_engine tbl start_state lexbuf).2.lex_last_action = -1) ∧
    ((old_caml_lex_engine tbl start_state lexbuf).1 = .empty_token →
      (old_caml_lex_engine tbl start_state lexbuf).2.lex_curr_pos =
        (old_caml_lex_engine tbl start_state lexbuf).2.lex_last_pos) ∧
    (engine_exit tbl start_state lexbuf = some .dead_end →
      (old_caml_lex_engine tbl start_state lexbuf).2.lex_last_action ≠ -1 →
      (old_caml_lex_engine tbl start_state lexbuf).1 =
        .ret (old_caml_lex_engine tbl start_state lexbuf).2.lex_last_action) ∧
    (∀ r, old_caml_new_lex_engine tbl start_state lexbuf = some r →
      (r.1 = .empty_token ↔
        engine_exit tbl start_state lexbuf = some .dead_end ∧ r.2.lex_last_action = -1)) := by
  have key : ((old_caml_lex_engine tbl start_state lexbuf).1 = .empty_token ↔
      engine_exit tbl start_state lexbuf = some .dead_end ∧
      (old_caml_lex_engine tbl start_state lexbuf).2.lex_last_action = -1) ∧
    ((old_caml_lex_engine tbl start_state lexbuf).1 = .empty_token →
      (old_caml_lex_engine tbl start_state lexbuf).2.lex_curr_pos =
        (old_caml_lex_engine tbl start_state lexbuf).2.lex_last_pos) ∧
    (engine_exit tbl start_state lexbuf = some .dead_end →
      (old_caml_lex_engine tbl start_state lexbuf).2.lex_last_action ≠ -1 →
      (old_caml_lex_engine tbl start_state lexbuf).1 =
        .ret (old_caml_lex_engine tbl start_state lexbuf).2.lex_last_action) := by
    rw [old_caml_lex_engine_entry]
    unfold engine_exit
    rcases lex_loop_by_exit tbl (entry_state start_state) (entry_buffer start_state lexbuf) with
      ⟨hk, v, -, hv⟩ | ⟨hk, q, hv⟩ | ⟨hk, hv, hp⟩
    · rw [hk, hv]
      simp
    · rw [hk, hv]
      simp
    · rw [hk]
      refine ⟨⟨fun h => ⟨rfl, ?_⟩, fun h => ?_⟩, fun _ => hp, fun _ hne => ?_⟩
      · by_contra hne
        rw [hv, if_neg hne] at h
        cases h
      · rw [hv, if_pos h.2]
      · rw [hv, if_neg hne]
  refine ⟨key.1, key.2.1, key.2.2, ?_⟩
  intro r hr
  have he := old_caml_new_lex_engine_erase tbl start_state lexbuf r hr
  have h1 := key.1
  rw [he] at h1
  exact h1

/-- Witness of C5: the table of `ab` on the input `ac` ends in a dead end on `c`
with no action recorded. -/
theorem empty_token_iff_witness :
    (old_caml_lex_engine table_ab 0 (buffer_of [97, 99] true (fun _ => 0))).1 = .empty_token ∧
    (old_caml_lex_engine table_ab 0 (buffer_of [97, 99] true (fun _ => 0))).2.lex_curr_pos =
      (old_caml_lex_engine table_ab 0 (buffer_of [97, 99] true (fun _ => 0))).2.lex_last_pos :=
  have h := (empty_token_iff table_ab 0 (buffer_of [97, 99] true (fun _ => 0))).1.mpr
    ⟨by decide!, engine_fuel_map (fun r => r.2.lex_last_action) 10 0 _ (-1) (by decide!)⟩
  ⟨h, (empty_token_iff table_ab 0 (buffer_of [97, 99] true (fun _ => 0))).2.1 h⟩

/-- Counterexample to C6: on the table of `ab` and the input `ac`, the fresh
attempt fails with `EmptyToken` at its second character probe: the run visits
state 0 at cursor 0, takes the transition on `a` and visits state 1 at cursor 1,
where the lookup on `c` fails. -/
theorem empty_token_after_transition :
    (old_caml_lex_engine table_ab 0 (buffer_of [97, 99] true (fun _ => 0))).1 = .empty_token ∧
    lex_trace table_ab 0 (fresh (buffer_of [97, 99] true (fun _ => 0))) = [(0, 0), (1, 1)] ∧
    iter_exit table_ab 0 (fresh (buffer_of [97, 99] true (fun _ => 0))) = none :=
  ⟨engine_fuel_map (fun r => r.1) 10 0 _ .empty_token (by decide!), by decide!, by decide!⟩

/-- C6, amended: if a fresh attempt of the plain engine fails with `EmptyToken`,
then no state visited in the attempt was a backtrack point (`backtrk < 0` for
each, however many transitions succeeded before the failing lookup), the run
ended in a dead end, and `curr_pos`, `start_pos` and `last_pos` are all the
`curr_pos` of entry, with `last_action` unset. -/
theorem empty_token_no_backtrack (tbl : lexing_table) (s : Int) (lexbuf : lexer_buffer)
    (hs : 0 ≤ s) (hfail : (old_caml_lex_engine tbl s lexbuf).1 = .empty_token) :
    (∀ v ∈ lex_trace tbl s (fresh lexbuf), Short tbl.lex_backtrk v.1 < 0) ∧
    lex_exit tbl s (fresh lexbuf) = some .dead_end ∧
    (old_caml_lex_engine tbl s lexbuf).2.lex_curr_pos = lexbuf.lex_curr_pos ∧
    (old_caml_lex_engine tbl s lexbuf).2.lex_start_pos = lexbuf.lex_curr_pos ∧
    (old_caml_lex_engine tbl s lexbuf).2.lex_last_pos = lexbuf.lex_curr_pos ∧
    (old_caml_lex_engine tbl s lexbuf).2.lex_last_action = -1 := by
  rw [old_caml_lex_engine_fresh tbl hs] at hfail ⊢
  obtain ⟨h1, h2, h3, h4⟩ := lex_loop_fail tbl s (fresh lexbuf) rfl hfail
  refine ⟨h1, ?_, h2, lex_loop_start_pos tbl s (fresh lexbuf), h3, h4⟩
  rcases lex_loop_by_exit tbl s (fresh lexbuf) with
    ⟨-, v, -, hv⟩ | ⟨-, q, hv⟩ | ⟨hk, -, -⟩
  · rw [hv] at hfail
    cases hfail
  · rw [hv] at hfail
    cases hfail
  · exact hk

/-- Witness of C6, amended: the table of `ab` on the input `ac`. -/
theorem empty_token_no_backtrack_witness :
    (∀ v ∈ lex_trace table_ab 0 (fresh (buffer_of [97, 99] true (fun _ => 0))),
      Short table_ab.lex_backtrk v.1 < 0) ∧
    (old_caml_lex_engine table_ab 0 (buffer_of [97, 99] true (fun _ => 0))).2.lex_curr_pos = 0 :=
  have h := empty_token_no_backtrack table_ab 0 (buffer_of [97, 99] true (fun _ => 0))
    (by decide) (engine_fuel_map (fun r => r.1) 10 0 _ .empty_token (by decide!))
  ⟨h.1, h.2.2.1⟩

/-- C7: empty-token boundary.  A fresh attempt from a state `s` with
`base[s] ≥ 0` and `backtrk[s] < 0`, on a buffer with a byte `c` at the cursor
such that `check[base[s]+c] ≠ s` and `default[s] < 0`, fails with `EmptyToken`
(it returns no action id), and `curr_pos`, `start_pos` and `last_pos` are then
the `curr_pos` of entry: no input has been consumed. -/
theorem empty_token_boundary (tbl : lexing_table) (s : Int) (lexbuf : lexer_buffer)
    (hs : 0 ≤ s) (hbase : 0 ≤ Short tbl.lex_base s) (hbk : Short tbl.lex_backtrk s < 0)
    (hlen : lexbuf.lex_curr_pos < lexbuf.lex_buffer_len)
    (hcheck : Short tbl.lex_check
      (Short tbl.lex_base s + Byte_u lexbuf.lex_buffer lexbuf.lex_curr_pos) ≠ s)
    (hdef : Short tbl.lex_default s < 0) :
    (old_caml_lex_engine tbl s lexbuf).1 = .empty_token ∧
    (∀ v, (old_caml_lex_engine tbl s lexbuf).1 ≠ .ret v) ∧
    (old_caml_lex_engine tbl s lexbuf).2.lex_curr_pos = lexbuf.lex_curr_pos ∧
    (old_caml_lex_engine tbl s lexbuf).2.lex_start_pos = lexbuf.lex_curr_pos ∧
    (old_caml_lex_engine tbl s lexbuf).2.lex_last_pos = lexbuf.lex_curr_pos := by
  have hn : next_state tbl s (Short tbl.lex_base s)
      (Byte_u (fresh lexbuf).lex_buffer (fresh lexbuf).lex_curr_pos) < 0 := by
    unfold next_state
    have hc2 : Short tbl.lex_check (Short tbl.lex_base s +
        Byte_u (fresh lexbuf).lex_buffer (fresh lexbuf).lex_curr_pos) ≠ s := hcheck
    rw [if_neg hc2]
    exact hdef
  have hi : lex_iter tbl s (fresh lexbuf) =
      .exit .empty_token { fresh lexbuf with lex_curr_pos := (fresh lexbuf).lex_last_pos } := by
    rw [lex_iter_byte (fresh lexbuf) hbase hlen, lex_trans_dead _ hn, mark_backtrk_neg _ hbk]
    rfl
  rw [old_caml_lex_engine_fresh tbl hs, lex_loop_exit hi]
  refine ⟨rfl, ?_, rfl, rfl, rfl⟩
  intro v hv
  cases hv

/-- Witness of C7: the table of `ab` on the input `c`. -/
theorem empty_token_boundary_witness :
    (old_caml_lex_engine table_ab 0 (buffer_of [99] true (fun _ => 0))).1 = .empty_token ∧
    (old_caml_lex_engine table_ab 0 (buffer_of [99] true (fun _ => 0))).2.lex_curr_pos = 0 :=
  have h := empty_token_boundary table_ab 0 (buffer_of [99] true (fun _ => 0))
    (by decide) (by decide!) (by decide!) (by decide!) (by decide!) (by decide!)
  ⟨h.1, h.2.2.1⟩

/-- C10: entry semantics of both engines.  For `resume_state = s ≥ 0` the engine
runs its loop from state `s` on the buffer with `last_pos` and `start_pos` set to
the `curr_pos` of entry and `last_action` set to `-1`, and `start_pos` after the
call is the `curr_pos` of entry whatever the outcome; for `resume_state = r < 0`
it runs its loop from state `-r-1` on the buffer as it is, and `start_pos` after
the call is `start_pos` before it. -/
theorem entry_semantics (tbl : lexing_table) (lexbuf : lexer_buffer) :
    (∀ s : Int, 0 ≤ s →
      old_caml_lex_engine tbl s lexbuf =
        lex_loop tbl s { lexbuf with
          lex_last_pos := lexbuf.lex_curr_pos
          lex_start_pos := lexbuf.lex_curr_pos
          lex_last_action := -1 } ∧
      (old_caml_lex_engine tbl s lexbuf).2.lex_start_pos = lexbuf.lex_curr_pos ∧
      old_caml_new_lex_engine tbl s lexbuf =
        new_lex_loop tbl s { lexbuf with
          lex_last_pos := lexbuf.lex_curr_pos
          lex_start_pos := lexbuf.lex_curr_pos
          lex_last_action := -1 } ∧
      ∀ res, old_caml_new_lex_engine tbl s lexbuf = some res →
        res.2.lex_start_pos = lexbuf.lex_curr_pos) ∧
    (∀ r : Int, r < 0 →
      old_caml_lex_engine tbl r lexbuf = lex_loop tbl (-r - 1) lexbuf ∧
      (old_caml_lex_engine tbl r lexbuf).2.lex_start_pos = lexbuf.lex_start_pos ∧
      old_caml_new_lex_engine tbl r lexbuf = new_lex_loop tbl (-r - 1) lexbuf ∧
      ∀ res, old_caml_new_lex_engine tbl r lexbuf = some res →
        res.2.lex_start_pos = lexbuf.lex_start_pos) := by
  constructor
  · intro s hs
    have h1 := old_caml_lex_engine_fresh tbl hs lexbuf
    have h2 : (old_caml_lex_engine tbl s lexbuf).2.lex_start_pos = lexbuf.lex_curr_pos := by
      rw [h1]
      exact lex_loop_start_pos tbl s (fresh lexbuf)
    refine ⟨h1, h2, old_caml_new_lex_engine_fresh tbl hs lexbuf, ?_⟩
    intro res hres
    rw [old_caml_new_lex_engine_erase tbl s lexbuf res hres] at h2
    exact h2
  · intro r hr
    have h1 := old_caml_lex_engine_resume tbl hr lexbuf
    have h2 : (old_caml_lex_engine tbl r lexbuf).2.lex_start_pos = lexbuf.lex_start_pos := by
      rw [h1]
      exact lex_loop_start_pos tbl (-r - 1) lexbuf
    refine ⟨h1, h2, old_caml_new_lex_engine_resume tbl hr lexbuf, ?_⟩
    intro res hres
    rw [old_caml_new_lex_engine_erase tbl r lexbuf res hres] at h2
    exact h2

/-- Witness of C10: a fresh call in state 0 and a resuming call with code `-2`
on the table of `ab*`, from a buffer whose `start_pos` is 0 and cursor is 0. -/
theorem entry_semantics_witness :
    (old_caml_lex_engine table_ab_star 0
      (buffer_of [97, 98] true (fun _ => 0))).2.lex_start_pos = 0 ∧
    (old_caml_lex_engine table_ab_star (-2)
      (buffer_of [97, 98] true (fun _ => 0))).2.lex_start_pos = 0 :=
  ⟨((entry_semantics table_ab_star (buffer_of [97, 98] true (fun _ => 0))).1 0
      (by decide)).2.1,
    ((entry_semantics table_ab_star (buffer_of [97, 98] true (fun _ => 0))).2 (-2)
      (by decide)).2.1⟩

/-- C8, at an input where the code departs from the claim: in the table
`table_unguarded` the program offsets `base_code[1]` and `backtrk_code[0]` are
zero, and yet the tag program at offset 0 is run at the accepting state 1 (a call
in state 1 returns action 1 with cell 0 changed from 5 to -1) and at the backtrack
point 0 (its bookkeeping leaves cell 0 at -1); with a negative offset the tag
program is read before the blob, which has no defined result. -/
theorem run_tag_unguarded :
    Short table_unguarded.lex_base_code 1 ≤ 0 ∧
    (buffer_of [] false cells_5_7).lex_mem 0 = 5 ∧
    (old_caml_new_lex_engine table_unguarded 1 (buffer_of [] false cells_5_7)).map
      (fun x => (x.1, x.2.lex_mem 0)) = some (.ret 1, -1) ∧
    Short table_unguarded.lex_backtrk_code 0 ≤ 0 ∧
    (new_mark_backtrk table_unguarded 0 (buffer_of [] false cells_5_7)).map
      (fun x => x.lex_mem 0) = some (-1) ∧
    run_tag table_unguarded.lex_code (-1) cells_5_7 = none :=
  ⟨by decide!, by decide!,
    new_engine_fuel_map (fun x => (x.1, x.2.lex_mem 0)) 5 1 _ _ (by decide!),
    by decide!, by decide!, rfl⟩

/-- Counterexample to C9: in `table_retag` the tag program of the backtrack
point 0 is `mem[0] <- mem[1]; mem[1] <- -1`.  On the input `x` cut at 0, from
cells `mem[0] = 5`, `mem[1] = 7`, the split run runs that program twice (once
before the suspend, once on resuming) and ends with `mem[0] = -1`; the run on the
whole input runs it once and ends with `mem[0] = 7`.  Both return action 0. -/
theorem capture_cells_differ :
    (new_split_run table_retag 0 [120] 0 (buffer_of [] false cells_5_7)).map
      (fun x => (x.1, x.2.lex_mem 0)) = some (.ret 0, -1) ∧
    (old_caml_new_lex_engine table_retag 0
      (whole_input [120] (buffer_of [] false cells_5_7))).map
      (fun x => (x.1, x.2.lex_mem 0)) = some (.ret 0, 7) :=
  ⟨new_split_run_fuel_map (fun x => (x.1, x.2.lex_mem 0)) 5 0 [120] 0 _ _ (by decide!),
    new_engine_fuel_map (fun x => (x.1, x.2.lex_mem 0)) 5 0 _ _ (by decide!)⟩

/-- C9, amended: suspend/resume equivalence of the capture cells for the engine
with memory.  For every table, start state `s ≥ 0`, initial buffer (hence initial
mem), bytes `w` and cut `k ≤ |w|`: if, whenever the fresh attempt on the first
chunk suspends with code `r` in a state `-r-1` that is a backtrack point, running
the tag program of that state once more on the cells left at the suspension
leaves them as they are, then driving the refill protocol on `w[0..k)` then `w`
returns the same outcome and leaves the same cells as one fresh run on the whole
of `w` (and has no defined result exactly when that run has none). -/
theorem capture_resume_equivalence (tbl : lexing_table) (s : Int) (w : List Nat) (k : Nat)
    (lexbuf : lexer_buffer) (hs : 0 ≤ s) (hk : k ≤ w.length)
    (hidem : ∀ r lb, old_caml_new_lex_engine tbl s (first_chunk w k lexbuf) = some (.ret r, lb) →
      r < 0 → 0 ≤ Short tbl.lex_backtrk (-r - 1) →
      run_tag tbl.lex_code (Short tbl.lex_backtrk_code (-r - 1)) lb.lex_mem = some lb.lex_mem) :
    (new_split_run tbl s w k lexbuf).map (fun x => (x.1, x.2.lex_mem)) =
      (old_caml_new_lex_engine tbl s (whole_input w lexbuf)).map
        (fun x => (x.1, x.2.lex_mem)) := by
  rcases new_split_run_whole tbl s w k lexbuf hs hk hidem with h | h
  · rw [h]
    cases new_split_run tbl s w k lexbuf <;> rfl
  · rw [h]

/-- Witness of C9, amended: the tagged table of `ab*` on `abbb` delivered as `a`
then `bbb`.  The first call suspends in the backtrack point 1 with cells
`mem[0] = mem[1] = 1`, on which the tag program `mem[0] <- mem[1]` changes
nothing; both runs return action 0 with `mem[0] = 1`. -/
theorem capture_resume_equivalence_witness :
    (new_split_run table_tagged_ab_star 0 [97, 98, 98, 98] 1
        (buffer_of [] false (fun _ => -1))).map (fun x => (x.1, x.2.lex_mem)) =
      (old_caml_new_lex_engine table_tagged_ab_star 0
        (whole_input [97, 98, 98, 98] (buffer_of [] false (fun _ => -1)))).map
        (fun x => (x.1, x.2.lex_mem)) ∧
    (old_caml_new_lex_engine table_tagged_ab_star 0
        (whole_input [97, 98, 98, 98] (buffer_of [] false (fun _ => -1)))).map
        (fun x => (x.1, x.2.lex_mem 0)) = some (.ret 0, 1) :=
  ⟨capture_resume_equivalence table_tagged_ab_star 0 [97, 98, 98, 98] 1
      (buffer_of [] false (fun _ => -1)) (by decide) (by decide)
      (by
        intro r lb h hr hq
        have hv := @new_engine_fuel_map table_tagged_ab_star _
          (fun x => (x.1, x.2.lex_mem 0, x.2.lex_mem 1)) 5 0
          (first_chunk [97, 98, 98, 98] 1 (buffer_of [] false (fun _ => -1)))
          (some (.ret (-2), 1, 1)) (by decide!)
        rw [h] at hv
        simp only [Option.map_some', Option.some.injEq, Prod.mk.injEq, Outcome.ret.injEq] at hv
        obtain ⟨h1, h2, h3⟩ := hv
        subst h1
        have hpc : Short table_tagged_ab_star.lex_backtrk_code (- (-2) - 1) = 1 := by decide!
        rw [hpc]
        show some (Function.update lb.lex_mem 0 (lb.lex_mem 1)) = some lb.lex_mem
        rw [h3, ← h2, Function.update_eq_self]),
    new_engine_fuel_map (fun x => (x.1, x.2.lex_mem 0)) 8 0 _ _ (by decide!)⟩

/-- C15: table-entry decoding.  For every table byte string and index `n`, the
portable accessor `Short(tbl, n)`, the unsigned byte at `2n` plus the signed byte
at `2n+1` times 256, is the two's-complement value of the 16-bit little-endian
word stored at bytes `2n`, `2n+1`; it lies in `[-32768, 32767]`, it is what the
native little-endian `short` read of the other variant of the macro returns, and
it is negative exactly when the high byte is at least `0x80`. -/
theorem short_decoding (tbl : Int → Nat) (n : Int) :
    Short tbl n = Byte_u tbl (n * 2) + Byte_s tbl (n * 2 + 1) * 256 ∧
    Short tbl n = signed16 (word16 tbl n) ∧
    -32768 ≤ Short tbl n ∧ Short tbl n ≤ 32767 ∧
    Short tbl n = Short_native tbl n ∧
    (Short tbl n < 0 ↔ 0x80 ≤ tbl (n * 2 + 1) % 256) := by
  have ha : tbl (n * 2) % 256 < 256 := Nat.mod_lt _ (by decide)
  have hb : tbl (n * 2 + 1) % 256 < 256 := Nat.mod_lt _ (by decide)
  unfold Short_native signed16 word16 Short Byte_u Byte_s
  generalize tbl (n * 2) % 256 = a at ha
  generalize tbl (n * 2 + 1) % 256 = b at hb
  refine ⟨rfl, ?_, ?_, ?_, ?_, ?_⟩
  · split <;> split <;> push_cast <;> omega
  · split <;> omega
  · split <;> omega
  · split <;> split <;> push_cast <;> omega
  · split <;> omega

/-- C16: capture program semantics.  `run_mem` and `run_tag` execute, one after
the other, the pairs `(dest, src)` found from `pc` up to the first pair position
whose dest byte is `0xFF` (a terminator needs no byte after it); a pair with
`src = 0xFF` writes `curr_pos` (`run_mem`) or `-1` (`run_tag`) into `mem[dest]`,
any other pair copies the current `mem[src]` into `mem[dest]`, on the cells left
by the pairs before it.  A cell that is the dest of no executed pair is
unchanged, and `run_tag(pc, mem)` is `run_mem(pc, mem, -1)`. -/
theorem capture_program_semantics (code : List Nat) (pc : Int) (mem : Nat → Int)
    (curr_pos : Int) :
    run_mem code pc mem curr_pos =
      (if pc < 0 then none
       else (program_pairs (code.drop pc.toNat)).map (fun ps => exec_pairs curr_pos ps mem)) ∧
    run_tag code pc mem =
      (if pc < 0 then none
       else (program_pairs (code.drop pc.toNat)).map (fun ps => exec_pairs (-1) ps mem)) ∧
    (∀ rest : List Nat, program_pairs (0xff :: rest) = some []) ∧
    (∀ (special : Int) (p : Nat × Nat) (ps : List (Nat × Nat)) (m : Nat → Int),
      exec_pairs special (p :: ps) m =
        exec_pairs special ps
          (Function.update m p.1 (if p.2 = 0xff then special else m p.2))) ∧
    (∀ (ps : List (Nat × Nat)) (d : Nat) (mem1 : Nat → Int),
      program_pairs (code.drop pc.toNat) = some ps → (∀ p ∈ ps, p.1 ≠ d) →
      (run_mem code pc mem curr_pos = some mem1 ∨ run_tag code pc mem = some mem1) →
      mem1 d = mem d) ∧
    run_tag code pc mem = run_mem code pc mem (-1) := by
  have hm : ∀ pos : Int, run_mem code pc mem pos =
      (if pc < 0 then none
       else (program_pairs (code.drop pc.toNat)).map (fun ps => exec_pairs pos ps mem)) := by
    intro pos
    unfold run_mem
    rw [run_mem_from_pairs]
  have ht : run_tag code pc mem =
      (if pc < 0 then none
       else (program_pairs (code.drop pc.toNat)).map (fun ps => exec_pairs (-1) ps mem)) := by
    rw [run_tag_eq_run_mem]
    exact hm (-1)
  refine ⟨hm curr_pos, ht, fun rest => (by unfold program_pairs; rfl),
    fun special p ps m => rfl, ?_,
    run_tag_eq_run_mem code pc mem⟩
  intro ps d mem1 hps hd hrun
  rw [hm curr_pos, ht] at hrun
  by_cases hpc : pc < 0
  · simp only [hpc, if_true] at hrun
    rcases hrun with h | h <;> cases h
  · simp only [hpc, if_false, hps, Option.map_some', Option.some.injEq] at hrun
    rcases hrun with h | h
    · rw [← h]
      exact exec_pairs_frame _ ps mem d hd
    · rw [← h]
      exact exec_pairs_frame _ ps mem d hd

/-- Witness of C16: the tag program `mem[0] <- mem[1]; mem[1] <- -1` at offset 1
of the blob of `table_retag`, run on cells `mem[0] = 5`, all others 7: cell 2, the
dest of no pair, still holds 7, cell 0 holds the 7 of cell 1 and cell 1 holds
`-1`. -/
theorem capture_program_semantics_witness :
    program_pairs (table_retag.lex_code.drop 1) = some [(0, 1), (1, 255)] ∧
    exec_pairs (-1) [(0, 1), (1, 255)] cells_5_7 2 = cells_5_7 2 ∧
    exec_pairs (-1) [(0, 1), (1, 255)] cells_5_7 0 = 7 ∧
    exec_pairs (-1) [(0, 1), (1, 255)] cells_5_7 1 = -1 :=
  ⟨by decide,
    (capture_program_semantics table_retag.lex_code 1 cells_5_7 0).2.2.2.2.1
      [(0, 1), (1, 255)] 2 (exec_pairs (-1) [(0, 1), (1, 255)] cells_5_7) (by decide)
      (by decide)
      (Or.inr ((capture_program_semantics table_retag.lex_code 1 cells_5_7 0).2.1.trans rfl)),
    by decide, by decide⟩

/-- C12: end-of-input handling.  When `curr_pos ≥ length` and `eof_reached` is
true, the loop body looks up the transition on the pseudo-character 256 and does
not advance `curr_pos`: if the next state is non-negative it goes round again
with `eof_reached` cleared and the cursor where it was, if it is a dead end it
leaves with `eof_reached` still true.  A pass of the loop body changes
`eof_reached` in that first case only (so never on a real byte and never to
true), and no call of the engine sets `eof_reached` to true. -/
theorem end_of_input (tbl : lexing_table) (state : Int) (lexbuf : lexer_buffer) :
    (0 ≤ Short tbl.lex_base state → lexbuf.lex_buffer_len ≤ lexbuf.lex_curr_pos →
      lexbuf.lex_eof_reached = true →
      lex_char lexbuf = some 256 ∧
      (0 ≤ next_state tbl state (Short tbl.lex_base state) 256 →
        lex_iter tbl state lexbuf =
          .continue (next_state tbl state (Short tbl.lex_base state) 256)
            { mark_backtrk tbl state lexbuf with lex_eof_reached := false } ∧
        (lex_iter tbl state lexbuf).buffer.lex_curr_pos = lexbuf.lex_curr_pos) ∧
      (next_state tbl state (Short tbl.lex_base state) 256 < 0 →
        (∃ o, lex_iter tbl state lexbuf =
          .exit o { mark_backtrk tbl state lexbuf with
            lex_curr_pos := (mark_backtrk tbl state lexbuf).lex_last_pos }) ∧
        (lex_iter tbl state lexbuf).buffer.lex_eof_reached = true)) ∧
    ((lex_iter tbl state lexbuf).buffer.lex_eof_reached ≠ lexbuf.lex_eof_reached →
      0 ≤ Short tbl.lex_base state ∧ lex_char lexbuf = some 256 ∧
      0 ≤ next_state tbl state (Short tbl.lex_base state) 256 ∧
      lexbuf.lex_eof_reached = true ∧
      (lex_iter tbl state lexbuf).buffer.lex_eof_reached = false) ∧
    ((old_caml_lex_engine tbl state lexbuf).2.lex_eof_reached = true →
      lexbuf.lex_eof_reached = true) := by
  refine ⟨?_, lex_iter_eof_changes tbl state lexbuf, ?_⟩
  · intro hb hlen heof
    have hch : lex_char lexbuf = some 256 := by
      unfold lex_char
      rw [if_pos hlen, if_neg (by rw [heof]; simp)]
    refine ⟨hch, ?_, ?_⟩
    · intro hn
      have hi : lex_iter tbl state lexbuf =
          .continue (next_state tbl state (Short tbl.lex_base state) 256)
            { mark_backtrk tbl state lexbuf with lex_eof_reached := false } := by
        rw [lex_iter_eof lexbuf hb hlen heof, lex_trans_live _ hn, if_pos rfl]
      refine ⟨hi, ?_⟩
      rw [hi]
      exact mark_backtrk_curr_pos tbl state lexbuf
    · intro hn
      have hi : lex_iter tbl state lexbuf =
          .exit (if (mark_backtrk tbl state lexbuf).lex_last_action = -1 then .empty_token
                 else .ret (mark_backtrk tbl state lexbuf).lex_last_action)
            { mark_backtrk tbl state lexbuf with
              lex_curr_pos := (mark_backtrk tbl state lexbuf).lex_last_pos } := by
        rw [lex_iter_eof lexbuf hb hlen heof, lex_trans_dead _ hn]
      refine ⟨⟨_, hi⟩, ?_⟩
      rw [hi]
      show (mark_backtrk tbl state lexbuf).lex_eof_reached = true
      rw [mark_backtrk_eof_reached, heof]
  · intro h
    rw [old_caml_lex_engine_entry] at h
    have h1 := lex_loop_eof_reached tbl _ _ h
    unfold entry_buffer at h1
    split at h1
    · exact h1
    · exact h1

/-- Witness of C12: on the table `table_eof` and the empty buffer with the end of
input asserted, the pass in state 0 takes the transition on 256 to state 1 and
clears `eof_reached`; on the table of `ab` the lookup on 256 in state 0 is a dead
end and `eof_reached` stays true. -/
theorem end_of_input_witness :
    (lex_iter table_eof 0 (buffer_of [] true (fun _ => 0))).buffer.lex_curr_pos = 0 ∧
    (lex_iter table_ab 0 (buffer_of [] true (fun _ => 0))).buffer.lex_eof_reached = true :=
  ⟨(((end_of_input table_eof 0 (buffer_of [] true (fun _ => 0))).1
      (by decide!) (by decide!) (by decide!)).2.1 (by decide!)).2,
    (((end_of_input table_ab 0 (buffer_of [] true (fun _ => 0))).1
      (by decide!) (by decide!) (by decide!)).2.2 (by decide!)).2⟩

/-- C14: frame.  A call of the plain engine leaves `mem`, the buffer bytes, the
length, `abs_pos`, the refill function and the location metadata (`start_p`,
`curr_p`) as they were: only `start_pos`, `curr_pos`, `last_pos`, `last_action`
and `eof_reached` can differ.  A call of the engine with memory leaves the same
fields as they were, but for `mem`, whose final cells are reached from the
initial ones by calls of `run_tag` and `run_mem` only.  The table is an argument
of both functions and no part of their result. -/
theorem engine_frame (tbl : lexing_table) (start_state : Int) (lexbuf : lexer_buffer) :
    (same_frame (old_caml_lex_engine tbl start_state lexbuf).2 lexbuf ∧
      (old_caml_lex_engine tbl start_state lexbuf).2.lex_mem = lexbuf.lex_mem) ∧
    (∀ r, old_caml_new_lex_engine tbl start_state lexbuf = some r →
      same_frame r.2 lexbuf ∧ mem_steps tbl.lex_code lexbuf.lex_mem r.2.lex_mem) := by
  have hentry : same_frame (entry_buffer start_state lexbuf) lexbuf ∧
      (entry_buffer start_state lexbuf).lex_mem = lexbuf.lex_mem := by
    unfold entry_buffer
    split
    · exact ⟨⟨rfl, rfl, rfl, rfl, rfl, rfl⟩, rfl⟩
    · exact ⟨same_frame_refl _, rfl⟩
  have hplain : same_frame (old_caml_lex_engine tbl start_state lexbuf).2 lexbuf ∧
      (old_caml_lex_engine tbl start_state lexbuf).2.lex_mem = lexbuf.lex_mem := by
    rw [old_caml_lex_engine_entry]
    have h := lex_loop_frame tbl (entry_state start_state) (entry_buffer start_state lexbuf)
    exact ⟨same_frame_trans h.1 hentry.1, h.2.trans hentry.2⟩
  refine ⟨hplain, ?_⟩
  intro r hr
  have he := old_caml_new_lex_engine_erase tbl start_state lexbuf r hr
  rw [he] at hplain
  refine ⟨hplain.1, ?_⟩
  rw [old_caml_new_lex_engine_entry] at hr
  have hm := new_lex_loop_mem tbl _ _ r hr
  rw [hentry.2] at hm
  exact hm

/-- Witness of C14: the table with one capture instruction on the input `xyz`. -/
theorem engine_frame_witness :
    ∃ r, old_caml_new_lex_engine table_capture 0 (buffer_of [120, 121, 122] true (fun _ => -1))
        = some r ∧
      same_frame r.2 (buffer_of [120, 121, 122] true (fun _ => -1)) :=
  have hs : (old_caml_new_lex_engine table_capture 0
      (buffer_of [120, 121, 122] true (fun _ => -1))).isSome = true := by
    rw [old_caml_new_lex_engine_fresh table_capture (le_refl 0)]
    exact new_lex_loop_isSome_of_fuel 10 _ _ (by decide!)
  ⟨_, (Option.some_get hs).symm,
    ((engine_frame table_capture 0 (buffer_of [120, 121, 122] true (fun _ => -1))).2 _
      (Option.some_get hs).symm).1⟩

/-- C19: cursor invariant.  In a fresh attempt entered with `curr_pos ≤ length`,
the relation `start_pos ≤ last_pos ≤ curr_pos ≤ length` holds at the head of every
pass of the loop body, after its backtrack bookkeeping, and at the exit.  A pass
that goes round again leaves `curr_pos` one further for a byte and where it was
for the pseudo-character 256; a pass that leaves the function leaves `curr_pos`
where it was or, in a dead end, sets it to `last_pos`.  So the final `curr_pos`
is never smaller than the `curr_pos` of entry. -/
theorem cursor_invariant (tbl : lexing_table) (s : Int) (lexbuf : lexer_buffer)
    (hs : 0 ≤ s) (hlen : lexbuf.lex_curr_pos ≤ lexbuf.lex_buffer_len) :
    (∀ v ∈ lex_visits tbl s (fresh lexbuf),
      cursor_inv v.2 ∧ cursor_inv (mark_backtrk tbl v.1 v.2)) ∧
    cursor_inv (old_caml_lex_engine tbl s lexbuf).2 ∧
    (∀ (state : Int) (lb0 : lexer_buffer),
      (∀ s1 lb1, lex_iter tbl state lb0 = .continue s1 lb1 →
        ∃ c, lex_char lb0 = some c ∧
          lb1.lex_curr_pos = (if c = 256 then lb0.lex_curr_pos else lb0.lex_curr_pos + 1)) ∧
      (∀ o lb, lex_iter tbl state lb0 = .exit o lb →
        lb.lex_curr_pos = lb0.lex_curr_pos ∨
        (iter_exit tbl state lb0 = some .dead_end ∧ lb.lex_curr_pos = lb.lex_last_pos))) ∧
    lexbuf.lex_curr_pos ≤ (old_caml_lex_engine tbl s lexbuf).2.lex_curr_pos := by
  have h0 : cursor_inv (fresh lexbuf) :=
    ⟨le_refl _, le_refl _, hlen⟩
  have hfin : cursor_inv (old_caml_lex_engine tbl s lexbuf).2 := by
    rw [old_caml_lex_engine_fresh tbl hs]
    exact lex_loop_cursor_inv tbl s (fresh lexbuf) h0
  refine ⟨?_, hfin, lex_iter_cursor tbl, ?_⟩
  · intro v hv
    have h1 := lex_visits_invariant tbl (fun _ lb => cursor_inv lb)
      (fun state lb s1 lb1 hI hi => by
        have := lex_iter_cursor_inv tbl state lb hI
        rw [hi] at this
        exact this) s (fresh lexbuf) h0 v hv
    exact ⟨h1, mark_backtrk_cursor_inv tbl v.1 v.2 h1⟩
  · have hsp : (old_caml_lex_engine tbl s lexbuf).2.lex_start_pos = lexbuf.lex_curr_pos := by
      rw [old_caml_lex_engine_fresh tbl hs]
      exact lex_loop_start_pos tbl s (fresh lexbuf)
    unfold cursor_inv at hfin
    omega

/-- Witness of C19: the table of `a` or `abc` on the input `abd`, entered at
cursor 0 with length 3; the run ends in a dead end with the cursor back at 1. -/
theorem cursor_invariant_witness :
    cursor_inv (old_caml_lex_engine table_a_abc 0
      (buffer_of [97, 98, 100] true (fun _ => 0))).2 ∧
    (0 : Int) ≤ (old_caml_lex_engine table_a_abc 0
      (buffer_of [97, 98, 100] true (fun _ => 0))).2.lex_curr_pos :=
  have h := cursor_invariant table_a_abc 0 (buffer_of [97, 98, 100] true (fun _ => 0))
    (by decide) (by decide)
  ⟨h.2.1, h.2.2.2⟩

/-- C20: termination.  One call of the plain engine leaves its loop after at most
`max(0, length - curr_pos) + 2` passes of the loop body: the run has no more
visits than that, the loop cut after that many iterations (or more) has the
result of the call, and the loop cut after `fuel` iterations is cut short exactly
when `fuel` is less than the number of visits.  Each pass either leaves the
function, or consumes one byte, or consumes the pseudo-character 256 and clears
`eof_reached`, and then the next pass leaves the function. -/
theorem engine_terminates (tbl : lexing_table) (start_state : Int) (lexbuf : lexer_buffer) :
    (lex_visits tbl (entry_state start_state) (entry_buffer start_state lexbuf)).length ≤
      (lexbuf.lex_buffer_len - lexbuf.lex_curr_pos).toNat + 2 ∧
    (∀ fuel, (lexbuf.lex_buffer_len - lexbuf.lex_curr_pos).toNat + 2 ≤ fuel →
      lex_loop_fuel tbl fuel (entry_state start_state) (entry_buffer start_state lexbuf) =
        some (old_caml_lex_engine tbl start_state lexbuf)) ∧
    (∀ fuel,
      lex_loop_fuel tbl fuel (entry_state start_state) (entry_buffer start_state lexbuf) = none ↔
        fuel < (lex_visits tbl (entry_state start_state)
          (entry_buffer start_state lexbuf)).length) ∧
    (∀ (state : Int) (lb0 : lexer_buffer),
      (∃ o lb1, lex_iter tbl state lb0 = .exit o lb1) ∨
      (∃ s1 lb1 c, lex_iter tbl state lb0 = .continue s1 lb1 ∧ lex_char lb0 = some c ∧
        c ≠ 256 ∧ lb0.lex_curr_pos < lb0.lex_buffer_len ∧
        lb1.lex_curr_pos = lb0.lex_curr_pos + 1) ∨
      (∃ s1 lb1, lex_iter tbl state lb0 = .continue s1 lb1 ∧ lex_char lb0 = some 256 ∧
        lb1.lex_eof_reached = false ∧ ∃ o lb2, lex_iter tbl s1 lb1 = .exit o lb2)) := by
  have hcur : (entry_buffer start_state lexbuf).lex_curr_pos = lexbuf.lex_curr_pos := by
    unfold entry_buffer
    split <;> rfl
  have hbl : (entry_buffer start_state lexbuf).lex_buffer_len = lexbuf.lex_buffer_len := by
    unfold entry_buffer
    split <;> rfl
  have hle : (lex_visits tbl (entry_state start_state)
      (entry_buffer start_state lexbuf)).length ≤
      (lexbuf.lex_buffer_len - lexbuf.lex_curr_pos).toNat + 2 := by
    have h := lex_visits_length_le tbl (entry_state start_state)
      (entry_buffer start_state lexbuf)
    rw [hcur, hbl] at h
    split at h <;> omega
  refine ⟨hle, ?_, ?_, ?_⟩
  · intro fuel hf
    rw [lex_loop_fuel_eq, if_pos (le_trans hle hf), old_caml_lex_engine_entry]
  · intro fuel
    rw [lex_loop_fuel_eq]
    split
    · rename_i h
      constructor
      · intro h1
        cases h1
      · intro h1
        omega
    · rename_i h
      constructor
      · intro _
        omega
      · intro _
        rfl
  · intro state lb0
    cases hi : lex_iter tbl state lb0 with
    | exit o lb1 => exact Or.inl ⟨o, lb1, rfl⟩
    | «continue» s1 lb1 =>
      right
      obtain ⟨c, hc, hcp⟩ := (lex_iter_cursor tbl state lb0).1 s1 lb1 hi
      by_cases h256 : c = 256
      · right
        subst h256
        obtain ⟨h1, h2⟩ := lex_iter_after_eof hc hi
        exact ⟨s1, lb1, rfl, hc, h1, h2⟩
      · left
        rw [if_neg h256] at hcp
        refine ⟨s1, lb1, c, rfl, hc, h256, ?_, hcp⟩
        rcases lex_char_cases lb0 with ⟨h1, -⟩ | ⟨h1, -⟩ | ⟨-, h2, -⟩
        · rw [hc] at h1
          cases h1
        · rw [hc] at h1
          exact absurd (Option.some.inj h1) h256
        · exact h2

/-- Witness of C20: the table of `ab*` on `abbb` with the end of input asserted:
the bound is `4 + 2` and the run has 5 visits, the last in a dead end on the
pseudo-character 256.  On `table_eof` and the empty buffer the bound `0 + 2` is
reached: the first pass consumes 256, the second accepts. -/
theorem engine_terminates_witness :
    lex_loop_fuel table_ab_star 6 (entry_state 0)
        (entry_buffer 0 (buffer_of [97, 98, 98, 98] true (fun _ => 0))) =
      some (old_caml_lex_engine table_ab_star 0 (buffer_of [97, 98, 98, 98] true (fun _ => 0))) ∧
    (lex_visits table_ab_star (entry_state 0)
        (entry_buffer 0 (buffer_of [97, 98, 98, 98] true (fun _ => 0)))).length = 5 ∧
    (lex_visits table_eof (entry_state 0)
        (entry_buffer 0 (buffer_of [] true (fun _ => 0)))).length = 2 :=
  ⟨(engine_terminates table_ab_star 0 (buffer_of [97, 98, 98, 98] true (fun _ => 0))).2.1 6
      (by decide),
    by decide!, by decide!⟩

/-- C11: result classification and suspend-code round trip.  For a fresh call
(`resume_state ≥ 0`) or a resumption with `last_action ≥ -1` that returns `v`:
`v` is negative if and only if the engine stopped at the refill check, and then
`v = -q-1` for the state `q ≥ 0` of the last visit, so `-v-1` is `q` again,
`base[q] ≥ 0`, `curr_pos ≥ length` and `eof_reached` is false; otherwise `v` is
non-negative and is `-base[q]-1` of an accepting state or `last_action` at a dead
end. -/
theorem result_classification (tbl : lexing_table) (s : Int) (lexbuf : lexer_buffer)
    (h : 0 ≤ s ∨ -1 ≤ lexbuf.lex_last_action) (v : Int)
    (hv : (old_caml_lex_engine tbl s lexbuf).1 = .ret v) :
    (v < 0 ↔ engine_exit tbl s lexbuf = some .refill) ∧
    (v < 0 →
      ∃ q, (lex_trace tbl (entry_state s) (entry_buffer s lexbuf)).getLast?.map Prod.fst
          = some q ∧
        0 ≤ q ∧ v = -q - 1 ∧ -v - 1 = q ∧ 0 ≤ Short tbl.lex_base q ∧
        (old_caml_lex_engine tbl s lexbuf).2.lex_buffer_len ≤
          (old_caml_lex_engine tbl s lexbuf).2.lex_curr_pos ∧
        (old_caml_lex_engine tbl s lexbuf).2.lex_eof_reached = false) ∧
    (0 ≤ v →
      (engine_exit tbl s lexbuf = some .accept ∧
        ∃ q, (lex_trace tbl (entry_state s) (entry_buffer s lexbuf)).getLast?.map Prod.fst
            = some q ∧
          Short tbl.lex_base q < 0 ∧ v = -Short tbl.lex_base q - 1) ∨
      (engine_exit tbl s lexbuf = some .dead_end ∧
        v = (old_caml_lex_engine tbl s lexbuf).2.lex_last_action)) := by
  have hla : -1 ≤ (entry_buffer s lexbuf).lex_last_action := by
    unfold entry_buffer
    split
    · exact le_refl _
    · rename_i hs
      rcases h with h | h
      · exact absurd h hs
      · exact h
  rw [old_caml_lex_engine_entry] at hv ⊢
  unfold engine_exit
  obtain ⟨q, hq, hq0, hcase⟩ := lex_loop_results tbl (entry_state s) (entry_buffer s lexbuf)
    (entry_state_nonneg s) hla
  rcases hcase with ⟨hk, hb, hr⟩ | ⟨hk, hb, hr, hlen, heof⟩ | ⟨hk, hr⟩
  · rw [hr] at hv
    have hv1 : v = -Short tbl.lex_base q - 1 := (Outcome.ret.inj hv).symm
    rw [hk]
    refine ⟨⟨fun h1 => by omega, fun h1 => by cases h1⟩, fun h1 => by omega, fun _ => ?_⟩
    exact Or.inl ⟨rfl, q, hq, hb, hv1⟩
  · rw [hr] at hv
    have hv1 : v = -q - 1 := (Outcome.ret.inj hv).symm
    rw [hk]
    refine ⟨⟨fun _ => rfl, fun _ => by omega⟩, fun _ => ?_, fun h1 => by omega⟩
    exact ⟨q, hq, hq0, hv1, by omega, hb, hlen, heof⟩
  · rcases hr with hr | ⟨hge, hr⟩
    · rw [hr] at hv
      cases hv
    · rw [hr] at hv
      have hv1 : v = (lex_loop tbl (entry_state s) (entry_buffer s lexbuf)).2.lex_last_action :=
        (Outcome.ret.inj hv).symm
      rw [hk]
      refine ⟨⟨fun h1 => by omega, fun h1 => by cases h1⟩, fun h1 => by omega, fun _ => ?_⟩
      exact Or.inr ⟨rfl, hv1⟩

/-- Witness of C11: the table of `ab*` on the chunk `a` with more input to come
returns `-2`, the code of state 1, from the refill check. -/
theorem result_classification_witness :
    ((-2 : Int) < 0 ↔
      engine_exit table_ab_star 0 (buffer_of [97] false (fun _ => 0)) = some .refill) ∧
    (0 : Int) ≤ 0 :=
  ⟨(result_classification table_ab_star 0 (buffer_of [97] false (fun _ => 0))
      (Or.inl (by decide)) (-2)
      (engine_fuel_map (fun r => r.1) 5 0 _ (.ret (-2)) (by decide!))).1,
    by decide⟩

/-- Counterexample to C18 as stated: in `table_accept_backtrk` the only state
visited, state 0, has `backtrk[0] = 3 ≥ 0`, and yet the fresh attempt exits with
`last_action` still unset: state 0 is accepting (`base[0] < 0`), so the loop
returns at line 86 before the `backtrk` lookup of line 89. -/
theorem accepting_state_not_recorded :
    lex_trace table_accept_backtrk 0 (fresh (buffer_of [97] true (fun _ => 0))) = [(0, 0)] ∧
    Short table_accept_backtrk.lex_backtrk 0 = 3 ∧
    (old_caml_lex_engine table_accept_backtrk 0 (buffer_of [97] true (fun _ => 0))).1 =
      .ret 0 ∧
    (old_caml_lex_engine table_accept_backtrk 0
      (buffer_of [97] true (fun _ => 0))).2.lex_last_action = -1 ∧
    ¬ ((old_caml_lex_engine table_accept_backtrk 0
        (buffer_of [97] true (fun _ => 0))).2.lex_last_action = -1 ↔
      ∀ v ∈ lex_trace table_accept_backtrk 0 (fresh (buffer_of [97] true (fun _ => 0))),
        ¬ 0 ≤ Short table_accept_backtrk.lex_backtrk v.1) := by
  have ht : lex_trace table_accept_backtrk 0 (fresh (buffer_of [97] true (fun _ => 0))) =
      [(0, 0)] := by decide!
  have hb : Short table_accept_backtrk.lex_backtrk 0 = 3 := by decide!
  have hla : (old_caml_lex_engine table_accept_backtrk 0
      (buffer_of [97] true (fun _ => 0))).2.lex_last_action = -1 :=
    engine_fuel_map (fun r => r.2.lex_last_action) 3 0 _ (-1) (by decide!)
  refine ⟨ht, hb, engine_fuel_map (fun r => r.1) 3 0 _ (.ret 0) (by decide!), hla, ?_⟩
  intro h
  have h1 := h.mp hla (0, 0) (by rw [ht]; exact List.mem_singleton.mpr rfl)
  apply h1
  show 0 ≤ Short table_accept_backtrk.lex_backtrk 0
  rw [hb]
  decide

/-- C18 (amended): the `last_action` invariant.  Call a visited state a backtrack
point when the pass gets to the lookup of line 89 and finds an action there
(`base ≥ 0` and `backtrk ≥ 0`).  In a fresh attempt of `old_caml_lex_engine`
(`s ≥ 0`), the buffer records the visits made so far (`records_visits`:
`last_action` is `-1` if and only if none of them is a backtrack point, and
otherwise `last_action` is `backtrk` of the last backtrack point among them and
`last_pos` the cursor of that visit): at the top of every pass for the visits
before it, after the bookkeeping of lines 89 to 93 of every pass that reaches
them for the visits up to it, at the exit for all the visits, and at the exit of
a resumption that follows a suspend request for the visits of both calls, when
the host hands back `last_action` and `last_pos` as the first call left them. -/
theorem last_action_invariant (tbl : lexing_table) (s : Int) (lexbuf : lexer_buffer)
    (hs : 0 ≤ s) :
    (∀ L1 v L2, lex_visits tbl s (fresh lexbuf) = L1 ++ v :: L2 →
      records_visits tbl (L1.map (fun w => (w.1, w.2.lex_curr_pos))) v.2) ∧
    (∀ L1 v L2, lex_visits tbl s (fresh lexbuf) = L1 ++ v :: L2 →
      0 ≤ Short tbl.lex_base v.1 →
      records_visits tbl ((L1 ++ [v]).map (fun w => (w.1, w.2.lex_curr_pos)))
        (mark_backtrk tbl v.1 v.2)) ∧
    records_visits tbl (lex_trace tbl s (fresh lexbuf)) (old_caml_lex_engine tbl s lexbuf).2 ∧
    (∀ r lb1 lbh, old_caml_lex_engine tbl s lexbuf = (.ret r, lb1) → r < 0 →
      lbh.lex_last_action = lb1.lex_last_action → lbh.lex_last_pos = lb1.lex_last_pos →
      records_visits tbl (lex_trace tbl s (fresh lexbuf) ++ lex_trace tbl (-r - 1) lbh)
        (old_caml_lex_engine tbl r lbh).2) := by
  refine ⟨?_, ?_, ?_, ?_⟩
  · intro L1 v L2 hv
    exact records_of_recorded tbl _ _ lexbuf.lex_curr_pos
      (lex_visits_recorded_top tbl s (fresh lexbuf) L1 v L2 hv)
  · intro L1 v L2 hv hb
    exact records_of_recorded tbl _ _ lexbuf.lex_curr_pos
      (lex_visits_recorded tbl s (fresh lexbuf) L1 v L2 hv hb)
  · rw [old_caml_lex_engine_fresh tbl hs]
    exact records_of_recorded tbl _ _ lexbuf.lex_curr_pos
      (lex_loop_recorded tbl s (fresh lexbuf))
  · intro r lb1 lbh he hr hla hlp
    rw [old_caml_lex_engine_fresh tbl hs] at he
    have h1 := lex_loop_recorded tbl s (fresh lexbuf)
    rw [he] at h1
    have h2 := lex_loop_recorded tbl (-r - 1) lbh
    rw [hla, hlp, h1, ← recorded_append] at h2
    rw [old_caml_lex_engine_resume tbl hr]
    exact records_of_recorded tbl _ _ lexbuf.lex_curr_pos h2

/-- Witness of C18 (amended): the table of `a | abc` on `abd`, a fresh attempt
from state 0.  The visits are state 0 at 0, state 1 at 1 and state 2 at 2; state
1 is the one backtrack point (`backtrk[1] = 0`), and the exit has
`last_action = 0` and `last_pos = 1`. -/
theorem last_action_invariant_witness :
    (0 : Int) ≤ 0 ∧
    records_visits table_a_abc
      (lex_trace table_a_abc 0 (fresh (buffer_of [97, 98, 100] true (fun _ => 0))))
      (old_caml_lex_engine table_a_abc 0 (buffer_of [97, 98, 100] true (fun _ => 0))).2 ∧
    lex_trace table_a_abc 0 (fresh (buffer_of [97, 98, 100] true (fun _ => 0))) =
      [(0, 0), (1, 1), (2, 2)] ∧
    (old_caml_lex_engine table_a_abc 0
      (buffer_of [97, 98, 100] true (fun _ => 0))).2.lex_last_action = 0 ∧
    (old_caml_lex_engine table_a_abc 0
      (buffer_of [97, 98, 100] true (fun _ => 0))).2.lex_last_pos = 1 :=
  ⟨by decide,
    (last_action_invariant table_a_abc 0 (buffer_of [97, 98, 100] true (fun _ => 0))
      (by decide)).2.2.1,
    by decide!,
    engine_fuel_map (fun r => r.2.lex_last_action) 5 0 _ 0 (by decide!),
    engine_fuel_map (fun r => r.2.lex_last_pos) 5 0 _ 1 (by decide!)⟩

/-- Counterexample to C17 as stated.  First, a pass that backtracks can change
`mem`: in `table_retag` the one state 0 is a backtrack point whose tag program
is `mem[0] <- mem[1]; mem[1] <- -1`, and it has no transition; on the input `x`
from cells `mem[0] = 5`, `mem[1] = 7` the call is a single pass, which runs the
tag program at line 205, finds the dead end and returns action 0 with
`mem[0] = 7`.  Second, a transition that is taken need not run a program: in
`table_unguarded` the transition out of state 0 on `x` is taken and selects
offset 0, where the blob holds the program `mem[0] <- curr_pos`; the test of
line 244 skips it, and the pass leaves `mem[0]` at the `-1` written by the
bookkeeping of line 205 and not at the cursor 1. -/
theorem dead_end_pass_changes_mem :
    (buffer_of [120] true cells_5_7).lex_mem 0 = 5 ∧
    lex_trace table_retag 0 (fresh (buffer_of [120] true cells_5_7)) = [(0, 0)] ∧
    next_state table_retag 0 (Short table_retag.lex_base 0) 120 < 0 ∧
    (new_lex_iter table_retag 0 (fresh (buffer_of [120] true cells_5_7))).map
      (fun stp => stp.buffer.lex_mem 0) = some 7 ∧
    (old_caml_new_lex_engine table_retag 0 (buffer_of [120] true cells_5_7)).map
      (fun x => (x.1, x.2.lex_mem 0)) = some (.ret 0, 7) ∧
    0 ≤ next_state table_unguarded 0 (Short table_unguarded.lex_base 0) 120 ∧
    trans_pc_off table_unguarded 0 120 = 0 ∧
    (new_lex_iter table_unguarded 0 (fresh (buffer_of [120] true cells_5_7))).map
      (fun stp => (stp.buffer.lex_mem 0, stp.buffer.lex_curr_pos)) = some (-1, 1) ∧
    (run_mem table_unguarded.lex_code 0 (Function.update cells_5_7 0 (-1)) 1).map
      (fun m => m 0) = some 1 :=
  ⟨by decide!, by decide!, by decide!, by decide!,
    new_engine_fuel_map (fun x => (x.1, x.2.lex_mem 0)) 5 0 _ _ (by decide!),
    by decide!, by decide!, by decide!, by decide!⟩

/-- C17 (amended): selection of the memory program (`run_mem`) in the engine with
memory.  Take a pass of the loop body in a state `p` that is not accepting
(`base[p] ≥ 0`), whose backtrack bookkeeping (lines 201 to 209) leaves the buffer
`lbm`, and which looks up the character `c` (a byte, or 256 at the end of
input).  The offset selected, `trans_pc_off`, is `trans_code[base_code[p]+c]` if
`check_code[base_code[p]+c] = p` and `default_code[p]` otherwise: it depends on
`p` and `c`, not on the next state.  If the next state is non-negative and that
offset is positive, the pass runs the program at that offset once, on the cells
left by the bookkeeping and with the cursor after `c` was consumed, and goes
round again with the cells it gives.  If the next state is non-negative and the
offset is zero or negative, no program is run: the pass goes round again with
the cells left by the bookkeeping.  If the next state is negative (dead end), no
memory program is run: the pass exits with the cells left by the bookkeeping,
which are the cells of entry when `p` is no backtrack point, the result of the
tag program of `p` when it is one, and the cells of entry whenever the pass
fails with the empty-token error. -/
theorem record_program_selection (tbl : lexing_table) (p c : Int) (lexbuf lbm : lexer_buffer)
    (hb : 0 ≤ Short tbl.lex_base p)
    (hm : new_mark_backtrk tbl p lexbuf = some lbm)
    (hc : lex_char lexbuf = some c) :
    trans_pc_off tbl p c =
      (if Short tbl.lex_check_code (Short tbl.lex_base_code p + c) = p then
        Short tbl.lex_trans_code (Short tbl.lex_base_code p + c)
      else Short tbl.lex_default_code p) ∧
    (0 ≤ next_state tbl p (Short tbl.lex_base p) c → 0 < trans_pc_off tbl p c →
      new_lex_iter tbl p lexbuf =
        (run_mem tbl.lex_code (trans_pc_off tbl p c) lbm.lex_mem
          (advance c lbm).lex_curr_pos).map
          (fun mem => .continue (next_state tbl p (Short tbl.lex_base p) c)
            ((advance c lbm).with_mem mem))) ∧
    (0 ≤ next_state tbl p (Short tbl.lex_base p) c → trans_pc_off tbl p c ≤ 0 →
      new_lex_iter tbl p lexbuf =
        some (.continue (next_state tbl p (Short tbl.lex_base p) c) (advance c lbm))) ∧
    (next_state tbl p (Short tbl.lex_base p) c < 0 →
      ∃ o lb1, new_lex_iter tbl p lexbuf = some (.exit o lb1) ∧
        lb1.lex_mem = lbm.lex_mem ∧
        (Short tbl.lex_backtrk p < 0 → lb1.lex_mem = lexbuf.lex_mem) ∧
        (0 ≤ Short tbl.lex_backtrk p →
          run_tag tbl.lex_code (Short tbl.lex_backtrk_code p) lexbuf.lex_mem =
            some lb1.lex_mem) ∧
        (o = .empty_token → lb1.lex_mem = lexbuf.lex_mem)) := by
  have hiter : new_lex_iter tbl p lexbuf =
      new_lex_trans tbl p (Short tbl.lex_base p) c
        (if c = 256 then lbm else { lbm with lex_curr_pos := lbm.lex_curr_pos + 1 }) := by
    rw [new_lex_iter_fetch lexbuf hb, hm]
    exact new_lex_fetch_char tbl p c lbm (by rw [lex_char_new_mark_backtrk hm, hc])
  refine ⟨rfl, ?_, ?_, ?_⟩
  · intro hn hp
    rw [hiter, new_lex_trans_run tbl p _ c _ hn hp]
    by_cases h256 : c = 256
    · subst h256
      rfl
    · unfold advance
      simp only [h256, if_false]
  · intro hn hp
    rw [hiter, run_mem_skipped tbl p _ c _ hn hp]
    by_cases h256 : c = 256
    · subst h256
      rfl
    · unfold advance
      simp only [h256, if_false]
  · intro hn
    rw [hiter, new_lex_trans_dead tbl p _ c _ hn]
    refine ⟨_, _, rfl, ?_, ?_, ?_, ?_⟩
    · by_cases h256 : c = 256
      · simp only [h256, if_true]
      · simp only [h256, if_false]
    · intro hq
      rw [new_mark_backtrk_neg lexbuf hq] at hm
      cases hm
      by_cases h256 : c = 256
      · simp only [h256, if_true]
      · simp only [h256, if_false]
    · intro hq
      rw [new_mark_backtrk_nonneg lexbuf hq] at hm
      cases hr : run_tag tbl.lex_code (Short tbl.lex_backtrk_code p) lexbuf.lex_mem with
      | none =>
        rw [hr] at hm
        cases hm
      | some mem =>
        rw [hr] at hm
        cases hm
        by_cases h256 : c = 256
        · simp only [h256, if_true]
        · simp only [h256, if_false]
    · intro ho
      by_cases hq : Short tbl.lex_backtrk p < 0
      · rw [new_mark_backtrk_neg lexbuf hq] at hm
        cases hm
        by_cases h256 : c = 256
        · simp only [h256, if_true]
        · simp only [h256, if_false]
      · exfalso
        have hq1 : 0 ≤ Short tbl.lex_backtrk p := not_lt.mp hq
        rw [new_mark_backtrk_nonneg lexbuf hq1] at hm
        cases hr : run_tag tbl.lex_code (Short tbl.lex_backtrk_code p) lexbuf.lex_mem with
        | none =>
          rw [hr] at hm
          cases hm
        | some mem =>
          rw [hr] at hm
          cases hm
          by_cases h256 : c = 256
          · simp only [h256, if_true] at ho
            split at ho
            · rename_i hla
              omega
            · cases ho
          · simp only [h256, if_false] at ho
            split at ho
            · rename_i hla
              omega
            · cases ho

/-- Witness of C17 (amended): the tagged table of `ab*` on `ab`, the pass in
state 0 at cursor 0.  State 0 is no backtrack point, the character is `a` (97),
`check_code[0+97] = 0` selects `trans_code[97] = 4`, and the pass runs the
program at offset 4 once with the cursor 1. -/
theorem record_program_selection_witness :
    0 ≤ Short table_tagged_ab_star.lex_base 0 ∧
    new_mark_backtrk table_tagged_ab_star 0 (buffer_of [97, 98] true (fun _ => -1)) =
      some (buffer_of [97, 98] true (fun _ => -1)) ∧
    lex_char (buffer_of [97, 98] true (fun _ => -1)) = some 97 ∧
    0 ≤ next_state table_tagged_ab_star 0 (Short table_tagged_ab_star.lex_base 0) 97 ∧
    0 < trans_pc_off table_tagged_ab_star 0 97 ∧
    new_lex_iter table_tagged_ab_star 0 (buffer_of [97, 98] true (fun _ => -1)) =
      (run_mem table_tagged_ab_star.lex_code (trans_pc_off table_tagged_ab_star 0 97)
        (buffer_of [97, 98] true (fun _ => -1)).lex_mem
        (advance 97 (buffer_of [97, 98] true (fun _ => -1))).lex_curr_pos).map
        (fun mem => .continue
          (next_state table_tagged_ab_star 0 (Short table_tagged_ab_star.lex_base 0) 97)
          ((advance 97 (buffer_of [97, 98] true (fun _ => -1))).with_mem mem)) ∧
    trans_pc_off table_tagged_ab_star 0 97 = 4 ∧
    (advance 97 (buffer_of [97, 98] true (fun _ => -1))).lex_curr_pos = 1 :=
  ⟨by decide!, new_mark_backtrk_neg _ (by decide!), by decide!, by decide!, by decide!,
    (record_program_selection table_tagged_ab_star 0 97
      (buffer_of [97, 98] true (fun _ => -1)) (buffer_of [97, 98] true (fun _ => -1))
      (by decide!) (new_mark_backtrk_neg _ (by decide!)) (by decide!)).2.1
      (by decide!) (by decide!),
    by decide!, by decide!⟩

/-- Counterexample to C13 as stated (its last sentence): the tagged table of
`ab*` on `ab`, from cells all at `-1`.  The calls made are `run_mem` at offset 4
with cursor 1, whose one pair is `mem[1] <- curr_pos`, and twice `run_tag` at
offset 1, whose one pair is the copy `mem[0] <- mem[1]`.  No program names cell 0
as destination with the source `0xFF`, cell 0 starts at `-1`, and the scan
returns action 0 with cell 0 at 1. -/
theorem copied_cell_leaves_sentinel :
    (buffer_of [97, 98] true (fun _ => -1)).lex_mem 0 = -1 ∧
    run_calls table_tagged_ab_star 0 (fresh (buffer_of [97, 98] true (fun _ => -1))) =
      [.record 4 1, .tag 1, .tag 1] ∧
    call_pairs table_tagged_ab_star.lex_code (.record 4 1) = some [(1, 0xff)] ∧
    call_pairs table_tagged_ab_star.lex_code (.tag 1) = some [(0, 1)] ∧
    (old_caml_new_lex_engine table_tagged_ab_star 0 (buffer_of [97, 98] true (fun _ => -1))).map
      (fun r => (r.1, r.2.lex_mem 0)) = some (.ret 0, 1) :=
  ⟨by decide!, by decide!, by decide!, by decide!,
    new_engine_fuel_map (fun r => (r.1, r.2.lex_mem 0)) 5 0 _ _ (by decide!)⟩

/-- C13 (amended): capture fidelity.  A fresh attempt (`s ≥ 0`) of the engine
with memory is the attempt of the plain engine together with the calls
`run_calls` of the capture programs, made in order on the cells of entry (and has
no defined result exactly when one of them runs off the blob).  A call of
`run_mem` made by the pass of the visit that comes after `k` others is the one of
the transition taken on the character `c` looked up there, at the offset selected
for the state of that pass and `c`, with the cursor after `c` was consumed: the
cursor of entry plus `k + 1` when `c` is a byte (so `i` for the `i`-th byte
consumed of an attempt that starts at offset 0), plus `k` when `c` is the
pseudo-character 256.  Such a call leaves that cursor in every cell whose last
pair in the program has `src = 0xFF`.  In `table_capture`, whose one capture
instruction marks the position after the second character, scanning `xyz` from
offset 0 returns action 0 with cell 0 at 2.  A cell that no pair of the programs
called names as destination has after the scan the value it had before, so a
cell at `-1` is still at `-1`. -/
theorem capture_fidelity (tbl : lexing_table) (s : Int) (lexbuf : lexer_buffer)
    (hs : 0 ≤ s) :
    old_caml_new_lex_engine tbl s lexbuf =
      (exec_calls tbl.lex_code (run_calls tbl s (fresh lexbuf)) lexbuf.lex_mem).map
        (fun m1 => ((old_caml_lex_engine tbl s lexbuf).1,
          (old_caml_lex_engine tbl s lexbuf).2.with_mem m1)) ∧
    (∀ L1 v L2 off pos, lex_visits tbl s (fresh lexbuf) = L1 ++ v :: L2 →
      Call.record off pos ∈ iter_calls tbl v.1 v.2 →
      ∃ c, lex_char v.2 = some c ∧
        0 ≤ next_state tbl v.1 (Short tbl.lex_base v.1) c ∧
        off = trans_pc_off tbl v.1 c ∧
        pos = lexbuf.lex_curr_pos + L1.length + (if c = 256 then 0 else 1)) ∧
    (∀ off pos m m1 ps1 d ps2,
      call_pairs tbl.lex_code (.record off pos) = some (ps1 ++ (d, 0xff) :: ps2) →
      (∀ p ∈ ps2, p.1 ≠ d) → run_mem tbl.lex_code off m pos = some m1 → m1 d = pos) ∧
    (old_caml_new_lex_engine table_capture 0
        (buffer_of [120, 121, 122] true (fun _ => -1))).map
      (fun r => (r.1, r.2.lex_mem 0)) = some (.ret 0, 2) ∧
    (∀ d r, old_caml_new_lex_engine tbl s lexbuf = some r →
      (∀ k ∈ run_calls tbl s (fresh lexbuf), ∀ ps, call_pairs tbl.lex_code k = some ps →
        ∀ p ∈ ps, p.1 ≠ d) →
      r.2.lex_mem d = lexbuf.lex_mem d ∧ (lexbuf.lex_mem d = -1 → r.2.lex_mem d = -1)) := by
  have hrun : old_caml_new_lex_engine tbl s lexbuf =
      (exec_calls tbl.lex_code (run_calls tbl s (fresh lexbuf)) lexbuf.lex_mem).map
        (fun m1 => ((old_caml_lex_engine tbl s lexbuf).1,
          (old_caml_lex_engine tbl s lexbuf).2.with_mem m1)) := by
    rw [old_caml_new_lex_engine_fresh tbl hs, old_caml_lex_engine_fresh tbl hs]
    exact new_lex_loop_calls tbl s (fresh lexbuf) lexbuf.lex_mem
  refine ⟨hrun, ?_, ?_, ?_, ?_⟩
  · intro L1 v L2 off pos hv hk
    obtain ⟨c, hc, hn, hoff, -, hpos⟩ := record_mem_iter_calls tbl v.1 v.2 off pos hk
    refine ⟨c, hc, hn, hoff, ?_⟩
    have hcur := lex_visits_char_cursor tbl s (fresh lexbuf) L1 v L2 hv c hc
    have hf : (fresh lexbuf).lex_curr_pos = lexbuf.lex_curr_pos := rfl
    rw [hpos, advance_curr_pos, hcur, hf]
    split <;> omega
  · intro off pos m m1 ps1 d ps2 hps hd hr
    have h1 := exec_call_pairs tbl.lex_code m (.record off pos)
    rw [hps] at h1
    have h2 : exec_call tbl.lex_code m (.record off pos) = some m1 := hr
    rw [h2] at h1
    have h3 := Option.some.inj h1
    rw [h3]
    exact exec_pairs_last_mark pos ps1 d ps2 m hd
  · exact new_engine_fuel_map (fun r => (r.1, r.2.lex_mem 0)) 6 0 _ _ (by decide!)
  · intro d r hr hd
    rw [hrun] at hr
    cases hx : exec_calls tbl.lex_code (run_calls tbl s (fresh lexbuf)) lexbuf.lex_mem with
    | none =>
      rw [hx] at hr
      cases hr
    | some m1 =>
      rw [hx] at hr
      have hr1 := Option.some.inj hr
      have hm : r.2.lex_mem = m1 := by
        rw [← hr1]
        rfl
      have hfr := exec_calls_frame tbl.lex_code d _ _ m1 hx hd
      rw [hm, hfr]
      exact ⟨rfl, fun h => h⟩

/-- Witness of C13 (amended): `table_capture` on `xyz` from offset 0, cells all
at `-1`.  The calls made are `run_mem` at offset 1 with cursor 2, by the pass on
the second byte, and `run_tag` at offset 0, the empty program, at the accepting
state; on the chunk `x` with more input to come no call is made and cell 0 is
still at `-1` at the suspend request. -/
theorem capture_fidelity_witness :
    (0 : Int) ≤ 0 ∧
    old_caml_new_lex_engine table_capture 0 (buffer_of [120, 121, 122] true (fun _ => -1)) =
      (exec_calls table_capture.lex_code
        (run_calls table_capture 0 (fresh (buffer_of [120, 121, 122] true (fun _ => -1))))
        (buffer_of [120, 121, 122] true (fun _ => -1)).lex_mem).map
        (fun m1 =>
          ((old_caml_lex_engine table_capture 0
              (buffer_of [120, 121, 122] true (fun _ => -1))).1,
            (old_caml_lex_engine table_capture 0
              (buffer_of [120, 121, 122] true (fun _ => -1))).2.with_mem m1)) ∧
    run_calls table_capture 0 (fresh (buffer_of [120, 121, 122] true (fun _ => -1))) =
      [.record 1 2, .tag 0] ∧
    call_pairs table_capture.lex_code (.record 1 2) = some [(0, 0xff)] ∧
    call_pairs table_capture.lex_code (.tag 0) = some [] ∧
    run_calls table_capture 0 (fresh (buffer_of [120] false (fun _ => -1))) = [] ∧
    (old_caml_new_lex_engine table_capture 0 (buffer_of [120] false (fun _ => -1))).map
      (fun r => (r.1, r.2.lex_mem 0)) = some (.ret (-2), -1) :=
  ⟨by decide,
    (capture_fidelity table_capture 0 (buffer_of [120, 121, 122] true (fun _ => -1))
      (by decide)).1,
    by decide!, by decide!, by decide!, by decide!,
    new_engine_fuel_map (fun r => (r.1, r.2.lex_mem 0)) 5 0 _ _ (by decide!)⟩

end Lexing
